import Mathlib

/-!
# ECS150 file system (`libfs/fs.c`): shallow embedding and verified properties

The C globals (`superblock`, `FAT`, `root_directory`, `open_file_table`) and the
block store become one explicit state `FS` that every operation takes and returns.
Array accesses are checked: an access outside the bounds of the C object is
undefined behaviour in C and is a `Fault` here.  Machine integers are `Nat`/`Int`
with the conversions of the C types written out (`int` has 32 bits, `size_t` 64).
A C loop is a function recursive in the number of iterations left.
-/

namespace ECS150FS

/-! ## Constants -/

/-- Modelled from the spec: the block size of the block store (`disk.h` is not in the
source tree).  Section 8 of the spec fixes it at 4096, which is also the size of the
packed `Superblock` struct that one block is read into. -/
def BLOCK_SIZE : Nat := 4096

/-- The macro `FS_SIGNATURE_LEN`. -/
def FS_SIGNATURE_LEN : Nat := 8

/-- The macro `FAT_EOC`. -/
def FAT_EOC : Nat := 0xFFFF

/-- Modelled from the spec: the capacity constants of `fs.h` (not in the source tree):
the length of the file-name field, the number of directory slots and the number of
session slots.  They are taken as parameters. -/
structure Limits where
  FS_FILENAME_LEN : Nat
  FS_FILE_MAX_COUNT : Nat
  FS_OPEN_MAX_COUNT : Nat
  deriving DecidableEq, Repr

/-! ## Machine integers -/

/-- Conversion to `uint16_t`. -/
def toU16 (x : Int) : Nat := (x % 65536).toNat

/-- Conversion to `int16_t` (two's complement wrap). -/
def toI16 (x : Int) : Int :=
  if x % 65536 < 32768 then x % 65536 else x % 65536 - 65536

/-- Conversion to `int` (32 bits, two's complement wrap). -/
def toI32 (x : Int) : Int :=
  if x % 4294967296 < 2147483648 then x % 4294967296 else x % 4294967296 - 4294967296

/-- Conversion to `uint32_t`. -/
def toU32 (x : Int) : Nat := (x % 4294967296).toNat

/-- Conversion to `size_t` (64 bits). -/
def toSize (x : Int) : Nat := (x % 18446744073709551616).toNat

/-! ## Data model -/

/-- The struct `Superblock`. -/
structure Superblock where
  signature : List Nat
  total_block_num : Nat
  root_dir_index : Nat
  data_start_index : Nat
  data_block_num : Nat
  fat_block_num : Nat
  padding : List Nat
  deriving DecidableEq, Repr

/-- The struct `RootDirEntry`; `file_name` holds the raw bytes of the name field. -/
structure RootDirEntry where
  file_name : List Nat
  file_size : Nat
  data_index : Nat
  padding : List Nat
  deriving DecidableEq, Repr

/-- The struct `OpenFileEntry`. -/
structure OpenFileEntry where
  offset : Nat
  rootdir_ptr : Int
  deriving DecidableEq, Repr

/-- The process-wide state: the four C globals and the block store.  `FAT = none` is
the null pointer; `disk = none` means that no block store is open. -/
structure FS where
  superblock : Superblock
  FAT : Option (List Nat)
  root_directory : List RootDirEntry
  open_file_table : List OpenFileEntry
  disk : Option (List (List Nat))
  deriving DecidableEq, Repr

/-- Undefined behaviour of the C program, made explicit. -/
inductive Fault where
  | null_fat
  | fat_index (i : Int)
  | dir_index (i : Int)
  | oft_index (i : Int)
  | buffer_overrun
  | int_overflow
  | diverges
  deriving DecidableEq, Repr

/-! ## Checked access to the global arrays -/

/-- The read `FAT[i]`. -/
def FAT_read (s : FS) (i : Int) : Except Fault Nat :=
  match s.FAT with
  | none => .error .null_fat
  | some fat =>
    if 0 ≤ i ∧ i < fat.length then .ok (fat.getD i.toNat 0) else .error (.fat_index i)

/-- The write `FAT[i] = v`. -/
def FAT_write (s : FS) (i : Int) (v : Nat) : Except Fault FS :=
  match s.FAT with
  | none => .error .null_fat
  | some fat =>
    if 0 ≤ i ∧ i < fat.length then .ok { s with FAT := some (fat.set i.toNat v) }
    else .error (.fat_index i)

/-- The read `root_directory[i]`. -/
def dir_read (s : FS) (i : Int) : Except Fault RootDirEntry :=
  if 0 ≤ i ∧ i < s.root_directory.length then
    match s.root_directory.get? i.toNat with
    | some e => .ok e
    | none => .error (.dir_index i)
  else .error (.dir_index i)

/-- The write `root_directory[i] = e`. -/
def dir_write (s : FS) (i : Int) (e : RootDirEntry) : Except Fault FS :=
  if 0 ≤ i ∧ i < s.root_directory.length then
    .ok { s with root_directory := s.root_directory.set i.toNat e }
  else .error (.dir_index i)

/-- The read `open_file_table[i]`. -/
def oft_read (s : FS) (i : Int) : Except Fault OpenFileEntry :=
  if 0 ≤ i ∧ i < s.open_file_table.length then
    match s.open_file_table.get? i.toNat with
    | some e => .ok e
    | none => .error (.oft_index i)
  else .error (.oft_index i)

/-- The write `open_file_table[i] = e`. -/
def oft_write (s : FS) (i : Int) (e : OpenFileEntry) : Except Fault FS :=
  if 0 ≤ i ∧ i < s.open_file_table.length then
    .ok { s with open_file_table := s.open_file_table.set i.toNat e }
  else .error (.oft_index i)

/-! ## The block store -/

/-- Modelled from the spec: `block_read` of the external block store (`disk.c` is not in
the source tree).  It yields the `BLOCK_SIZE` bytes of the block, or nothing (status -1)
when no store is open or the index is not a block of the store. -/
def block_read (disk : Option (List (List Nat))) (i : Nat) : Option (List Nat) :=
  match disk with
  | none => none
  | some blocks =>
    match blocks.get? i with
    | none => none
    | some b => some ((b ++ List.replicate BLOCK_SIZE 0).take BLOCK_SIZE)

/-- Modelled from the spec: `block_write` of the external block store.  It returns the
status (0 or -1) and the store; a failed write leaves the store as it was. -/
def block_write (disk : Option (List (List Nat))) (i : Nat) (data : List Nat) :
    Int × Option (List (List Nat)) :=
  match disk with
  | none => (-1, none)
  | some blocks => if i < blocks.length then (0, some (blocks.set i data)) else (-1, some blocks)

/-! ## Strings -/

/-- The C string held in a byte array: the bytes before the first NUL. -/
def cstr (bytes : List Nat) : List Nat := bytes.takeWhile (fun c => c ≠ 0)

/-- The effect of `strcpy(dst, src)` on the array `dst`: the characters of `src`, the
terminating NUL, and the old bytes behind it. -/
def strcpy (dst src : List Nat) : List Nat := src ++ [0] ++ dst.drop (src.length + 1)

/-- The function `isFileNameValid`; `none` is the null pointer, `some n` a string with
the characters `n`.  The result of `strlen` is taken as it is: a name of `2 ^ 31`
characters or more, whose length does not fit `int fname_len`, is outside the model. -/
def isFileNameValid (L : Limits) (filename : Option (List Nat)) : Bool :=
  match filename with
  | none => false
  | some n =>
    if (n.length : Int) > (L.FS_FILENAME_LEN : Int) - 1 ∨ (n.length : Int) = 0 then false
    else true

/-! ## Directory operations -/

/-- The scan loop of `fs_create` from slot `i` on, for `n` more slots: `none` when a
slot already holds the name, else the value of `first_free`. -/
def fs_create_scan (s : FS) (name : List Nat) : Nat → Nat → Int → Except Fault (Option Int)
  | 0, _, first_free => .ok (some first_free)
  | n + 1, i, first_free =>
    match dir_read s i with
    | .error f => .error f
    | .ok e =>
      if e.file_name.headD 0 = 0 then
        fs_create_scan s name n (i + 1) (if first_free = -1 then (i : Int) else first_free)
      else if cstr e.file_name = name then .ok none
      else fs_create_scan s name n (i + 1) first_free

/-- The function `fs_create`. -/
def fs_create (L : Limits) (s : FS) (filename : Option (List Nat)) : Except Fault (Int × FS) :=
  if isFileNameValid L filename = false then .ok (-1, s)
  else
    match fs_create_scan s (filename.getD []) L.FS_FILE_MAX_COUNT 0 (-1) with
    | .error f => .error f
    | .ok none => .ok (-1, s)
    | .ok (some first_free) =>
      if first_free = -1 then .ok (-1, s)
      else
        match dir_read s first_free with
        | .error f => .error f
        | .ok e =>
          match dir_write s first_free
              { e with file_name := strcpy e.file_name (filename.getD []),
                       file_size := 0, data_index := FAT_EOC } with
          | .error f => .error f
          | .ok s1 => .ok (0, s1)

/-- The loop of `isFileOpen` from session slot `i` on, for `n` more slots. -/
def isFileOpen_scan (s : FS) (directoryIndex : Int) : Nat → Nat → Except Fault Bool
  | 0, _ => .ok false
  | n + 1, i =>
    match oft_read s i with
    | .error f => .error f
    | .ok e =>
      if e.rootdir_ptr = directoryIndex then .ok true
      else isFileOpen_scan s directoryIndex n (i + 1)

/-- The function `isFileOpen`. -/
def isFileOpen (L : Limits) (s : FS) (directoryIndex : Int) : Except Fault Bool :=
  isFileOpen_scan s directoryIndex L.FS_OPEN_MAX_COUNT 0

/-- The name search loop of `fs_delete` and `fs_open` from slot `i` on, for `n` more
slots: the value of the loop variable when the loop is left. -/
def find_name (s : FS) (name : List Nat) : Nat → Nat → Except Fault Nat
  | 0, i => .ok i
  | n + 1, i =>
    match dir_read s i with
    | .error f => .error f
    | .ok e => if cstr e.file_name = name then .ok i else find_name s name n (i + 1)

/-- The `while` loop of `fs_delete`.  The C loop has no bound; `fuel` bounds the walk,
and a walk that uses it up is on a cycle of the table. -/
def free_chain (s : FS) : Nat → Nat → Except Fault (FS × Nat)
  | 0, currentIndex => if currentIndex ≠ FAT_EOC then .error .diverges else .ok (s, currentIndex)
  | fuel + 1, currentIndex =>
    if currentIndex ≠ FAT_EOC then
      match FAT_read s currentIndex with
      | .error f => .error f
      | .ok nextIndex =>
        match FAT_write s currentIndex 0 with
        | .error f => .error f
        | .ok s1 => free_chain s1 fuel nextIndex
    else .ok (s, currentIndex)

/-- The function `fs_delete`. -/
def fs_delete (L : Limits) (s : FS) (filename : Option (List Nat)) : Except Fault (Int × FS) :=
  if isFileNameValid L filename = false then .ok (-1, s)
  else
    match find_name s (filename.getD []) L.FS_FILE_MAX_COUNT 0 with
    | .error f => .error f
    | .ok i =>
      if i = L.FS_FILE_MAX_COUNT then .ok (-1, s)
      else
        match isFileOpen L s i with
        | .error f => .error f
        | .ok true => .ok (-1, s)
        | .ok false =>
          match dir_read s i with
          | .error f => .error f
          | .ok e =>
            match dir_write s i { e with data_index := 0 } with
            | .error f => .error f
            | .ok s1 =>
              match free_chain s1 ((s1.FAT.getD []).length + 3) e.data_index with
              | .error f => .error f
              | .ok (s2, currentIndex) =>
                match FAT_write s2 currentIndex 0 with
                | .error f => .error f
                | .ok s3 =>
                  match dir_read s3 i with
                  | .error f => .error f
                  | .ok e3 =>
                    match dir_write s3 i
                        { e3 with file_name := e3.file_name.set 0 0, file_size := 0 } with
                    | .error f => .error f
                    | .ok s4 => .ok (0, s4)

/-! ## Session operations -/

/-- The first loop of `fs_open` from session slot `i` on, for `n` more slots: the value
of the loop variable when the loop is left. -/
def find_free_session (s : FS) : Nat → Nat → Except Fault Nat
  | 0, i => .ok i
  | n + 1, i =>
    match oft_read s i with
    | .error f => .error f
    | .ok e => if e.rootdir_ptr = -1 then .ok i else find_free_session s n (i + 1)

/-- The function `fs_open`. -/
def fs_open (L : Limits) (s : FS) (filename : Option (List Nat)) : Except Fault (Int × FS) :=
  if isFileNameValid L filename = false then .ok (-1, s)
  else
    match find_free_session s L.FS_OPEN_MAX_COUNT 0 with
    | .error f => .error f
    | .ok i =>
      if i = L.FS_OPEN_MAX_COUNT then .ok (-1, s)
      else
        match find_name s (filename.getD []) L.FS_FILE_MAX_COUNT 0 with
        | .error f => .error f
        | .ok r =>
          if r = L.FS_FILE_MAX_COUNT then .ok (-1, s)
          else
            match oft_read s i with
            | .error f => .error f
            | .ok e =>
              match oft_write s i { e with rootdir_ptr := toI16 r, offset := 0 } with
              | .error f => .error f
              | .ok s1 => .ok (0, s1)

/-- The guard `fd >= FS_OPEN_MAX_COUNT || open_file_table[fd].rootdir_ptr == -1` that
opens every session operation: `none` when it rejects the session, else the entry. -/
def session_guard (L : Limits) (s : FS) (fd : Int) : Except Fault (Option OpenFileEntry) :=
  if fd ≥ (L.FS_OPEN_MAX_COUNT : Int) then .ok none
  else
    match oft_read s fd with
    | .error f => .error f
    | .ok e => if e.rootdir_ptr = -1 then .ok none else .ok (some e)

/-- The function `fs_close`. -/
def fs_close (L : Limits) (s : FS) (fd : Int) : Except Fault (Int × FS) :=
  match session_guard L s fd with
  | .error f => .error f
  | .ok none => .ok (-1, s)
  | .ok (some e) =>
    match oft_write s fd { e with rootdir_ptr := -1 } with
    | .error f => .error f
    | .ok s1 => .ok (0, s1)

/-- The function `fs_stat`. -/
def fs_stat (L : Limits) (s : FS) (fd : Int) : Except Fault Int :=
  match session_guard L s fd with
  | .error f => .error f
  | .ok none => .ok (-1)
  | .ok (some e) =>
    match dir_read s e.rootdir_ptr with
    | .error f => .error f
    | .ok d => .ok (toI32 d.file_size)

/-- The function `fs_lseek`. -/
def fs_lseek (L : Limits) (s : FS) (fd : Int) (offset : Nat) : Except Fault (Int × FS) :=
  match session_guard L s fd with
  | .error f => .error f
  | .ok none => .ok (-1, s)
  | .ok (some e) =>
    match fs_stat L s fd, fs_stat L s fd with
    | .error f, _ => .error f
    | _, .error f => .error f
    | .ok a, .ok b =>
      if a > b then .ok (-1, s)
      else
        match oft_write s fd { e with offset := toU32 offset } with
        | .error f => .error f
        | .ok s1 => .ok (0, s1)

/-! ## The read/write engine -/

/-- The loop of `go_to_offset`, for `n` more steps: the block index reached and the
value left in `*prev_index`. -/
def go_to_offset_loop (s : FS) : Nat → Nat → Int → Except Fault (Nat × Int)
  | 0, currentIndex, prev_index => .ok (currentIndex, prev_index)
  | n + 1, currentIndex, _ =>
    match FAT_read s currentIndex with
    | .error f => .error f
    | .ok next => go_to_offset_loop s n (toU16 next) (toI16 currentIndex)

/-- The function `go_to_offset`, given the session entry `open_file_table[fd]`. -/
def go_to_offset (s : FS) (e : OpenFileEntry) : Except Fault (Nat × Int) :=
  match dir_read s e.rootdir_ptr with
  | .error f => .error f
  | .ok d => go_to_offset_loop s (toI32 (e.offset / BLOCK_SIZE)).toNat (toU16 d.data_index) (-1)

/-- The function `min` on `size_t`. -/
def min (a b : Nat) : Nat := if a < b then a else b

/-- The function `max` on `size_t`. -/
def max (a b : Nat) : Nat := if a > b then a else b

/-- The loop of `next_free_fat` from index `i` on, for `n` more indices. -/
def next_free_fat_loop (s : FS) : Nat → Nat → Except Fault Int
  | 0, _ => .ok (-1)
  | n + 1, i =>
    match FAT_read s i with
    | .error f => .error f
    | .ok v => if v = 0 then .ok (i : Int) else next_free_fat_loop s n (i + 1)

/-- The function `next_free_fat`. -/
def next_free_fat (s : FS) : Except Fault Int :=
  next_free_fat_loop s (s.superblock.data_block_num - 1) 1

/-- The number of blocks an access of `count` bytes spans when it starts `frontPadding`
bytes into a block: the computation of `block_to_be_wrt` and `block_to_be_read`. -/
def block_span (frontPadding count : Nat) : Except Fault Int :=
  if count = 0 then .ok 0
  else if toSize (frontPadding + count) % BLOCK_SIZE ≠ 0 then
    if toI32 (toSize (frontPadding + count) / BLOCK_SIZE) + 1 < 2147483648 then
      .ok (toI32 (toSize (frontPadding + count) / BLOCK_SIZE) + 1)
    else .error .int_overflow
  else .ok (toI32 (toSize (frontPadding + count) / BLOCK_SIZE))

/-- The assignment `endPadding = blocks * BLOCK_SIZE - (frontPadding + count)` made on
the last block; the product is computed in `int`. -/
def last_end_padding (blocks : Int) (frontPadding count : Nat) : Except Fault Nat :=
  if blocks * BLOCK_SIZE < 2147483648 ∧ -2147483648 ≤ blocks * BLOCK_SIZE then
    .ok (toSize (blocks * BLOCK_SIZE - toSize (frontPadding + count)))
  else .error .int_overflow

/-- The length `BLOCK_SIZE - frontPadding - endPadding`, computed in `size_t`. -/
def chunk_len (frontPadding endPadding : Nat) : Nat :=
  toSize ((BLOCK_SIZE : Int) - frontPadding - endPadding)

/-- The effect of `memcpy(dst + dstOff, src + srcOff, len)` on `dst`; copying outside
either array is a fault. -/
def memcpy (dst : List Nat) (dstOff : Nat) (src : List Nat) (srcOff len : Nat) :
    Except Fault (List Nat) :=
  if dstOff + len ≤ dst.length ∧ srcOff + len ≤ src.length then
    .ok (dst.take dstOff ++ (src.drop srcOff).take len ++ dst.drop (dstOff + len))
  else .error .buffer_overrun

/-- The local variables of `fs_write` that the loop updates. -/
structure WriteVars where
  currentIndex : Nat
  prev_index : Int
  bytesWritten : Nat
  frontPadding : Nat
  endPadding : Nat
  deriving DecidableEq, Repr

/-- The allocation of the first block of an empty file in `fs_write` (taken when
`i == 0`, `currentIndex == FAT_EOC` and `prev_index == -1`). -/
def alloc_first (s : FS) (rootdir_ptr : Int) : Except Fault (FS × Nat) :=
  match next_free_fat s with
  | .error f => .error f
  | .ok nf =>
    match dir_read s rootdir_ptr with
    | .error f => .error f
    | .ok d =>
      match dir_write s rootdir_ptr { d with data_index := toU16 nf } with
      | .error f => .error f
      | .ok s1 =>
        match FAT_write s1 (toU16 nf) FAT_EOC with
        | .error f => .error f
        | .ok s2 => .ok (s2, toU16 nf)

/-- The extension of a chain in `fs_write` (taken when `currentIndex == FAT_EOC`). -/
def alloc_next (s : FS) (prev_index : Int) : Except Fault (FS × Nat) :=
  match next_free_fat s with
  | .error f => .error f
  | .ok nf =>
    match FAT_write s prev_index (toU16 nf) with
    | .error f => .error f
    | .ok s1 =>
      match FAT_write s1 (toU16 nf) FAT_EOC with
      | .error f => .error f
      | .ok s2 => .ok (s2, toU16 nf)

/-- The transfer of one block in `fs_write`: a whole block straight from `buf`, or a
read-modify-write through the bounce buffer.  The status of `block_read` and
`block_write` is dropped, as in the source; a write to an index that is not a block of
the store does not touch `buf`; the bounce buffer starts zero-filled. -/
def write_block (s : FS) (buf : List Nat) (v : WriteVars) : Except Fault FS :=
  if v.frontPadding = 0 ∧ v.endPadding = 0 then
    if (block_read s.disk (v.currentIndex + s.superblock.data_start_index)).isSome then
      if v.bytesWritten + BLOCK_SIZE ≤ buf.length then
        .ok { s with disk := (block_write s.disk (v.currentIndex + s.superblock.data_start_index)
                                ((buf.drop v.bytesWritten).take BLOCK_SIZE)).2 }
      else .error .buffer_overrun
    else .ok s
  else
    match memcpy ((block_read s.disk (v.currentIndex + s.superblock.data_start_index)).getD
              (List.replicate BLOCK_SIZE 0))
            v.frontPadding buf v.bytesWritten (chunk_len v.frontPadding v.endPadding) with
    | .error f => .error f
    | .ok bounce_buffer =>
      .ok { s with disk := (block_write s.disk (v.currentIndex + s.superblock.data_start_index)
                              bounce_buffer).2 }

/-- One iteration of the loop of `fs_write`, with loop variable `i`. -/
def fs_write_step (s : FS) (rootdir_ptr : Int) (buf : List Nat) (count : Nat)
    (block_to_be_wrt : Int) (i : Nat) (v : WriteVars) : Except Fault (FS × WriteVars) :=
  match (if i = 0 ∧ v.currentIndex = FAT_EOC ∧ v.prev_index = -1
         then alloc_first s rootdir_ptr else .ok (s, v.currentIndex)) with
  | .error f => .error f
  | .ok (s1, c1) =>
    match (if c1 = FAT_EOC then alloc_next s1 v.prev_index else .ok (s1, c1)) with
    | .error f => .error f
    | .ok (s2, c2) =>
      match (if (i : Int) = block_to_be_wrt - 1
             then last_end_padding block_to_be_wrt v.frontPadding count
             else .ok v.endPadding) with
      | .error f => .error f
      | .ok ep =>
        match write_block s2 buf { v with currentIndex := c2, endPadding := ep } with
        | .error f => .error f
        | .ok s3 =>
          match FAT_read s3 c2 with
          | .error f => .error f
          | .ok next =>
            .ok (s3, { currentIndex := toU16 next,
                       prev_index := toI16 c2,
                       bytesWritten := toSize (v.bytesWritten + chunk_len v.frontPadding ep),
                       frontPadding := if i = 0 then 0 else v.frontPadding,
                       endPadding := ep })

/-- The loop of `fs_write` from `i` on, for `n` more iterations. -/
def fs_write_loop (rootdir_ptr : Int) (buf : List Nat) (count : Nat) (block_to_be_wrt : Int) :
    Nat → Nat → FS → WriteVars → Except Fault (FS × WriteVars)
  | 0, _, s, v => .ok (s, v)
  | n + 1, i, s, v =>
    match fs_write_step s rootdir_ptr buf count block_to_be_wrt i v with
    | .error f => .error f
    | .ok (s1, v1) => fs_write_loop rootdir_ptr buf count block_to_be_wrt n (i + 1) s1 v1

/-- The function `fs_write`; `buf` is the caller's array. -/
def fs_write (L : Limits) (s : FS) (fd : Int) (buf : List Nat) (count : Nat) :
    Except Fault (Int × FS) :=
  match session_guard L s fd with
  | .error f => .error f
  | .ok none => .ok (-1, s)
  | .ok (some e) =>
    match dir_read s e.rootdir_ptr with
    | .error f => .error f
    | .ok d =>
      match go_to_offset s e with
      | .error f => .error f
      | .ok (currentIndex, prev_index) =>
        match block_span (e.offset % BLOCK_SIZE) count with
        | .error f => .error f
        | .ok block_to_be_wrt =>
          match fs_write_loop e.rootdir_ptr buf count block_to_be_wrt block_to_be_wrt.toNat 0 s
              { currentIndex := currentIndex, prev_index := prev_index, bytesWritten := 0,
                frontPadding := e.offset % BLOCK_SIZE, endPadding := 0 } with
          | .error f => .error f
          | .ok (s1, v) =>
            if v.bytesWritten ≠ count then .ok (-1, s1)
            else
              match oft_read s1 fd with
              | .error f => .error f
              | .ok e1 =>
                match oft_write s1 fd { e1 with offset := toU32 (e1.offset + v.bytesWritten) } with
                | .error f => .error f
                | .ok s2 =>
                  match dir_read s2 e.rootdir_ptr with
                  | .error f => .error f
                  | .ok d2 =>
                    match dir_write s2 e.rootdir_ptr
                        { d2 with
                          file_size := toU32 (max d.file_size (toU32 (e1.offset + v.bytesWritten))) } with
                    | .error f => .error f
                    | .ok s3 => .ok (toI32 v.bytesWritten, s3)

/-- The local variables of `fs_read` that the loop updates, and the caller's array. -/
structure ReadVars where
  currentIndex : Nat
  bytesRead : Nat
  frontPadding : Nat
  endPadding : Nat
  buf : List Nat
  deriving DecidableEq, Repr

/-- The transfer of one block in `fs_read`: a whole block straight into `buf`, or a
copy of the covered range out of the bounce buffer.  The status of `block_read` is
dropped, as in the source; the bounce buffer starts zero-filled. -/
def read_block (s : FS) (v : ReadVars) : Except Fault (List Nat) :=
  if v.frontPadding = 0 ∧ v.endPadding = 0 then
    match block_read s.disk (v.currentIndex + s.superblock.data_start_index) with
    | none => .ok v.buf
    | some b =>
      if v.bytesRead + BLOCK_SIZE ≤ v.buf.length then
        .ok (v.buf.take v.bytesRead ++ b ++ v.buf.drop (v.bytesRead + BLOCK_SIZE))
      else .error .buffer_overrun
  else
    memcpy v.buf v.bytesRead
      ((block_read s.disk (v.currentIndex + s.superblock.data_start_index)).getD
        (List.replicate BLOCK_SIZE 0))
      v.frontPadding (chunk_len v.frontPadding v.endPadding)

/-- One iteration of the loop of `fs_read`, with loop variable `i`. -/
def fs_read_step (s : FS) (count : Nat) (block_to_be_read : Int) (i : Nat) (v : ReadVars) :
    Except Fault ReadVars :=
  match (if (i : Int) = block_to_be_read - 1
         then last_end_padding block_to_be_read v.frontPadding count
         else .ok v.endPadding) with
  | .error f => .error f
  | .ok ep =>
    match read_block s { v with endPadding := ep } with
    | .error f => .error f
    | .ok buf1 =>
      match FAT_read s v.currentIndex with
      | .error f => .error f
      | .ok next =>
        .ok { currentIndex := toU16 next,
              bytesRead := toSize (v.bytesRead + chunk_len v.frontPadding ep),
              frontPadding := if i = 0 then 0 else v.frontPadding,
              endPadding := ep,
              buf := buf1 }

/-- The loop of `fs_read` from `i` on, for `n` more iterations. -/
def fs_read_loop (s : FS) (count : Nat) (block_to_be_read : Int) :
    Nat → Nat → ReadVars → Except Fault ReadVars
  | 0, _, v => .ok v
  | n + 1, i, v =>
    match fs_read_step s count block_to_be_read i v with
    | .error f => .error f
    | .ok v1 => fs_read_loop s count block_to_be_read n (i + 1) v1

/-- The function `fs_read`; `buf` is the caller's array, returned as the call leaves it. -/
def fs_read (L : Limits) (s : FS) (fd : Int) (buf : List Nat) (count : Nat) :
    Except Fault (Int × List Nat × FS) :=
  match session_guard L s fd with
  | .error f => .error f
  | .ok none => .ok (-1, buf, s)
  | .ok (some e) =>
    match dir_read s e.rootdir_ptr with
    | .error f => .error f
    | .ok d =>
      match go_to_offset s e with
      | .error f => .error f
      | .ok (currentIndex, _) =>
        match block_span (e.offset % BLOCK_SIZE) (min count (toU32 (d.file_size - e.offset))) with
        | .error f => .error f
        | .ok block_to_be_read =>
          match fs_read_loop s (min count (toU32 (d.file_size - e.offset))) block_to_be_read
              block_to_be_read.toNat 0
              { currentIndex := currentIndex, bytesRead := 0,
                frontPadding := e.offset % BLOCK_SIZE, endPadding := 0, buf := buf } with
          | .error f => .error f
          | .ok v =>
            if v.bytesRead ≠ min count (toU32 (d.file_size - e.offset)) then .ok (-1, v.buf, s)
            else
              match oft_write s fd { e with offset := toU32 (e.offset + v.bytesRead) } with
              | .error f => .error f
              | .ok s1 => .ok (toI32 v.bytesRead, v.buf, s1)

/-! ## The on-disk layout and mount/unmount

`block_read(i, &object)` copies one block over the bytes of a C object.  The packed
structs and the `uint16_t` array are therefore read and written through their object
representation, taken here as little-endian (the byte order of the x86 target of the
project). -/

/-- The value of a little-endian byte sequence. -/
def le_value : List Nat → Nat
  | [] => 0
  | x :: xs => x + 256 * le_value xs

/-- The `n` bytes of the little-endian representation of `v`. -/
def le_bytes : Nat → Nat → List Nat
  | 0, _ => []
  | n + 1, v => v % 256 :: le_bytes n (v / 256)

/-- A byte sequence read as an array of `uint16_t`. -/
def le16_decode : List Nat → List Nat
  | lo :: hi :: rest => le_value [lo, hi] :: le16_decode rest
  | _ => []

/-- The bytes of an array of `uint16_t`. -/
def le16_encode : List Nat → List Nat
  | [] => []
  | v :: vs => le_bytes 2 v ++ le16_encode vs

/-- The packed struct `Superblock` as `block_read(0, &superblock)` fills it from the
bytes of block 0. -/
def load_superblock (b : List Nat) : Superblock :=
  { signature := b.take FS_SIGNATURE_LEN,
    total_block_num := le_value ((b.drop 8).take 2),
    root_dir_index := le_value ((b.drop 10).take 2),
    data_start_index := le_value ((b.drop 12).take 2),
    data_block_num := le_value ((b.drop 14).take 2),
    fat_block_num := le_value ((b.drop 16).take 1),
    padding := b.drop 17 }

/-- The bytes of the packed struct `Superblock` in memory. -/
def superblock_bytes (sb : Superblock) : List Nat :=
  sb.signature ++ le_bytes 2 sb.total_block_num ++ le_bytes 2 sb.root_dir_index ++
  le_bytes 2 sb.data_start_index ++ le_bytes 2 sb.data_block_num ++
  le_bytes 1 sb.fat_block_num ++ sb.padding

/-- The bytes of one packed struct `RootDirEntry` in memory. -/
def entry_bytes (e : RootDirEntry) : List Nat :=
  e.file_name ++ le_bytes 4 e.file_size ++ le_bytes 2 e.data_index ++ e.padding

/-- The bytes of the array `root_directory` in memory. -/
def dir_bytes : List RootDirEntry → List Nat
  | [] => []
  | e :: es => entry_bytes e ++ dir_bytes es

/-- One struct `RootDirEntry` read from its `FS_FILENAME_LEN + 16` bytes. -/
def load_entry (L : Limits) (b : List Nat) : RootDirEntry :=
  { file_name := b.take L.FS_FILENAME_LEN,
    file_size := le_value ((b.drop L.FS_FILENAME_LEN).take 4),
    data_index := le_value ((b.drop (L.FS_FILENAME_LEN + 4)).take 2),
    padding := (b.drop (L.FS_FILENAME_LEN + 6)).take 10 }

/-- The first `n` structs `RootDirEntry` of a memory image. -/
def load_directory (L : Limits) : Nat → List Nat → List RootDirEntry
  | 0, _ => []
  | n + 1, bytes =>
    load_entry L (bytes.take (L.FS_FILENAME_LEN + 16)) ::
      load_directory L n (bytes.drop (L.FS_FILENAME_LEN + 16))

/-- The characters of the string literal `"ECS150FS"`. -/
def signature_literal : List Nat := [69, 67, 83, 49, 53, 48, 70, 83]

/-- The value of `strcmp(a, lit) == 0` for a byte array `a` and a string literal with the
characters `lit`: the C string that starts at `a` has to be `lit`. -/
def strcmp_equal (a lit : List Nat) : Bool := decide (cstr a = lit)

/-- Modelled from the spec: `block_disk_open` of the external block store.  `image` is
the store that the path names (`none` when it cannot be opened); the call fails when
there is none or when a store is already open (the comment in `fs_mount`: "not already
opened"). -/
def block_disk_open (disk image : Option (List (List Nat))) :
    Int × Option (List (List Nat)) :=
  match disk, image with
  | some d, _ => (-1, some d)
  | none, none => (-1, none)
  | none, some blocks => (0, some blocks)

/-- Modelled from the spec: `block_disk_count` of the external block store. -/
def block_disk_count (disk : Option (List (List Nat))) : Int :=
  match disk with
  | none => -1
  | some blocks => (blocks.length : Int)

/-- Modelled from the spec: `block_disk_close` of the external block store; it fails
when no store is open. -/
def block_disk_close (disk : Option (List (List Nat))) : Int × Option (List (List Nat)) :=
  match disk with
  | none => (-1, none)
  | some _ => (0, none)

/-- A copy of `entries` into the array `FAT` from index `off` on; copying past the end
of the array is a fault. -/
def FAT_store (fat : List Nat) (off : Nat) (entries : List Nat) : Except Fault (List Nat) :=
  if off + entries.length ≤ fat.length then
    .ok (fat.take off ++ entries ++ fat.drop (off + entries.length))
  else .error .buffer_overrun

/-- The `n` entries of the array `FAT` from index `off` on; reading past the end of the
array is a fault. -/
def FAT_load (fat : List Nat) (off n : Nat) : Except Fault (List Nat) :=
  if off + n ≤ fat.length then .ok ((fat.drop off).take n) else .error .buffer_overrun

/-- The loop of `readFatBlocks` from `i` on, for `n` more iterations, on the allocated
array `fat`: the status and the array. -/
def readFatBlocks_loop (s : FS) : Nat → Nat → List Nat → Except Fault (Int × List Nat)
  | 0, _, fat => .ok (0, fat)
  | n + 1, i, fat =>
    match block_read s.disk (i + 1) with
    | none => .ok (-1, fat)
    | some b =>
      match FAT_store fat (i * BLOCK_SIZE / 2)
          (if (i : Int) = (s.superblock.fat_block_num : Int) - 1 ∧
              s.superblock.data_block_num * 2 % BLOCK_SIZE ≠ 0
           then le16_decode (b.take (s.superblock.data_block_num * 2 % BLOCK_SIZE))
           else le16_decode b) with
      | .error f => .error f
      | .ok fat1 => readFatBlocks_loop s n (i + 1) fat1

/-- The function `readFatBlocks`.  `malloc` is taken to succeed (also for a table of no
entries), and the fresh array to be zero-filled.  A failed `block_read` returns -1 with
the array still allocated, as in the source. -/
def readFatBlocks (s : FS) : Except Fault (Int × FS) :=
  match s.FAT with
  | some _ => .ok (-1, s)
  | none =>
    match readFatBlocks_loop s s.superblock.fat_block_num 0
        (List.replicate s.superblock.data_block_num 0) with
    | .error f => .error f
    | .ok (r, fat) => .ok (r, { s with FAT := some fat })

/-- The loop of `writebackFatBlocks` from `i` on, for `n` more iterations: the status
and the store.  In the last, partly used block the entries are copied to the zeroed
buffer before `block_write` is called; elsewhere `block_write` copies straight from the
array, and a write to an index that is not a block of the store fails before the array
is read. -/
def writebackFatBlocks_loop (sb : Superblock) (fat : List Nat) :
    Nat → Nat → Option (List (List Nat)) → Except Fault (Int × Option (List (List Nat)))
  | 0, _, disk => .ok (0, disk)
  | n + 1, i, disk =>
    if (i : Int) = (sb.fat_block_num : Int) - 1 ∧ sb.data_block_num * 2 % BLOCK_SIZE ≠ 0 then
      match FAT_load fat (i * BLOCK_SIZE / 2) (sb.data_block_num * 2 % BLOCK_SIZE / 2) with
      | .error f => .error f
      | .ok entries =>
        if (block_read disk (i + 1)).isSome then
          writebackFatBlocks_loop sb fat n (i + 1)
            (block_write disk (i + 1)
              (le16_encode entries ++
                List.replicate (BLOCK_SIZE - sb.data_block_num * 2 % BLOCK_SIZE) 0)).2
        else .ok (-1, disk)
    else
      if (block_read disk (i + 1)).isSome then
        match FAT_load fat (i * BLOCK_SIZE / 2) (BLOCK_SIZE / 2) with
        | .error f => .error f
        | .ok entries =>
          writebackFatBlocks_loop sb fat n (i + 1)
            (block_write disk (i + 1) (le16_encode entries)).2
      else .ok (-1, disk)

/-- The function `writebackFatBlocks`; the array is freed only when every block was
written. -/
def writebackFatBlocks (s : FS) : Except Fault (Int × FS) :=
  match s.FAT with
  | none => .error .null_fat
  | some fat =>
    match writebackFatBlocks_loop s.superblock fat s.superblock.fat_block_num 0 s.disk with
    | .error f => .error f
    | .ok (r, disk) =>
      if r = 0 then .ok (0, { s with FAT := none, disk := disk })
      else .ok (r, { s with disk := disk })

/-- The loop of `init_open_file_table` from `i` on, for `n` more slots. -/
def init_open_file_table_loop : Nat → Nat → FS → Except Fault FS
  | 0, _, s => .ok s
  | n + 1, i, s =>
    match oft_read s i with
    | .error f => .error f
    | .ok e =>
      match oft_write s i { e with rootdir_ptr := -1 } with
      | .error f => .error f
      | .ok s1 => init_open_file_table_loop n (i + 1) s1

/-- The function `init_open_file_table`. -/
def init_open_file_table (L : Limits) (s : FS) : Except Fault FS :=
  init_open_file_table_loop L.FS_OPEN_MAX_COUNT 0 s
/-- The function `fs_mount`; `image` is the store that `diskname` names, `none` when it
cannot be opened.  A failed call returns the state as the source leaves it: nothing is
undone. -/
def fs_mount (L : Limits) (s : FS) (image : Option (List (List Nat))) :
    Except Fault (Int × FS) :=
  if (block_disk_open s.disk image).1 ≠ 0 then .ok (-1, s)
  else
    match block_read (block_disk_open s.disk image).2 0 with
    | none => .ok (-1, { s with disk := (block_disk_open s.disk image).2 })
    | some b =>
      if strcmp_equal (superblock_bytes (load_superblock b)) signature_literal = true then
        .ok (-1, { s with disk := (block_disk_open s.disk image).2,
                          superblock := load_superblock b })
      else if block_disk_count (block_disk_open s.disk image).2 ≠
          ((load_superblock b).total_block_num : Int) then
        .ok (-1, { s with disk := (block_disk_open s.disk image).2,
                          superblock := load_superblock b })
      else
        match readFatBlocks { s with disk := (block_disk_open s.disk image).2,
                                     superblock := load_superblock b } with
        | .error f => .error f
        | .ok (r, s1) =>
          if r ≠ 0 then .ok (-1, s1)
          else
            match block_read s1.disk s1.superblock.root_dir_index with
            | none => .ok (-1, s1)
            | some d =>
              if (dir_bytes s1.root_directory).length < BLOCK_SIZE then .error .buffer_overrun
              else if (s1.superblock.data_block_num : Int) + s1.superblock.fat_block_num + 2 ≠
                    s1.superblock.total_block_num ∨
                  (s1.superblock.data_start_index : Int) ≠ s1.superblock.fat_block_num + 2 ∨
                  (s1.superblock.root_dir_index : Int) ≠ s1.superblock.fat_block_num + 1 then
                .ok (-1, { s1 with root_directory := load_directory L L.FS_FILE_MAX_COUNT
                                      (d ++ (dir_bytes s1.root_directory).drop BLOCK_SIZE) })
              else
                match init_open_file_table L
                    { s1 with root_directory := load_directory L L.FS_FILE_MAX_COUNT
                                (d ++ (dir_bytes s1.root_directory).drop BLOCK_SIZE) } with
                | .error f => .error f
                | .ok s2 => .ok (0, s2)

/-- The function `fs_umount`: the status, the state, and the blocks of the store as the
call leaves them (after a successful call the store is closed and these blocks are what
stays on the host). -/
def fs_umount (s : FS) : Except Fault (Int × FS × Option (List (List Nat))) :=
  match s.FAT with
  | none => .ok (-1, s, s.disk)
  | some _ =>
    if (block_read s.disk s.superblock.root_dir_index).isSome then
      if (dir_bytes s.root_directory).length < BLOCK_SIZE then .error .buffer_overrun
      else
        match writebackFatBlocks
            { s with disk := (block_write s.disk s.superblock.root_dir_index
                                ((dir_bytes s.root_directory).take BLOCK_SIZE)).2 } with
        | .error f => .error f
        | .ok (r, s1) =>
          if r ≠ 0 then .ok (-1, s1, s1.disk)
          else if (block_disk_close s1.disk).1 ≠ 0 then .ok (-1, s1, s1.disk)
          else .ok (0, { s1 with disk := (block_disk_close s1.disk).2 }, s1.disk)
    else .ok (-1, s, s.disk)

/-! ## Predicates of the specification -/

/-- The FAT chain of a file: following the links of `fat` from `first` visits exactly the
indices of the list, each in `[1, fat.length)` with a non-zero entry, and then reads
`FAT_EOC`. -/
def IsChain (fat : List Nat) : Nat → List Nat → Prop
  | first, [] => first = FAT_EOC
  | first, b :: bs =>
    first = b ∧ 1 ≤ b ∧ b < fat.length ∧ fat.getD b 0 ≠ 0 ∧ IsChain fat (fat.getD b 0) bs

instance IsChain.instDecidable (fat : List Nat) :
    (first : Nat) → (chain : List Nat) → Decidable (IsChain fat first chain)
  | first, [] => inferInstanceAs (Decidable (first = FAT_EOC))
  | first, b :: bs =>
    have := IsChain.instDecidable fat (fat.getD b 0) bs
    inferInstanceAs (Decidable (first = b ∧ 1 ≤ b ∧ b < fat.length ∧ fat.getD b 0 ≠ 0 ∧
      IsChain fat (fat.getD b 0) bs))

/-- A directory slot is free: the test `file_name[0] == 0` of the source. -/
def slot_free (e : RootDirEntry) : Prop := e.file_name.headD 0 = 0

instance (e : RootDirEntry) : Decidable (slot_free e) := by unfold slot_free; infer_instance

/-- The four cases in which the spec lets `create` fail: a null or empty name, a name
longer than `FS_FILENAME_LEN - 1` characters, the name of an active slot, or no free
slot. -/
def create_rejects (L : Limits) (s : FS) (filename : Option (List Nat)) : Prop :=
  match filename with
  | none => True
  | some n =>
    n = [] ∨ (n.length : Int) > (L.FS_FILENAME_LEN : Int) - 1 ∨
    (∃ e ∈ s.root_directory, ¬ slot_free e ∧ cstr e.file_name = n) ∨
    (∀ e ∈ s.root_directory, ¬ slot_free e)

instance (L : Limits) (s : FS) (filename : Option (List Nat)) :
    Decidable (create_rejects L s filename) := by
  unfold create_rejects
  cases filename <;> infer_instance

/-- A run of `fs_create` calls, one per name, in which every call returns 0: the state
it ends in. -/
def create_all (L : Limits) : FS → List (Option (List Nat)) → Option FS
  | s, [] => some s
  | s, n :: ns =>
    match fs_create L s n with
    | .ok (r, s1) => if r = 0 then create_all L s1 ns else none
    | .error _ => none

/-- Frame of the loop of `fs_write`: the sessions, the superblock and the size of every
directory slot are kept. -/
def keeps_sizes (s s1 : FS) : Prop :=
  s1.open_file_table = s.open_file_table ∧ s1.superblock = s.superblock ∧
  s1.root_directory.map RootDirEntry.file_size = s.root_directory.map RootDirEntry.file_size

instance (s s1 : FS) : Decidable (keeps_sizes s s1) := by
  unfold keeps_sizes
  infer_instance

/-- The byte at position `p` of the file whose chain is `chain`. -/
def file_byte (s : FS) (chain : List Nat) (p : Nat) : Nat :=
  ((block_read s.disk (chain.getD (p / BLOCK_SIZE) 0 + s.superblock.data_start_index)).getD
    []).getD (p % BLOCK_SIZE) 0

/-- The first `n` bytes of the file whose chain is `chain`. -/
def file_data (s : FS) (chain : List Nat) (n : Nat) : List Nat :=
  (List.range n).map (file_byte s chain)

/-- Reading a file back: `fs_lseek(fd, 0)`, then `fs_read(fd, buf, n)` into an array of
`n` bytes; the status of the read and the array. -/
def read_back (L : Limits) (s : FS) (fd : Int) (n : Nat) : Except Fault (Int × List Nat) :=
  match fs_lseek L s fd 0 with
  | .error f => .error f
  | .ok (_, s1) =>
    match fs_read L s1 fd (List.replicate n 0) n with
    | .error f => .error f
    | .ok (r, data, _) => .ok (r, data)

/-- The number of FAT entries that `readFatBlocks` and `writebackFatBlocks` move for FAT
block `i`: the remainder in the last block when the table does not fill it, else a whole
block of entries. -/
def fat_block_entries (sb : Superblock) (i : Nat) : Nat :=
  if (i : Int) = (sb.fat_block_num : Int) - 1 ∧ sb.data_block_num * 2 % BLOCK_SIZE ≠ 0
  then sb.data_block_num * 2 % BLOCK_SIZE / 2 else BLOCK_SIZE / 2

/-- The entries of the in-memory table that belong to FAT block `i`. -/
def fat_slice (sb : Superblock) (fat : List Nat) (i : Nat) : List Nat :=
  (fat.drop (i * BLOCK_SIZE / 2)).take (fat_block_entries sb i)

/-- The header describes a FAT of `ceil(2 * data_block_num / BLOCK_SIZE)` blocks. -/
def fat_geometry (sb : Superblock) : Prop :=
  sb.fat_block_num = (sb.data_block_num * 2 + BLOCK_SIZE - 1) / BLOCK_SIZE

instance (sb : Superblock) : Decidable (fat_geometry sb) := by
  unfold fat_geometry
  infer_instance

/-- The chain that starts at `first`, followed for at most `n` links: the indices visited
before `FAT_EOC` is read, or nothing when the walk leaves `[1, fat.length)`, meets a zero
entry, or does not read `FAT_EOC` within `n` links. -/
def chain_of (fat : List Nat) : Nat → Nat → Option (List Nat)
  | 0, first => if first = FAT_EOC then some [] else none
  | n + 1, first =>
    if first = FAT_EOC then some []
    else if 1 ≤ first ∧ first < fat.length ∧ fat.getD first 0 ≠ 0 then
      (chain_of fat n (fat.getD first 0)).map (fun c => first :: c)
    else none

/-- The chain of the file of a directory entry, when following the links from its first
block reaches `FAT_EOC`. -/
def file_chain (s : FS) (e : RootDirEntry) : Option (List Nat) :=
  match s.FAT with
  | none => none
  | some fat => chain_of fat fat.length e.data_index

/-- The file of a directory entry has a chain, and its indices are pairwise distinct. -/
def has_chain (s : FS) (e : RootDirEntry) : Prop :=
  match file_chain s e with
  | none => False
  | some c => c.Nodup

instance (s : FS) (e : RootDirEntry) : Decidable (has_chain s e) := by
  unfold has_chain
  split <;> infer_instance

/-- The chains of two directory entries share no index. -/
def chains_disjoint (s : FS) (e1 e2 : RootDirEntry) : Prop :=
  ∀ b ∈ (file_chain s e1).getD [], b ∉ (file_chain s e2).getD []

instance (s : FS) (e1 e2 : RootDirEntry) : Decidable (chains_disjoint s e1 e2) := by
  unfold chains_disjoint
  infer_instance

/-- The FAT chain invariant of the spec: the table has `data_block_num` entries, the
chain of every active directory entry reaches `FAT_EOC` through pairwise distinct indices
of `[1, data_block_num)` with non-zero entries, and the chains of two different active
entries share no index. -/
def chain_invariant (s : FS) : Prop :=
  s.FAT.map List.length = some s.superblock.data_block_num ∧
  (∀ e ∈ s.root_directory, ¬ slot_free e → has_chain s e) ∧
  s.root_directory.Pairwise
    (fun e1 e2 => ¬ slot_free e1 → ¬ slot_free e2 → chains_disjoint s e1 e2)

instance (s : FS) : Decidable (chain_invariant s) := by
  unfold chain_invariant
  infer_instance

/-- What the loop of `fs_write` on directory slot `rp` keeps true, relative to the state
`s0` and table `fat0` before the call, for a set `P` of protected FAT indices (the
indices on the chains of the other files): the table `fat` of the current state `s` has
its length and its protected entries unchanged, the other directory slots are unchanged,
slot `rp` heads the chain `Lf`, which avoids `P`, and only blocks of `Lf` were written. -/
structure WriteFrame (P : Nat → Prop) (s0 s : FS) (fat0 : List Nat) (rp : Nat)
    (Lf fat : List Nat) : Prop where
  hfat : s.FAT = some fat
  hlen : fat.length = fat0.length
  hkeep : keeps_sizes s0 s
  hP : ∀ x, P x → fat.getD x 0 = fat0.getD x 0 ∧ fat0.getD x 0 ≠ 0 ∧ x ∉ Lf
  hother : ∀ j, j ≠ rp → s.root_directory[j]? = s0.root_directory[j]?
  hself : ∃ d, s.root_directory[rp]? = some d ∧ IsChain fat d.data_index Lf
  hnodup : Lf.Nodup
  hdisk : ∀ blk, (∀ c ∈ Lf, blk ≠ c + s0.superblock.data_start_index) →
    block_read s.disk blk = block_read s0.disk blk

/-- Where the loop of `fs_write` stands on the chain `Lf` before iteration `i`: at one
of its blocks, or behind its last block with `prev_index` holding that block (or -1
before the first iteration on an empty chain). -/
def write_position (fat Lf : List Nat) (i : Nat) (v : WriteVars) : Prop :=
  ∃ p, p ≤ Lf.length ∧ IsChain fat v.currentIndex (Lf.drop p) ∧
    (p = Lf.length →
      (Lf = [] ∧ v.prev_index = -1 ∧ i = 0) ∨
      (∃ (c : List Nat) (last : Nat), Lf = c ++ [last] ∧ v.prev_index = toI16 last))

/-! ## Concrete states

A freshly formatted volume with `data_block_count = 8` (the end-to-end scenario of the
spec, section 8) with the capacity constants of the reference `fs.h`, and the states the
scenario goes through. -/

deriving instance DecidableEq for Except

/-- The capacity constants used in the concrete states. -/
def demo_limits : Limits :=
  { FS_FILENAME_LEN := 16, FS_FILE_MAX_COUNT := 128, FS_OPEN_MAX_COUNT := 32 }

/-- The superblock of a volume with 8 data blocks: one FAT block, the directory in
block 2, data from block 3 on. -/
def demo_superblock : Superblock :=
  { signature := [69, 67, 83, 49, 53, 48, 70, 83], total_block_num := 11,
    root_dir_index := 2, data_start_index := 3, data_block_num := 8, fat_block_num := 1,
    padding := List.replicate 4079 0 }

/-- The characters of the name `a.txt`. -/
def demo_name : List Nat := [97, 46, 116, 120, 116]

/-- A free directory slot. -/
def demo_free_slot : RootDirEntry :=
  { file_name := List.replicate 16 0, file_size := 0, data_index := 0,
    padding := List.replicate 10 0 }

/-- The directory slot of `a.txt` with the given size and first block. -/
def demo_slot (size first : Nat) : RootDirEntry :=
  { file_name := demo_name ++ List.replicate 11 0, file_size := size, data_index := first,
    padding := List.replicate 10 0 }

/-- An unused session slot. -/
def demo_unused : OpenFileEntry := { offset := 0, rootdir_ptr := -1 }

/-- A block of zeros. -/
def demo_zero_block : List Nat := List.replicate 4096 0

/-- The 5000 bytes written in the scenario. -/
def demo_data : List Nat := (List.range 5000).map (fun i => i % 251 + 1)

/-- The volume after `create("a.txt")` and `open("a.txt")`: session 0 on slot 0. -/
def demo_opened : FS :=
  { superblock := demo_superblock,
    FAT := some [0xFFFF, 0, 0, 0, 0, 0, 0, 0],
    root_directory := demo_slot 0 0xFFFF :: List.replicate 127 demo_free_slot,
    open_file_table := { offset := 0, rootdir_ptr := 0 } :: List.replicate 31 demo_unused,
    disk := some (List.replicate 11 demo_zero_block) }

/-- The volume after `create("a.txt")` alone: no session is open. -/
def demo_created : FS :=
  { demo_opened with open_file_table := List.replicate 32 demo_unused }

/-- The freshly formatted volume: every directory slot is free. -/
def demo_fresh : FS :=
  { demo_created with root_directory := List.replicate 128 demo_free_slot }

/-- The volume after the 5000 bytes were written, with session 0 at the given cursor:
the file occupies data blocks 1 and 2, that is blocks 4 and 5 of the store. -/
def demo_written (cursor : Nat) : FS :=
  { superblock := demo_superblock,
    FAT := some [0xFFFF, 2, 0xFFFF, 0, 0, 0, 0, 0],
    root_directory := demo_slot 5000 1 :: List.replicate 127 demo_free_slot,
    open_file_table := { offset := cursor, rootdir_ptr := 0 } :: List.replicate 31 demo_unused,
    disk := some (List.replicate 4 demo_zero_block ++
      [demo_data.take 4096, demo_data.drop 4096 ++ List.replicate 3192 0] ++
      List.replicate 5 demo_zero_block) }

/-- The three bytes written over the file in the overwrite example. -/
def demo_patch : List Nat := [9, 9, 9]

/-- The written volume after `demo_patch` was written at cursor 100: bytes 100 to 102 of
the first block of the file are replaced and the cursor is at 103. -/
def demo_overwritten : FS :=
  { demo_written 103 with
    disk := some (List.replicate 4 demo_zero_block ++
      [demo_data.take 100 ++ demo_patch ++ (demo_data.take 4096).drop 103,
       demo_data.drop 4096 ++ List.replicate 3192 0] ++
      List.replicate 5 demo_zero_block) }

/-- The written volume with no session open. -/
def demo_closed : FS :=
  { demo_written 5000 with open_file_table := List.replicate 32 demo_unused }

/-- The volume of `demo_opened` with a second file `b` that holds all seven allocatable
data blocks, so that no FAT entry is free. -/
def demo_full : FS :=
  { demo_opened with
    FAT := some [0xFFFF, 2, 3, 4, 5, 6, 7, 0xFFFF],
    root_directory :=
      demo_slot 0 0xFFFF ::
      { file_name := 98 :: List.replicate 15 0, file_size := 28672, data_index := 1,
        padding := List.replicate 10 0 } ::
      List.replicate 126 demo_free_slot }

/-- The volume of `demo_full` with session 0 open on the second file `b` (slot 1). -/
def demo_other_open : FS :=
  { demo_full with
    open_file_table := { offset := 0, rootdir_ptr := 1 } :: List.replicate 31 demo_unused }

/-- A volume whose reserved FAT entry 0 reads 0 while `a.txt` holds data blocks 1 and 2. -/
def demo_zero_head : FS :=
  { demo_written 0 with FAT := some [0, 2, 0xFFFF, 0, 0, 0, 0, 0] }

/-- The written volume on a store that has lost its data blocks: only blocks 0 to 3 are
left, so every `block_read` and `block_write` of a block of `a.txt` (blocks 4 and 5)
reports failure. -/
def demo_short_store : FS :=
  { demo_written 0 with disk := some (List.replicate 4 demo_zero_block) }

/-- The process-wide state before any mount: zero-initialised statics, no FAT, no store. -/
def demo_unmounted : FS :=
  { superblock := { signature := List.replicate 8 0, total_block_num := 0, root_dir_index := 0,
                    data_start_index := 0, data_block_num := 0, fat_block_num := 0,
                    padding := List.replicate 4079 0 },
    FAT := none,
    root_directory := List.replicate 128 demo_free_slot,
    open_file_table := List.replicate 32 { offset := 0, rootdir_ptr := 0 },
    disk := none }

/-- The image of a freshly formatted volume with the given header, `n` blocks behind the
directory block: the superblock, one FAT block whose entry 0 is `FAT_EOC`, an empty
directory block, and zeroed data blocks. -/
def demo_image (sb : Superblock) (n : Nat) : List (List Nat) :=
  [superblock_bytes sb, [255, 255] ++ List.replicate 4094 0, demo_zero_block] ++
  List.replicate n demo_zero_block

/-- The well-formed header `demo_superblock` with the first signature byte changed from
`E` to `X`. -/
def demo_wrong_signature : Superblock :=
  { demo_superblock with signature := [88, 67, 83, 49, 53, 48, 70, 83] }

/-- A well-formed header of a volume of 256 blocks: 253 data blocks, one FAT block. -/
def demo_superblock_256 : Superblock :=
  { demo_superblock with total_block_num := 256, data_block_num := 253 }

/-- The header `demo_superblock` with a wrong `data_start_index` (5 for 3). -/
def demo_bad_geometry : Superblock :=
  { demo_superblock with data_start_index := 5 }

/-- The state in which a mount of the freshly formatted 8-data-block volume with header
`sb` ends when it loads the FAT and the directory. -/
def demo_loaded (sb : Superblock) (sessions : List OpenFileEntry) : FS :=
  { superblock := sb,
    FAT := some [0xFFFF, 0, 0, 0, 0, 0, 0, 0],
    root_directory := List.replicate 128 demo_free_slot,
    open_file_table := sessions,
    disk := some (demo_image sb 8) }

/-- The directory slot of a second file `b` with the given size and first block. -/
def demo_slot_b (size first : Nat) : RootDirEntry :=
  { file_name := 98 :: List.replicate 15 0, file_size := size, data_index := first,
    padding := List.replicate 10 0 }

/-- A volume with two files: `a.txt` (slot 0) of 8192 bytes on the chain 1 -> 2 and `b`
(slot 1) of 4096 bytes on block 3; session 0 is open on `a.txt` with the cursor at its
end. -/
def demo_two_files : FS :=
  { superblock := demo_superblock,
    FAT := some [0xFFFF, 2, 0xFFFF, 0xFFFF, 0, 0, 0, 0],
    root_directory := demo_slot 8192 1 :: demo_slot_b 4096 3 :: List.replicate 126 demo_free_slot,
    open_file_table := { offset := 8192, rootdir_ptr := 0 } :: List.replicate 31 demo_unused,
    disk := some (List.replicate 11 demo_zero_block) }

/-- The volume `demo_two_files` after 4096 bytes of value 7 were appended to `a.txt`:
block 4 is linked behind block 2 and holds the bytes. -/
def demo_two_files_grown : FS :=
  { superblock := demo_superblock,
    FAT := some [0xFFFF, 2, 4, 0xFFFF, 0xFFFF, 0, 0, 0],
    root_directory := demo_slot 12288 1 :: demo_slot_b 4096 3 :: List.replicate 126 demo_free_slot,
    open_file_table := { offset := 12288, rootdir_ptr := 0 } :: List.replicate 31 demo_unused,
    disk := some (List.replicate 7 demo_zero_block ++ [List.replicate 4096 7] ++
      List.replicate 3 demo_zero_block) }

/-- The volume `demo_two_files` with no session open. -/
def demo_two_files_closed : FS :=
  { demo_two_files with open_file_table := List.replicate 32 demo_unused }

/-! ## Verified properties -/

/-! ### Auxiliary lemmas, `fs_delete` and `fs_create` -/

theorem FAT_read_nat (s : FS) (fat : List Nat) (i : Nat) (h : s.FAT = some fat)
    (hi : i < fat.length) : FAT_read s (i : Int) = .ok (fat.getD i 0) := by
  simp [FAT_read, h, hi]

theorem FAT_read_oob (s : FS) (fat : List Nat) (i : Nat) (h : s.FAT = some fat)
    (hi : fat.length ≤ i) : FAT_read s (i : Int) = .error (.fat_index i) := by
  simp [FAT_read, h]; omega

theorem FAT_write_nat (s : FS) (fat : List Nat) (i v : Nat) (h : s.FAT = some fat)
    (hi : i < fat.length) :
    FAT_write s (i : Int) v = .ok { s with FAT := some (fat.set i v) } := by
  simp [FAT_write, h, hi]

theorem FAT_write_oob (s : FS) (fat : List Nat) (i v : Nat) (h : s.FAT = some fat)
    (hi : fat.length ≤ i) : FAT_write s (i : Int) v = .error (.fat_index i) := by
  simp [FAT_write, h]; omega

theorem nodup_bounded_length (l : List Nat) (n : Nat) (hn : l.Nodup) (hb : ∀ x ∈ l, x < n) :
    l.length ≤ n := by
  have hsub : l.toFinset ⊆ Finset.range n := by
    intro x hx
    simp only [List.mem_toFinset] at hx
    simpa using hb x hx
  calc l.length = l.toFinset.card := (List.toFinset_card_of_nodup hn).symm
    _ ≤ (Finset.range n).card := Finset.card_le_card hsub
    _ = n := Finset.card_range n

theorem IsChain_bounded (fat : List Nat) : ∀ (chain : List Nat) (first : Nat),
    IsChain fat first chain → ∀ x ∈ chain, x < fat.length := by
  intro chain
  induction chain with
  | nil => intro _ _ x hx; simp at hx
  | cons b bs ih =>
    intro first h x hx
    obtain ⟨_, _, hb, _, hrest⟩ := h
    rcases List.mem_cons.1 hx with rfl | hx
    · exact hb
    · exact ih _ hrest x hx

theorem IsChain_set_of_not_mem (fat : List Nat) (j v : Nat) : ∀ (chain : List Nat) (first : Nat),
    IsChain fat first chain → j ∉ chain → IsChain (fat.set j v) first chain := by
  intro chain
  induction chain with
  | nil => intro first h _; exact h
  | cons b bs ih =>
    intro first h hj
    obtain ⟨h1, h2, h3, h4, h5⟩ := h
    have hjb : j ≠ b := fun hEq => hj (by simp [hEq])
    have hjbs : j ∉ bs := fun hm => hj (List.mem_cons_of_mem _ hm)
    have hget : (fat.set j v).getD b 0 = fat.getD b 0 := by
      simp [List.getD_eq_getElem?_getD, List.getElem?_set_ne hjb]
    refine ⟨h1, h2, by simpa using h3, by rw [hget]; exact h4, ?_⟩
    rw [hget]
    exact ih _ h5 hjbs

theorem free_chain_on_chain : ∀ (chain : List Nat) (s : FS) (fat : List Nat) (first fuel : Nat),
    s.FAT = some fat → fat.length ≤ 65535 → IsChain fat first chain → chain.Nodup →
    chain.length ≤ fuel →
    free_chain s fuel first
      = .ok ({ s with FAT := some (chain.foldl (fun f b => f.set b 0) fat) }, FAT_EOC) := by
  intro chain
  induction chain with
  | nil =>
    intro s fat first fuel hfat _ hc _ _
    have hfirst : first = FAT_EOC := hc
    subst hfirst
    cases fuel <;> simp [free_chain, ← hfat]
  | cons b bs ih =>
    intro s fat first fuel hfat hlen hc hnd hfuel
    obtain ⟨h1, h2, h3, h4, h5⟩ := hc
    subst h1
    obtain ⟨fuel, rfl⟩ : ∃ k, fuel = k + 1 := ⟨fuel - 1, by simp at hfuel; omega⟩
    have hne : first ≠ FAT_EOC := by simp [FAT_EOC]; omega
    have hnd2 := List.nodup_cons.1 hnd
    simp only [free_chain, hne, ne_eq, not_false_eq_true, if_true,
      FAT_read_nat s fat first hfat h3, FAT_write_nat s fat first 0 hfat h3]
    rw [ih { s with FAT := some (fat.set first 0) } (fat.set first 0) (fat.getD first 0) fuel rfl
      (by simpa using hlen) (IsChain_set_of_not_mem fat first 0 bs _ h5 hnd2.1) hnd2.2
      (by simp at hfuel; omega)]
    simp

theorem dir_read_bounds (s : FS) (i : Int) (e : RootDirEntry) (h : dir_read s i = .ok e) :
    0 ≤ i ∧ i < s.root_directory.length := by
  unfold dir_read at h
  split at h
  · assumption
  · cases h

theorem foldl_set_length (chain : List Nat) : ∀ fat : List Nat,
    (chain.foldl (fun f b => f.set b 0) fat).length = fat.length := by
  induction chain with
  | nil => intro fat; rfl
  | cons b bs ih => intro fat; simp [ih]

/-- C10 (code defect): for every file that `fs_delete` accepts (valid name, found, no open
session) on a table of at most 65535 entries whose chain satisfies the invariant, an empty
file included, the call ends in the write `FAT[FAT_EOC] = 0`, outside the table: the walk
does not stop at the sentinel. -/
theorem fs_delete_writes_sentinel_index (L : Limits) (s : FS) (name fat chain : List Nat)
    (i : Nat) (e : RootDirEntry)
    (hvalid : isFileNameValid L (some name) = true)
    (hfat : s.FAT = some fat) (hlen : fat.length ≤ 65535)
    (hfind : find_name s name L.FS_FILE_MAX_COUNT 0 = .ok i) (hi : i ≠ L.FS_FILE_MAX_COUNT)
    (hclosed : isFileOpen L s i = .ok false)
    (he : dir_read s i = .ok e)
    (hchain : IsChain fat e.data_index chain) (hnodup : chain.Nodup) :
    fs_delete L s (some name) = .error (.fat_index FAT_EOC) := by
  have hb := dir_read_bounds s i e he
  have hfuel : chain.length ≤ fat.length + 3 := by
    have := nodup_bounded_length chain fat.length hnodup (IsChain_bounded fat chain _ hchain)
    omega
  obtain ⟨s1, hs1, hw⟩ : ∃ s1 : FS, s1.FAT = some fat ∧
      dir_write s i { e with data_index := 0 } = .ok s1 := by
    exact ⟨{ s with root_directory := s.root_directory.set (i : Int).toNat { e with data_index := 0 } },
      hfat, by simp only [dir_write, hb, and_self, if_true]⟩
  have hfree := free_chain_on_chain chain s1 fat e.data_index (fat.length + 3) hs1 hlen hchain
    hnodup hfuel
  have hoob := FAT_write_oob { s1 with FAT := some (chain.foldl (fun f b => f.set b 0) fat) }
    (chain.foldl (fun f b => f.set b 0) fat) FAT_EOC 0 rfl
    (by rw [foldl_set_length]; simpa [FAT_EOC] using hlen)
  simp only [fs_delete, hvalid, Option.getD_some, hfind, hi, hclosed, he, hw, hs1, hfree,
    Bool.true_eq_false, if_false, hoob, List.length]

theorem dir_read_nat (s : FS) (i : Nat) (e : RootDirEntry)
    (h : s.root_directory[i]? = some e) : dir_read s (i : Int) = .ok e := by
  rcases List.getElem?_eq_some.1 h with ⟨hi, rfl⟩
  simp [dir_read, hi]

theorem dir_read_nat_iff (s : FS) (i : Nat) (e : RootDirEntry) :
    dir_read s (i : Int) = .ok e ↔ s.root_directory[i]? = some e := by
  constructor
  · intro h
    unfold dir_read at h
    split at h
    · simp only [Int.toNat_ofNat, List.get?_eq_getElem?] at h
      split at h
      · rename_i e1 he1
        cases h; exact he1
      · cases h
    · cases h
  · exact dir_read_nat s i e

theorem fs_create_scan_spec (s : FS) (name : List Nat) : ∀ (n i : Nat) (first_free : Int),
    i + n = s.root_directory.length →
    (first_free = -1 → ∀ j e, j < i → s.root_directory[j]? = some e → ¬ slot_free e) →
    (first_free ≠ -1 → ∃ (j : Nat) (e : RootDirEntry), j < i ∧ first_free = (j : Int) ∧ s.root_directory[j]? = some e ∧
        slot_free e ∧ ∀ k e1, k < j → s.root_directory[k]? = some e1 → ¬ slot_free e1) →
    (∀ j e, j < i → s.root_directory[j]? = some e → ¬ slot_free e → cstr e.file_name ≠ name) →
    (fs_create_scan s name n i first_free = .ok none ∧
        ∃ e ∈ s.root_directory, ¬ slot_free e ∧ cstr e.file_name = name) ∨
    (∃ r : Int, fs_create_scan s name n i first_free = .ok (some r) ∧
        (∀ e ∈ s.root_directory, ¬ slot_free e → cstr e.file_name ≠ name) ∧
        ((r = -1 ∧ ∀ e ∈ s.root_directory, ¬ slot_free e) ∨
         (∃ (j : Nat) (e : RootDirEntry), r = (j : Int) ∧ s.root_directory[j]? = some e ∧ slot_free e ∧
            ∀ k e1, k < j → s.root_directory[k]? = some e1 → ¬ slot_free e1))) := by
  intro n
  induction n with
  | zero =>
    intro i ff hlen hA hB hC
    right
    refine ⟨ff, rfl, ?_, ?_⟩
    · intro e he hact
      obtain ⟨j, hj, hje⟩ := List.getElem_of_mem he
      exact hC j e (by omega) (by rw [List.getElem?_eq_getElem hj, hje]) hact
    · by_cases hff : ff = -1
      · left
        refine ⟨hff, ?_⟩
        intro e he
        obtain ⟨j, hj, hje⟩ := List.getElem_of_mem he
        exact hA hff j e (by omega) (by rw [List.getElem?_eq_getElem hj, hje])
      · right
        obtain ⟨j, e, _, h2, h3, h4, h5⟩ := hB hff
        exact ⟨j, e, h2, h3, h4, h5⟩
  | succ n ih =>
    intro i ff hlen hA hB hC
    have hi : i < s.root_directory.length := by omega
    have hget : s.root_directory[i]? = some (s.root_directory[i]) :=
      List.getElem?_eq_getElem hi
    have hread := dir_read_nat s i _ hget
    simp only [fs_create_scan, hread]
    by_cases hfree : (s.root_directory[i]).file_name.headD 0 = 0
    · simp only [hfree, if_true]
      apply ih (i + 1) _ (by omega)
      · intro hff
        split at hff
        · omega
        · rename_i h; exact absurd hff h
      · intro _
        by_cases hff : ff = -1
        · simp only [hff, if_true]
          refine ⟨i, _, by omega, rfl, hget, hfree, ?_⟩
          intro k e1 hk hk1
          exact hA hff k e1 hk hk1
        · simp only [hff, if_false]
          obtain ⟨j, e, h1, h2, h3, h4, h5⟩ := hB hff
          exact ⟨j, e, by omega, h2, h3, h4, h5⟩
      · intro j e hj hje hact
        rcases Nat.lt_succ_iff_lt_or_eq.1 hj with hlt | heq
        · exact hC j e hlt hje hact
        · subst heq
          rw [hget] at hje
          cases hje
          exact absurd hfree hact
    · simp only [hfree, if_false]
      by_cases hname : cstr (s.root_directory[i]).file_name = name
      · simp only [hname, if_true]
        left
        exact ⟨trivial, _, List.getElem_mem hi, hfree, hname⟩
      · simp only [hname, if_false]
        apply ih (i + 1) _ (by omega)
        · intro hff j e hj hje
          rcases Nat.lt_succ_iff_lt_or_eq.1 hj with hlt | heq
          · exact hA hff j e hlt hje
          · subst heq
            rw [hget] at hje
            cases hje
            exact hfree
        · intro hff
          obtain ⟨j, e, h1, h2, h3, h4, h5⟩ := hB hff
          exact ⟨j, e, by omega, h2, h3, h4, h5⟩
        · intro j e hj hje hact
          rcases Nat.lt_succ_iff_lt_or_eq.1 hj with hlt | heq
          · exact hC j e hlt hje hact
          · subst heq
            rw [hget] at hje
            cases hje
            exact hname

theorem takeWhile_nonzero_append (src rest : List Nat) (h : 0 ∉ src) :
    (src ++ 0 :: rest).takeWhile (fun c => c ≠ 0) = src := by
  induction src with
  | nil => simp [List.takeWhile]
  | cons c cs ih =>
    have hc : c ≠ 0 := fun hc => h (by simp [hc])
    have hcs : 0 ∉ cs := fun hm => h (List.mem_cons_of_mem _ hm)
    simp only [List.cons_append, List.takeWhile_cons, ne_eq, hc, not_false_eq_true,
      decide_True, if_true, List.cons.injEq, true_and]
    exact ih hcs

theorem cstr_strcpy (dst src : List Nat) (h : 0 ∉ src) : cstr (strcpy dst src) = src := by
  unfold cstr strcpy
  rw [List.append_assoc]
  exact takeWhile_nonzero_append src _ h

theorem strcpy_length (dst src : List Nat) (h : src.length + 1 ≤ dst.length) :
    (strcpy dst src).length = dst.length := by
  simp [strcpy]; omega

theorem fs_create_rejected (L : Limits) (s : FS) (filename : Option (List Nat))
    (hdir : s.root_directory.length = L.FS_FILE_MAX_COUNT)
    (hrej : create_rejects L s filename) : fs_create L s filename = .ok (-1, s) := by
  cases filename with
  | none => simp [fs_create, isFileNameValid]
  | some n =>
    by_cases hvalid : isFileNameValid L (some n) = false
    · simp [fs_create, hvalid]
    · simp only [Bool.not_eq_false] at hvalid
      have hv : ¬ ((n.length : Int) > (L.FS_FILENAME_LEN : Int) - 1 ∨ (n.length : Int) = 0) := by
        intro hc
        simp only [isFileNameValid, hc, if_true] at hvalid
        cases hvalid
      have hne : n ≠ [] := fun h => hv (Or.inr (by simp [h]))
      have hspec := fs_create_scan_spec s n L.FS_FILE_MAX_COUNT 0 (-1) (by omega)
        (fun _ j e hj => absurd hj (Nat.not_lt_zero j)) (fun h => absurd rfl h)
        (fun j e hj => absurd hj (Nat.not_lt_zero j))
      simp only [fs_create, hvalid, Option.getD_some, Bool.true_eq_false, if_false]
      rcases hspec with ⟨hscan, _⟩ | ⟨r, hscan, hnodup, hr⟩
      · simp only [hscan]
      · simp only [hscan]
        rcases hrej with h | h | ⟨e, he, hact, hname⟩ | h
        · exact absurd h hne
        · exact absurd (Or.inl h) hv
        · exact absurd hname (hnodup e he hact)
        · rcases hr with ⟨hr, _⟩ | ⟨j, e, _, hje, hfree, _⟩
          · simp only [hr, if_true]
          · exact absurd hfree (h e (List.getElem?_mem hje))

theorem fs_create_accepted (L : Limits) (s : FS) (filename : Option (List Nat))
    (hdir : s.root_directory.length = L.FS_FILE_MAX_COUNT)
    (hfield : ∀ e ∈ s.root_directory, e.file_name.length = L.FS_FILENAME_LEN)
    (hstr : ∀ n, filename = some n → 0 ∉ n)
    (hacc : ¬ create_rejects L s filename) :
    ∃ (n : List Nat) (i : Nat) (e : RootDirEntry), filename = some n ∧
      s.root_directory[i]? = some e ∧ slot_free e ∧
      (∀ k e1, k < i → s.root_directory[k]? = some e1 → ¬ slot_free e1) ∧
      cstr (strcpy e.file_name n) = n ∧
      (strcpy e.file_name n).length = e.file_name.length ∧
      fs_create L s filename = .ok (0,
        { s with
          root_directory :=
            s.root_directory.set i
              { e with file_name := strcpy e.file_name n, file_size := 0, data_index := FAT_EOC } }) := by
  cases filename with
  | none => exact absurd trivial hacc
  | some n =>
    have hacc2 : ¬ (n = [] ∨ (n.length : Int) > (L.FS_FILENAME_LEN : Int) - 1 ∨
        (∃ e ∈ s.root_directory, ¬ slot_free e ∧ cstr e.file_name = n) ∨
        (∀ e ∈ s.root_directory, ¬ slot_free e)) := hacc
    simp only [not_or] at hacc2
    obtain ⟨hne, hlen, hdup, hfull⟩ := hacc2
    have hvalid : isFileNameValid L (some n) = true := by
      have : ¬ ((n.length : Int) > (L.FS_FILENAME_LEN : Int) - 1 ∨ (n.length : Int) = 0) := by
        rintro (h | h)
        · exact hlen h
        · exact hne (List.length_eq_zero.1 (by exact_mod_cast h))
      simp only [isFileNameValid, this, if_false]
    have hspec := fs_create_scan_spec s n L.FS_FILE_MAX_COUNT 0 (-1) (by omega)
      (fun _ j e hj => absurd hj (Nat.not_lt_zero j)) (fun h => absurd rfl h)
      (fun j e hj => absurd hj (Nat.not_lt_zero j))
    rcases hspec with ⟨_, hex⟩ | ⟨r, hscan, _, hr⟩
    · exact absurd hex hdup
    · rcases hr with ⟨_, hall⟩ | ⟨j, e, hrj, hje, hfree, hlow⟩
      · exact absurd hall hfull
      · have hmem : e ∈ s.root_directory := List.getElem?_mem hje
        have hj : j < s.root_directory.length := (List.getElem?_eq_some.1 hje).1
        refine ⟨n, j, e, rfl, hje, hfree, hlow, cstr_strcpy _ _ (hstr n rfl), ?_, ?_⟩
        · apply strcpy_length
          rw [hfield e hmem]
          omega
        · have hr1 : ¬ ((j : Int) = -1) := by omega
          subst hrj
          simp only [fs_create, hvalid, Option.getD_some, Bool.true_eq_false, if_false, hscan,
            hr1, dir_read_nat s j e hje, dir_write, Nat.cast_nonneg, Nat.cast_lt, hj,
            and_self, if_true, Int.toNat_ofNat]

theorem strcpy_headD (dst src : List Nat) (hne : src ≠ []) (h : 0 ∉ src) :
    (strcpy dst src).headD 0 ≠ 0 := by
  cases src with
  | nil => exact absurd rfl hne
  | cons c cs =>
    have hc : c ≠ 0 := fun hc => h (by simp [hc])
    simpa [strcpy] using hc

theorem create_all_free_count (L : Limits) : ∀ (names : List (Option (List Nat))) (s s1 : FS),
    s.root_directory.length = L.FS_FILE_MAX_COUNT →
    (∀ e ∈ s.root_directory, e.file_name.length = L.FS_FILENAME_LEN) →
    (∀ n, some n ∈ names → 0 ∉ n) →
    create_all L s names = some s1 →
    s1.root_directory.length = L.FS_FILE_MAX_COUNT ∧
    s1.root_directory.countP (fun e => decide (slot_free e)) + names.length
      = s.root_directory.countP (fun e => decide (slot_free e)) := by
  intro names
  induction names with
  | nil =>
    intro s s1 hdir _ _ h
    simp only [create_all, Option.some.injEq] at h
    subst h
    exact ⟨hdir, rfl⟩
  | cons f fs ih =>
    intro s s1 hdir hfield hstr h
    by_cases hrej : create_rejects L s f
    · simp [create_all, fs_create_rejected L s f hdir hrej] at h
    · obtain ⟨n, i, e, hf, hie, hfree, _, _, hlen, hcreate⟩ :=
        fs_create_accepted L s f hdir hfield
          (fun n hn => hstr n (by rw [← hn]; exact List.mem_cons_self _ _)) hrej
      subst hf
      have hne : n ≠ [] := by
        intro hn
        exact hrej (Or.inl hn)
      simp only [create_all, hcreate, if_true] at h
      have hi : i < s.root_directory.length := (List.getElem?_eq_some.1 hie).1
      have hie2 : s.root_directory[i] = e := (List.getElem?_eq_some.1 hie).2
      have hstep := ih _ s1 (by simpa using hdir)
        (by
          intro e1 he1
          rcases List.mem_or_eq_of_mem_set he1 with hm | heq
          · exact hfield e1 hm
          · subst heq
            simp only
            rw [hlen]
            exact hfield e (List.getElem?_mem hie))
        (fun m hm => hstr m (List.mem_cons_of_mem _ hm)) h
      refine ⟨hstep.1, ?_⟩
      have hcount := List.countP_set (fun e => decide (slot_free e)) s.root_directory i
        { e with file_name := strcpy e.file_name n, file_size := 0, data_index := FAT_EOC } hi
      have hnew : ¬ slot_free
          { e with file_name := strcpy e.file_name n, file_size := 0, data_index := FAT_EOC } :=
        strcpy_headD e.file_name n hne (hstr n (List.mem_cons_self _ _))
      have hpos := List.boole_getElem_le_countP (fun e => decide (slot_free e)) s.root_directory i hi
      simp only [hie2, hfree, decide_True, if_true, hnew, decide_False, Bool.false_eq_true,
        if_false] at hcount hpos
      have h2 := hstep.2
      simp only [List.length_cons] at h2 ⊢
      omega

theorem countP_zero_all_active (dir : List RootDirEntry)
    (h : dir.countP (fun e => decide (slot_free e)) = 0) : ∀ e ∈ dir, ¬ slot_free e := by
  intro e he hfree
  have hpos : 0 < dir.countP (fun e => decide (slot_free e)) :=
    List.countP_pos_iff.2 ⟨e, he, by simpa using hfree⟩
  omega

theorem countP_all_free (dir : List RootDirEntry) (h : ∀ e ∈ dir, slot_free e) :
    dir.countP (fun e => decide (slot_free e)) = dir.length := by
  rw [List.countP_eq_length]
  intro e he
  simpa using h e he

/-- C8: the contract of `fs_create`.  The call returns -1 and leaves the whole state as it
was exactly in the four cases of `create_rejects`; otherwise it returns 0 and only the
lowest-indexed free slot changes: it holds the name (within the name field), size 0 and
first block `FAT_EOC`, and the FAT is untouched.  Consequently, when the directory is
empty and `FS_FILE_MAX_COUNT` creates have succeeded, every further create fails. -/
theorem fs_create_contract (L : Limits) (s : FS) (filename : Option (List Nat))
    (hdir : s.root_directory.length = L.FS_FILE_MAX_COUNT)
    (hfield : ∀ e ∈ s.root_directory, e.file_name.length = L.FS_FILENAME_LEN)
    (hstr : ∀ n, filename = some n → 0 ∉ n) :
    (create_rejects L s filename → fs_create L s filename = .ok (-1, s)) ∧
    (¬ create_rejects L s filename →
      ∃ (n : List Nat) (i : Nat) (e : RootDirEntry), filename = some n ∧
        s.root_directory[i]? = some e ∧ slot_free e ∧
        (∀ k e1, k < i → s.root_directory[k]? = some e1 → ¬ slot_free e1) ∧
        cstr (strcpy e.file_name n) = n ∧
        (strcpy e.file_name n).length = e.file_name.length ∧
        fs_create L s filename = .ok (0,
          { s with
            root_directory :=
              s.root_directory.set i
                { e with file_name := strcpy e.file_name n, file_size := 0,
                         data_index := FAT_EOC } })) ∧
    (∀ (names : List (Option (List Nat))) (s1 : FS),
      (∀ e ∈ s.root_directory, slot_free e) → names.length = L.FS_FILE_MAX_COUNT →
      (∀ n, some n ∈ names → 0 ∉ n) → create_all L s names = some s1 →
      ∀ further, fs_create L s1 further = .ok (-1, s1)) := by
  refine ⟨fs_create_rejected L s filename hdir, fs_create_accepted L s filename hdir hfield hstr, ?_⟩
  intro names s1 hempty hnames hcs hall further
  obtain ⟨hdir1, hcount⟩ := create_all_free_count L names s s1 hdir hfield hcs hall
  rw [countP_all_free _ hempty] at hcount
  apply fs_create_rejected L s1 further hdir1
  have hfull := countP_zero_all_active s1.root_directory (by omega)
  cases further with
  | none => trivial
  | some n => exact Or.inr (Or.inr (Or.inr hfull))

/-! ### The loop of `fs_write`: frame and arithmetic -/

theorem keeps_sizes_refl (s : FS) : keeps_sizes s s := ⟨rfl, rfl, rfl⟩

theorem keeps_sizes_trans {s s1 s2 : FS} (h1 : keeps_sizes s s1) (h2 : keeps_sizes s1 s2) :
    keeps_sizes s s2 :=
  ⟨h2.1.trans h1.1, h2.2.1.trans h1.2.1, h2.2.2.trans h1.2.2⟩

theorem FAT_write_keeps (s s1 : FS) (i : Int) (v : Nat) (h : FAT_write s i v = .ok s1) :
    keeps_sizes s s1 ∧ s1.disk = s.disk := by
  unfold FAT_write at h
  split at h
  · cases h
  · split at h
    · cases h; exact ⟨⟨rfl, rfl, rfl⟩, rfl⟩
    · cases h

theorem dir_read_getElem (s : FS) (i : Int) (e : RootDirEntry) (h : dir_read s i = .ok e) :
    0 ≤ i ∧ s.root_directory[i.toNat]? = some e := by
  unfold dir_read at h
  split at h
  · rename_i hb
    simp only [List.get?_eq_getElem?] at h
    split at h
    · rename_i e1 he1
      cases h; exact ⟨hb.1, he1⟩
    · cases h
  · cases h

theorem dir_write_data_index_keeps (s s1 : FS) (i : Int) (d : RootDirEntry) (c : Nat)
    (hd : dir_read s i = .ok d) (h : dir_write s i { d with data_index := c } = .ok s1) :
    keeps_sizes s s1 ∧ s1.disk = s.disk ∧ s1.FAT = s.FAT := by
  obtain ⟨_, hget⟩ := dir_read_getElem s i d hd
  unfold dir_write at h
  split at h
  · cases h
    refine ⟨⟨rfl, rfl, ?_⟩, rfl, rfl⟩
    simp only [List.map_set]
    apply List.ext_getElem?
    intro j
    by_cases hj : i.toNat = j
    · subst hj
      rw [List.getElem?_set_self']
      simp [hget]
    · rw [List.getElem?_set_ne hj]
  · cases h

theorem alloc_first_keeps (s s1 : FS) (rp : Int) (c : Nat) (h : alloc_first s rp = .ok (s1, c)) :
    keeps_sizes s s1 ∧ s1.disk = s.disk := by
  unfold alloc_first at h
  split at h
  · cases h
  · split at h
    · cases h
    · rename_i d hd
      split at h
      · cases h
      · rename_i sa hsa
        split at h
        · cases h
        · rename_i sb hsb
          cases h
          have h1 := dir_write_data_index_keeps s sa rp d _ hd hsa
          have h2 := FAT_write_keeps sa s1 _ _ hsb
          exact ⟨keeps_sizes_trans h1.1 h2.1, h2.2.trans h1.2.1⟩

theorem alloc_next_keeps (s s1 : FS) (prev : Int) (c : Nat) (h : alloc_next s prev = .ok (s1, c)) :
    keeps_sizes s s1 ∧ s1.disk = s.disk := by
  unfold alloc_next at h
  split at h
  · cases h
  · split at h
    · cases h
    · rename_i sa hsa
      split at h
      · cases h
      · rename_i sb hsb
        cases h
        have h1 := FAT_write_keeps s sa _ _ hsa
        have h2 := FAT_write_keeps sa s1 _ _ hsb
        exact ⟨keeps_sizes_trans h1.1 h2.1, h2.2.trans h1.2⟩

theorem block_read_length (disk : Option (List (List Nat))) (i : Nat) (b : List Nat)
    (h : block_read disk i = some b) : b.length = BLOCK_SIZE := by
  unfold block_read at h
  split at h
  · cases h
  · split at h
    · cases h
    · cases h
      simp only [List.length_take, List.length_append, List.length_replicate]
      omega

theorem bounce_length (disk : Option (List (List Nat))) (i : Nat) :
    ((block_read disk i).getD (List.replicate BLOCK_SIZE 0)).length = BLOCK_SIZE := by
  cases h : block_read disk i with
  | none => simp
  | some b => simpa using block_read_length disk i b h

theorem write_block_inv (s s1 : FS) (buf : List Nat) (v : WriteVars)
    (h : write_block s buf v = .ok s1) :
    keeps_sizes s s1 ∧ s1.FAT = s.FAT ∧
    ((v.frontPadding = 0 ∧ v.endPadding = 0) ∨
      (v.frontPadding + chunk_len v.frontPadding v.endPadding ≤ BLOCK_SIZE ∧
       v.bytesWritten + chunk_len v.frontPadding v.endPadding ≤ buf.length)) := by
  unfold write_block at h
  split at h
  · rename_i hpad
    split at h
    · split at h
      · cases h; exact ⟨⟨rfl, rfl, rfl⟩, rfl, Or.inl hpad⟩
      · cases h
    · cases h; exact ⟨⟨rfl, rfl, rfl⟩, rfl, Or.inl hpad⟩
  · split at h
    · cases h
    · rename_i bb hbb
      cases h
      refine ⟨⟨rfl, rfl, rfl⟩, rfl, Or.inr ?_⟩
      unfold memcpy at hbb
      split at hbb
      · rename_i hc
        rw [bounce_length] at hc
        exact hc
      · cases hbb

theorem fs_write_step_inv (s s1 : FS) (rp : Int) (buf : List Nat) (count : Nat) (nb : Int)
    (i : Nat) (v v1 : WriteVars) (h : fs_write_step s rp buf count nb i v = .ok (s1, v1)) :
    keeps_sizes s s1 ∧
    (((i : Int) = nb - 1 ∧ last_end_padding nb v.frontPadding count = .ok v1.endPadding) ∨
      ((i : Int) ≠ nb - 1 ∧ v1.endPadding = v.endPadding)) ∧
    v1.bytesWritten = toSize (v.bytesWritten + chunk_len v.frontPadding v1.endPadding) ∧
    v1.frontPadding = (if i = 0 then 0 else v.frontPadding) ∧
    ((v.frontPadding = 0 ∧ v1.endPadding = 0) ∨
      (v.frontPadding + chunk_len v.frontPadding v1.endPadding ≤ BLOCK_SIZE ∧
       v.bytesWritten + chunk_len v.frontPadding v1.endPadding ≤ buf.length)) := by
  unfold fs_write_step at h
  split at h
  · cases h
  · rename_i sa ca hA
    split at h
    · cases h
    · rename_i sb cb hB
      split at h
      · cases h
      · rename_i ep hE
        split at h
        · cases h
        · rename_i sc hC
          split at h
          · cases h
          · rename_i next hN
            cases h
            have kA : keeps_sizes s sa := by
              split at hA
              · exact (alloc_first_keeps _ _ _ _ hA).1
              · cases hA; exact keeps_sizes_refl _
            have kB : keeps_sizes sa sb := by
              split at hB
              · exact (alloc_next_keeps _ _ _ _ hB).1
              · cases hB; exact keeps_sizes_refl _
            have kC := write_block_inv sb s1 buf _ hC
            refine ⟨keeps_sizes_trans (keeps_sizes_trans kA kB) kC.1, ?_, rfl, rfl, kC.2.2⟩
            split at hE
            · rename_i hi
              exact Or.inl ⟨hi, hE⟩
            · rename_i hi
              cases hE
              exact Or.inr ⟨hi, rfl⟩

theorem toSize_le (x : Nat) : toSize (x : Int) ≤ x := by
  unfold toSize
  omega

theorem toSize_of_lt (x : Nat) (h : x < 18446744073709551616) : toSize (x : Int) = x := by
  unfold toSize
  omega

theorem chunk_len_zero : chunk_len 0 0 = BLOCK_SIZE := by
  simp [chunk_len, toSize, BLOCK_SIZE]

theorem fs_write_loop_keeps (rp : Int) (buf : List Nat) (count : Nat) (nb : Int) :
    ∀ (n i : Nat) (s s1 : FS) (v v1 : WriteVars),
    fs_write_loop rp buf count nb n i s v = .ok (s1, v1) → keeps_sizes s s1 := by
  intro n
  induction n with
  | zero =>
    intro i s s1 v v1 h
    simp only [fs_write_loop, Except.ok.injEq, Prod.mk.injEq] at h
    rw [← h.1]
    exact keeps_sizes_refl s
  | succ n ih =>
    intro i s s1 v v1 h
    simp only [fs_write_loop] at h
    split at h
    · cases h
    · rename_i sa va hstep
      exact keeps_sizes_trans (fs_write_step_inv _ _ _ _ _ _ _ _ _ hstep).1 (ih _ _ _ _ _ h)

theorem fs_write_loop_bound (rp : Int) (buf : List Nat) (count : Nat) (nb : Int) :
    ∀ (n i : Nat) (s s1 : FS) (v v1 : WriteVars),
    fs_write_loop rp buf count nb n i s v = .ok (s1, v1) →
    v1.bytesWritten ≤ v.bytesWritten + n * BLOCK_SIZE := by
  intro n
  induction n with
  | zero =>
    intro i s s1 v v1 h
    simp only [fs_write_loop, Except.ok.injEq, Prod.mk.injEq] at h
    rw [← h.2]
    omega
  | succ n ih =>
    intro i s s1 v v1 h
    simp only [fs_write_loop] at h
    split at h
    · cases h
    · rename_i sa va hstep
      obtain ⟨_, _, hbw, _, hchunk⟩ := fs_write_step_inv _ _ _ _ _ _ _ _ _ hstep
      have hrec := ih _ _ _ _ _ h
      have hle : va.bytesWritten ≤ v.bytesWritten + BLOCK_SIZE := by
        rw [hbw]
        have h1 := toSize_le (v.bytesWritten + chunk_len v.frontPadding va.endPadding)
        rcases hchunk with ⟨hf, he⟩ | ⟨hc, _⟩
        · rw [hf, he, chunk_len_zero] at h1 ⊢
          exact_mod_cast h1
        · have h2 : toSize ((v.bytesWritten + chunk_len v.frontPadding va.endPadding : Nat) : Int)
              ≤ v.bytesWritten + chunk_len v.frontPadding va.endPadding := h1
          push_cast at h2
          omega
      rw [Nat.succ_mul]
      omega

theorem fs_write_loop_last (rp : Int) (buf : List Nat) (count : Nat) (nb : Int) :
    ∀ (n i : Nat) (s s1 : FS) (v v1 : WriteVars),
    ((i : Int) + (n : Int) + 1 = nb) →
    fs_write_loop rp buf count nb (n + 1) i s v = .ok (s1, v1) →
    nb * BLOCK_SIZE < 2147483648 := by
  intro n
  induction n with
  | zero =>
    intro i s s1 v v1 hi h
    simp only [fs_write_loop] at h
    split at h
    · cases h
    · rename_i sa va hstep
      obtain ⟨_, hlast, _⟩ := fs_write_step_inv _ _ _ _ _ _ _ _ _ hstep
      rcases hlast with ⟨_, hl⟩ | ⟨hne, _⟩
      · unfold last_end_padding at hl
        split at hl
        · rename_i hc; exact hc.1
        · cases hl
      · exfalso; apply hne; simp at hi; omega
  | succ n ih =>
    intro i s s1 v v1 hi h
    rw [fs_write_loop] at h
    split at h
    · cases h
    · rename_i sa va hstep
      exact ih (i + 1) _ _ _ _ (by push_cast at hi ⊢; omega) h

theorem IsChain_first_lt (fat : List Nat) (first : Nat) (chain : List Nat)
    (hlen : fat.length ≤ 65535) (h : IsChain fat first chain) : first < 65536 := by
  cases chain with
  | nil =>
    have : first = FAT_EOC := h
    simp [this, FAT_EOC]
  | cons b bs =>
    obtain ⟨h1, _, h3, _⟩ := h
    omega

theorem toU16_of_lt (x : Nat) (h : x < 65536) : toU16 (x : Int) = x := by
  unfold toU16
  omega

theorem go_to_offset_loop_bound (s : FS) (fat : List Nat) (hfat : s.FAT = some fat)
    (hlen : fat.length ≤ 65535) : ∀ (chain : List Nat) (n cur : Nat) (prev : Int)
    (res : Nat × Int), IsChain fat cur chain → go_to_offset_loop s n cur prev = .ok res →
    n ≤ chain.length := by
  intro chain
  induction chain with
  | nil =>
    intro n cur prev res hc h
    have hcur : cur = FAT_EOC := hc
    cases n with
    | zero => simp
    | succ n =>
      simp only [go_to_offset_loop] at h
      rw [hcur, FAT_read_oob s fat FAT_EOC hfat (by simpa [FAT_EOC] using hlen)] at h
      cases h
  | cons b bs ih =>
    intro n cur prev res hc h
    obtain ⟨h1, _, h3, _, h5⟩ := hc
    cases n with
    | zero => simp
    | succ n =>
      simp only [go_to_offset_loop] at h
      rw [h1, FAT_read_nat s fat b hfat h3] at h
      simp only at h
      rw [toU16_of_lt _ (IsChain_first_lt fat _ bs hlen h5)] at h
      have := ih n _ _ res h5 h
      simp only [List.length_cons]
      omega

theorem session_guard_some (L : Limits) (s : FS) (fd : Int) (e : OpenFileEntry)
    (h : session_guard L s fd = .ok (some e)) :
    oft_read s fd = .ok e ∧ fd < L.FS_OPEN_MAX_COUNT ∧ e.rootdir_ptr ≠ -1 := by
  unfold session_guard at h
  split at h
  · cases h
  · rename_i hfd
    split at h
    · cases h
    · rename_i e1 he1
      split at h
      · cases h
      · rename_i hp
        cases h
        exact ⟨he1, by omega, hp⟩

theorem oft_read_inv (s : FS) (i : Int) (e : OpenFileEntry) (h : oft_read s i = .ok e) :
    (0 ≤ i ∧ i < s.open_file_table.length) ∧ s.open_file_table[i.toNat]? = some e := by
  unfold oft_read at h
  split at h
  · rename_i hb
    simp only [List.get?_eq_getElem?] at h
    split at h
    · rename_i e1 he1
      cases h; exact ⟨hb, he1⟩
    · cases h
  · cases h

theorem oft_read_congr (s s1 : FS) (i : Int) (h : s1.open_file_table = s.open_file_table) :
    oft_read s1 i = oft_read s i := by
  unfold oft_read
  rw [h]

theorem dir_read_congr (s s1 : FS) (i : Int) (h : s1.root_directory = s.root_directory) :
    dir_read s1 i = dir_read s i := by
  unfold dir_read
  rw [h]

theorem keeps_sizes_file_size (s s1 : FS) (i : Int) (d d1 : RootDirEntry)
    (hk : keeps_sizes s s1) (hd : dir_read s i = .ok d) (hd1 : dir_read s1 i = .ok d1) :
    d1.file_size = d.file_size := by
  obtain ⟨_, h⟩ := dir_read_getElem s i d hd
  obtain ⟨_, h1⟩ := dir_read_getElem s1 i d1 hd1
  have hm := congrArg (fun l => l[i.toNat]?) hk.2.2
  simp only [List.getElem?_map, h, h1, Option.map_some'] at hm
  exact Option.some.inj hm

theorem toI32_of_lt (x : Nat) (h : x < 2147483648) : toI32 (x : Int) = x := by
  unfold toI32
  have h1 : (x : Int) % 4294967296 = x := by omega
  rw [h1]
  simp only [ite_eq_left_iff, not_lt]
  intro h2
  omega

theorem toU32_of_lt (x : Nat) (h : x < 4294967296) : toU32 (x : Int) = x := by
  unfold toU32
  omega

theorem max_eq_nat_max (a b : Nat) : max a b = Nat.max a b := by
  unfold max
  split
  · exact (Nat.max_eq_left (by omega)).symm
  · exact (Nat.max_eq_right (by omega)).symm

theorem oft_write_inv (s s1 : FS) (i : Int) (x : OpenFileEntry) (h : oft_write s i x = .ok s1) :
    (0 ≤ i ∧ i < s.open_file_table.length) ∧
    s1 = { s with open_file_table := s.open_file_table.set i.toNat x } := by
  unfold oft_write at h
  split at h
  · rename_i hb
    cases h
    exact ⟨hb, rfl⟩
  · cases h

theorem dir_write_inv (s s1 : FS) (i : Int) (x : RootDirEntry) (h : dir_write s i x = .ok s1) :
    (0 ≤ i ∧ i < s.root_directory.length) ∧
    s1 = { s with root_directory := s.root_directory.set i.toNat x } := by
  unfold dir_write at h
  split at h
  · rename_i hb
    cases h
    exact ⟨hb, rfl⟩
  · cases h

theorem oft_read_of_getElem (s : FS) (i : Int) (e : OpenFileEntry) (hi : 0 ≤ i)
    (h : s.open_file_table[i.toNat]? = some e) : oft_read s i = .ok e := by
  rcases List.getElem?_eq_some.1 h with ⟨hlt, hval⟩
  have hb : 0 ≤ i ∧ i < s.open_file_table.length := ⟨hi, by omega⟩
  simp only [oft_read, hb, and_self, if_true, List.get?_eq_getElem?, h]

theorem dir_read_of_getElem (s : FS) (i : Int) (e : RootDirEntry) (hi : 0 ≤ i)
    (h : s.root_directory[i.toNat]? = some e) : dir_read s i = .ok e := by
  rcases List.getElem?_eq_some.1 h with ⟨hlt, hval⟩
  have hb : 0 ≤ i ∧ i < s.root_directory.length := ⟨hi, by omega⟩
  simp only [dir_read, hb, and_self, if_true, List.get?_eq_getElem?, h]

/-- C3: the postcondition of `fs_write`.  On a volume whose FAT holds the chain of the
file (the invariant of the data model) and whose sizes and cursors are 32-bit values, a
call on a valid session that succeeds (does not return -1) returns `count`, leaves the
cursor at `offset + count` and the size at the maximum of the old size and the new
cursor; so a write within the old bounds keeps the size and no write decreases it. -/
theorem fs_write_postcondition (L : Limits) (s s1 : FS) (fd r : Int) (buf : List Nat)
    (count : Nat) (e : OpenFileEntry) (d : RootDirEntry) (fat chain : List Nat)
    (hguard : session_guard L s fd = .ok (some e))
    (hd : dir_read s e.rootdir_ptr = .ok d)
    (hoff : e.offset < 4294967296) (hsize : d.file_size < 4294967296)
    (hfat : s.FAT = some fat) (hfatlen : fat.length ≤ 65535)
    (hchain : IsChain fat d.data_index chain) (hnodup : chain.Nodup)
    (hw : fs_write L s fd buf count = .ok (r, s1)) (hr : r ≠ -1) :
    r = count ∧
    oft_read s1 fd = .ok { e with offset := e.offset + count } ∧
    ∃ d1, dir_read s1 e.rootdir_ptr = .ok d1 ∧
      d1.file_size = Nat.max d.file_size (e.offset + count) ∧
      (e.offset + count ≤ d.file_size → d1.file_size = d.file_size) ∧
      d.file_size ≤ d1.file_size := by
  obtain ⟨hoft, _, _⟩ := session_guard_some L s fd e hguard
  unfold fs_write at hw
  rw [hguard] at hw
  simp only [hd] at hw
  split at hw
  · cases hw
  · rename_i cur prev hgo
    split at hw
    · cases hw
    · rename_i nb hspan
      split at hw
      · cases hw
      · rename_i sa va hloop
        split at hw
        · rename_i hne
          simp only [Except.ok.injEq, Prod.mk.injEq] at hw
          exact absurd hw.1.symm hr
        · rename_i hbw
          simp only [ne_eq, not_not] at hbw
          -- frame of the loop
          have hkeep := fs_write_loop_keeps _ _ _ _ _ _ _ _ _ _ hloop
          have hoft_a : oft_read sa fd = .ok e := by
            rw [oft_read_congr s sa fd hkeep.1]; exact hoft
          rw [hoft_a] at hw
          simp only at hw
          -- the walk stayed on the chain
          have hsteps : (toI32 (e.offset / BLOCK_SIZE)).toNat ≤ chain.length := by
            unfold go_to_offset at hgo
            rw [hd] at hgo
            simp only at hgo
            rw [toU16_of_lt _ (IsChain_first_lt fat _ chain hfatlen hchain)] at hgo
            exact go_to_offset_loop_bound s fat hfat hfatlen chain _ _ _ _ hchain hgo
          have hchainlen : chain.length ≤ fat.length :=
            nodup_bounded_length chain fat.length hnodup (IsChain_bounded fat chain _ hchain)
          have hq : (toI32 (e.offset / BLOCK_SIZE)).toNat = e.offset / BLOCK_SIZE := by
            have h1 : ((e.offset : Int) / (BLOCK_SIZE : Int)) = ((e.offset / BLOCK_SIZE : Nat) : Int) :=
              (Int.natCast_div _ _).symm
            have h2 : e.offset / BLOCK_SIZE < 2147483648 := by unfold BLOCK_SIZE; omega
            rw [h1, toI32_of_lt _ h2, Int.toNat_ofNat]
          rw [hq] at hsteps
          have hoffsmall : e.offset < 268435456 := by
            unfold BLOCK_SIZE at hsteps
            omega
          -- the count is small
          have hbound := fs_write_loop_bound _ _ _ _ _ _ _ _ _ _ hloop
          simp only [zero_add] at hbound
          have hcount : count < 2147483648 := by
            rw [← hbw]
            by_cases hnb : nb ≤ 0
            · have : nb.toNat = 0 := by omega
              rw [this] at hbound
              omega
            · obtain ⟨k, hk⟩ : ∃ k : Nat, nb.toNat = k + 1 := ⟨nb.toNat - 1, by omega⟩
              rw [hk] at hloop
              have hlast := fs_write_loop_last _ _ _ _ k 0 _ _ _ _ (by omega) hloop
              have : (nb.toNat : Int) = nb := by omega
              have h2 : ((nb.toNat * BLOCK_SIZE : Nat) : Int) < 2147483648 := by
                push_cast; rw [this]; exact hlast
              omega
          have hcast : ((e.offset : Int) + (va.bytesWritten : Int)) = ((e.offset + count : Nat) : Int) := by
            rw [hbw]; push_cast; rfl
          rw [hcast, toU32_of_lt _ (by omega)] at hw
          split at hw
          · cases hw
          · rename_i s2 hs2
            obtain ⟨hb2, hs2eq⟩ := oft_write_inv _ _ _ _ hs2
            split at hw
            · cases hw
            · rename_i d2 hd2
              have hd2a : dir_read sa e.rootdir_ptr = .ok d2 := by
                rw [← dir_read_congr sa s2 _ (by rw [hs2eq])]; exact hd2
              have hsz : d2.file_size = d.file_size :=
                keeps_sizes_file_size s sa _ d d2 hkeep hd hd2a
              split at hw
              · cases hw
              · rename_i s3 hs3
                obtain ⟨hb3, hs3eq⟩ := dir_write_inv _ _ _ _ hs3
                simp only [Except.ok.injEq, Prod.mk.injEq] at hw
                obtain ⟨hret, hstate⟩ := hw
                have hmax : toU32 ((max d.file_size (e.offset + count) : Nat) : Int)
                    = Nat.max d.file_size (e.offset + count) := by
                  rw [max_eq_nat_max]
                  apply toU32_of_lt
                  have := Nat.max_lt.2 ⟨hsize, (by omega : e.offset + count < 4294967296)⟩
                  exact this
                refine ⟨?_, ?_, ?_⟩
                · rw [← hret, hbw, toI32_of_lt _ hcount]
                · rw [← hstate, hs3eq]
                  apply oft_read_of_getElem _ _ _ hb2.1
                  show (s2.open_file_table)[fd.toNat]? = _
                  rw [hs2eq]
                  show (sa.open_file_table.set fd.toNat _)[fd.toNat]? = _
                  rw [List.getElem?_set_self (by omega)]
                · refine ⟨{ d2 with file_size := Nat.max d.file_size (e.offset + count) }, ?_, rfl, ?_, ?_⟩
                  · rw [← hstate, hs3eq]
                    apply dir_read_of_getElem _ _ _ hb3.1
                    show (s2.root_directory.set e.rootdir_ptr.toNat _)[e.rootdir_ptr.toNat]? = _
                    rw [List.getElem?_set_self (by omega), hmax]
                  · intro hle
                    exact Nat.max_eq_left hle
                  · exact Nat.le_max_left _ _

/-! ### Reading a file back and overwriting inside a block -/

theorem splice_length (buf b : List Nat) (pos : Nat) (h : pos + b.length ≤ buf.length) :
    (buf.take pos ++ b ++ buf.drop (pos + b.length)).length = buf.length := by
  simp only [List.length_append, List.length_take, List.length_drop]
  omega

theorem splice_getElem? (buf b : List Nat) (pos p : Nat) (h : pos + b.length ≤ buf.length) :
    (buf.take pos ++ b ++ buf.drop (pos + b.length))[p]? =
      if p < pos then buf[p]? else if p < pos + b.length then b[p - pos]? else buf[p]? := by
  have hl : (buf.take pos).length = pos := by
    simp only [List.length_take]; omega
  rw [List.append_assoc]
  by_cases h1 : p < pos
  · rw [if_pos h1, List.getElem?_append_left (by omega), List.getElem?_take_of_lt h1]
  · rw [if_neg h1, List.getElem?_append_right (by omega), hl]
    by_cases h2 : p < pos + b.length
    · rw [if_pos h2, List.getElem?_append_left (by omega)]
    · rw [if_neg h2, List.getElem?_append_right (by omega), List.getElem?_drop]
      congr 1
      omega

theorem chunk_len_of_le (E : Nat) (h : E ≤ BLOCK_SIZE) : chunk_len 0 E = BLOCK_SIZE - E := by
  unfold chunk_len toSize
  unfold BLOCK_SIZE at h ⊢
  omega

theorem last_end_padding_aligned (nbN n : Nat) (h1 : nbN * BLOCK_SIZE < 2147483648)
    (h2 : n ≤ nbN * BLOCK_SIZE) :
    last_end_padding (nbN : Int) 0 n = .ok (nbN * BLOCK_SIZE - n) := by
  unfold last_end_padding
  have hc : (nbN : Int) * (BLOCK_SIZE : Int) < 2147483648 ∧
      -2147483648 ≤ (nbN : Int) * (BLOCK_SIZE : Int) := by
    constructor
    · exact_mod_cast h1
    · have : (0 : Int) ≤ (nbN : Int) * (BLOCK_SIZE : Int) := by positivity
      omega
  rw [if_pos hc]
  congr 1
  unfold toSize
  unfold BLOCK_SIZE at h1 h2 ⊢
  omega

theorem read_step_full (s : FS) (n : Nat) (nb : Int) (i : Nat) (v : ReadVars) (b : List Nat)
    (next : Nat) (hfp : v.frontPadding = 0) (hep : v.endPadding = 0) (hi : (i : Int) ≠ nb - 1)
    (hb : block_read s.disk (v.currentIndex + s.superblock.data_start_index) = some b)
    (hroom : v.bytesRead + BLOCK_SIZE ≤ v.buf.length)
    (hnext : FAT_read s v.currentIndex = .ok next) :
    fs_read_step s n nb i v = .ok
      { currentIndex := toU16 next, bytesRead := toSize (v.bytesRead + BLOCK_SIZE),
        frontPadding := 0, endPadding := 0,
        buf := v.buf.take v.bytesRead ++ b ++ v.buf.drop (v.bytesRead + BLOCK_SIZE) } := by
  simp only [fs_read_step, if_neg hi, read_block, hfp, hep, and_self, if_true, hb, hroom, hnext,
    chunk_len_zero, ite_self]

theorem read_step_last (s : FS) (n : Nat) (nb : Int) (i : Nat) (v : ReadVars) (b : List Nat)
    (next E : Nat) (hfp : v.frontPadding = 0) (hi : (i : Int) = nb - 1)
    (hE : last_end_padding nb 0 n = .ok E) (hEle : E < BLOCK_SIZE)
    (hb : block_read s.disk (v.currentIndex + s.superblock.data_start_index) = some b)
    (hroom : v.bytesRead + (BLOCK_SIZE - E) ≤ v.buf.length)
    (hnext : FAT_read s v.currentIndex = .ok next) :
    fs_read_step s n nb i v = .ok
      { currentIndex := toU16 next, bytesRead := toSize (v.bytesRead + (BLOCK_SIZE - E) : Nat),
        frontPadding := 0, endPadding := E,
        buf := v.buf.take v.bytesRead ++ b.take (BLOCK_SIZE - E) ++
                v.buf.drop (v.bytesRead + (BLOCK_SIZE - E)) } := by
  have hblen := block_read_length _ _ _ hb
  by_cases hz : E = 0
  · subst hz
    simp only [Nat.sub_zero] at hroom ⊢
    simp only [fs_read_step, if_pos hi, hfp, hE, read_block, and_self, if_true, hb, hroom, hnext,
      chunk_len_zero]
    rw [← hblen, List.take_length]
    simp
  · have hchunk := chunk_len_of_le E (by omega)
    have hcond : ¬ ((0 : Nat) = 0 ∧ E = 0) := fun h => hz h.2
    have hmem : v.bytesRead + (BLOCK_SIZE - E) ≤ v.buf.length ∧
        0 + (BLOCK_SIZE - E) ≤ b.length := ⟨hroom, by omega⟩
    simp only [fs_read_step, if_pos hi, hfp, hE, read_block, hcond, if_false, hb, Option.getD_some,
      memcpy, hchunk, hmem, and_self, if_true, hnext, List.drop_zero]
    simp [hz]

theorem IsChain_drop_step (fat chain : List Nat) (cur i : Nat) (hi : i < chain.length)
    (h : IsChain fat cur (chain.drop i)) :
    cur = chain[i] ∧ chain[i] < fat.length ∧
    IsChain fat (fat.getD chain[i] 0) (chain.drop (i + 1)) := by
  rw [List.drop_eq_getElem_cons hi] at h
  obtain ⟨h1, _, h3, _, h5⟩ := h
  subst h1
  exact ⟨rfl, h3, h5⟩

theorem file_byte_of_block (s : FS) (chain b : List Nat) (i p : Nat) (hi : i < chain.length)
    (hb : block_read s.disk (chain[i] + s.superblock.data_start_index) = some b)
    (hp1 : i * BLOCK_SIZE ≤ p) (hp2 : p < (i + 1) * BLOCK_SIZE) :
    b[p - i * BLOCK_SIZE]? = some (file_byte s chain p) := by
  have hblen := block_read_length _ _ _ hb
  have hdiv : p / BLOCK_SIZE = i := by
    unfold BLOCK_SIZE at hp1 hp2 ⊢
    omega
  have hmod : p % BLOCK_SIZE = p - i * BLOCK_SIZE := by
    unfold BLOCK_SIZE at hp1 hp2 ⊢
    omega
  have hlt : p - i * BLOCK_SIZE < b.length := by
    rw [hblen]
    unfold BLOCK_SIZE at hp1 hp2 ⊢
    omega
  unfold file_byte
  rw [hdiv, hmod]
  have hget : chain.getD i 0 = chain[i] := by
    simp [List.getD_eq_getElem?_getD, List.getElem?_eq_getElem hi]
  rw [hget, hb]
  simp [List.getD_eq_getElem?_getD, List.getElem?_eq_getElem hlt]

theorem fs_read_loop_aligned (s : FS) (fat chain : List Nat) (n nbN : Nat)
    (hfat : s.FAT = some fat) (hfatlen : fat.length ≤ 65535)
    (hblocks : ∀ b ∈ chain, (block_read s.disk (b + s.superblock.data_start_index)).isSome)
    (hnb1 : n ≤ nbN * BLOCK_SIZE) (hnb2 : (nbN - 1) * BLOCK_SIZE < n)
    (hnbc : nbN ≤ chain.length) (hsmall : nbN * BLOCK_SIZE < 2147483648) :
    ∀ (m i : Nat) (v : ReadVars), i + (m + 1) = nbN → v.frontPadding = 0 → v.endPadding = 0 →
      v.bytesRead = i * BLOCK_SIZE → IsChain fat v.currentIndex (chain.drop i) →
      v.buf.length = n →
      ∃ v1, fs_read_loop s n (nbN : Int) (m + 1) i v = .ok v1 ∧ v1.bytesRead = n ∧
        v1.buf.length = n ∧
        (∀ p, p < i * BLOCK_SIZE → v1.buf[p]? = v.buf[p]?) ∧
        (∀ p, i * BLOCK_SIZE ≤ p → p < n → v1.buf[p]? = some (file_byte s chain p)) := by
  intro m
  induction m with
  | zero =>
    intro i v hi hfp hep hbr hch hlen
    have hic : i < chain.length := by omega
    obtain ⟨hcur, hcurlt, hrest⟩ := IsChain_drop_step fat chain _ i hic hch
    have hsome := hblocks chain[i] (List.getElem_mem hic)
    obtain ⟨b, hb⟩ := Option.isSome_iff_exists.1 hsome
    have hblen := block_read_length _ _ _ hb
    have hE := last_end_padding_aligned nbN n hsmall hnb1
    have hElt : nbN * BLOCK_SIZE - n < BLOCK_SIZE := by
      have : nbN = i + 1 := by omega
      subst this
      simp only [Nat.add_sub_cancel] at hnb2
      rw [Nat.succ_mul] at hnb1 ⊢
      omega
    have hchunk : BLOCK_SIZE - (nbN * BLOCK_SIZE - n) = n - i * BLOCK_SIZE := by
      have : nbN = i + 1 := by omega
      subst this
      simp only [Nat.add_sub_cancel] at hnb2
      rw [Nat.succ_mul] at hnb1 ⊢
      omega
    have hstep := read_step_last s n (nbN : Int) i v b (fat.getD chain[i] 0) _ hfp
      (by push_cast [← hi]; omega) hE hElt (by rw [hcur]; exact hb)
      (by rw [hchunk, hbr, hlen]; omega)
      (by rw [hcur]; exact FAT_read_nat s fat _ hfat hcurlt)
    rw [hchunk] at hstep
    have hXlen : (b.take (n - i * BLOCK_SIZE)).length = n - i * BLOCK_SIZE := by
      rw [List.length_take, hblen]
      have : nbN = i + 1 := by omega
      subst this
      rw [Nat.succ_mul] at hnb1
      omega
    have hroom : v.bytesRead + (b.take (n - i * BLOCK_SIZE)).length ≤ v.buf.length := by
      rw [hXlen, hbr, hlen]; omega
    obtain ⟨w, hw, hwbr, hwbuf⟩ : ∃ w : ReadVars, fs_read_step s n (nbN : Int) i v = .ok w ∧
        w.bytesRead = toSize ((v.bytesRead + (n - i * BLOCK_SIZE) : Nat) : Int) ∧
        w.buf = v.buf.take v.bytesRead ++ b.take (n - i * BLOCK_SIZE) ++
                  v.buf.drop (v.bytesRead + (n - i * BLOCK_SIZE)) := ⟨_, hstep, rfl, rfl⟩
    have hsp := splice_getElem? v.buf (b.take (n - i * BLOCK_SIZE)) v.bytesRead
    have hsl := splice_length v.buf (b.take (n - i * BLOCK_SIZE)) v.bytesRead hroom
    rw [hXlen] at hsp hsl
    rw [← hwbuf] at hsp hsl
    refine ⟨w, by simp only [fs_read_loop, hw], ?_, ?_, ?_, ?_⟩
    · rw [hwbr, hbr]
      have : i * BLOCK_SIZE + (n - i * BLOCK_SIZE) = n := by omega
      rw [this]
      apply toSize_of_lt
      unfold BLOCK_SIZE at hsmall hnb1
      omega
    · rw [hsl, hlen]
    · intro p hp
      rw [hsp p (by rw [hbr, hlen]; omega), if_pos (by omega)]
    · intro p hp1 hp2
      rw [hsp p (by rw [hbr, hlen]; omega), if_neg (by omega), if_pos (by omega), hbr,
        List.getElem?_take_of_lt (by omega)]
      apply file_byte_of_block s chain b i p hic hb hp1
      have : nbN = i + 1 := by omega
      subst this
      omega
  | succ m ih =>
    intro i v hi hfp hep hbr hch hlen
    have hic : i < chain.length := by omega
    obtain ⟨hcur, hcurlt, hrest⟩ := IsChain_drop_step fat chain _ i hic hch
    have hsome := hblocks chain[i] (List.getElem_mem hic)
    obtain ⟨b, hb⟩ := Option.isSome_iff_exists.1 hsome
    have hblen := block_read_length _ _ _ hb
    have hfull : (i + 1) * BLOCK_SIZE < n := by
      have h1 : (i + 1) * BLOCK_SIZE ≤ (nbN - 1) * BLOCK_SIZE :=
        Nat.mul_le_mul_right _ (by omega)
      omega
    rw [Nat.succ_mul] at hfull
    have hstep := read_step_full s n (nbN : Int) i v b (fat.getD chain[i] 0) hfp hep
      (by push_cast [← hi]; omega) (by rw [hcur]; exact hb) (by rw [hbr, hlen]; omega)
      (by rw [hcur]; exact FAT_read_nat s fat _ hfat hcurlt)
    have hroom : v.bytesRead + b.length ≤ v.buf.length := by
      rw [hblen, hbr, hlen]; omega
    obtain ⟨w, hw, hwcur, hwbr, hwfp, hwep, hwbuf⟩ : ∃ w : ReadVars,
        fs_read_step s n (nbN : Int) i v = .ok w ∧
        w.currentIndex = toU16 (fat.getD chain[i] 0) ∧
        w.bytesRead = toSize ((v.bytesRead : Int) + (BLOCK_SIZE : Int)) ∧
        w.frontPadding = 0 ∧ w.endPadding = 0 ∧
        w.buf = v.buf.take v.bytesRead ++ b ++ v.buf.drop (v.bytesRead + b.length) :=
      ⟨_, hstep, rfl, rfl, rfl, rfl, by rw [hblen]⟩
    have hsp := splice_getElem? v.buf b v.bytesRead
    have hsl := splice_length v.buf b v.bytesRead hroom
    rw [← hwbuf] at hsp hsl
    have hbr1 : w.bytesRead = (i + 1) * BLOCK_SIZE := by
      have : ((v.bytesRead : Int) + (BLOCK_SIZE : Int)) = ((v.bytesRead + BLOCK_SIZE : Nat) : Int) := by
        push_cast; rfl
      rw [hwbr, this, toSize_of_lt, hbr, Nat.succ_mul]
      unfold BLOCK_SIZE at hsmall hfull hnb1 ⊢
      omega
    have hwch : IsChain fat w.currentIndex (chain.drop (i + 1)) := by
      rw [hwcur, toU16_of_lt _ (IsChain_first_lt fat _ _ hfatlen hrest)]
      exact hrest
    obtain ⟨v1, hloop, h1, h2, h3, h4⟩ := ih (i + 1) w (by omega) hwfp hwep hbr1 hwch
      (by rw [hsl, hlen])
    refine ⟨v1, ?_, h1, h2, ?_, ?_⟩
    · rw [fs_read_loop, hw]
      exact hloop
    · intro p hp
      rw [h3 p (by rw [Nat.succ_mul]; omega), hsp p hroom, if_pos (by omega)]
    · intro p hp1 hp2
      by_cases hp3 : p < (i + 1) * BLOCK_SIZE
      · rw [h3 p hp3, hsp p hroom]
        rw [Nat.succ_mul] at hp3
        rw [if_neg (by omega), if_pos (by omega), hbr]
        exact file_byte_of_block s chain b i p hic hb hp1 (by rw [Nat.succ_mul]; omega)
      · exact h4 p (by omega) hp2

theorem block_span_aligned (n : Nat) (hn : n < 2147483648) :
    block_span 0 n = .ok (((n + (BLOCK_SIZE - 1)) / BLOCK_SIZE : Nat) : Int) := by
  unfold block_span
  by_cases h0 : n = 0
  · subst h0
    simp [BLOCK_SIZE]
  · rw [if_neg h0]
    have hs : toSize ((0 : Nat) + n : Int) = n := by
      have : ((0 : Nat) + n : Int) = ((n : Nat) : Int) := by simp
      rw [this]
      exact toSize_of_lt n (by omega)
    rw [hs]
    have hq : toI32 ((n : Int) / (BLOCK_SIZE : Int)) = ((n / BLOCK_SIZE : Nat) : Int) := by
      rw [← Int.natCast_div]
      apply toI32_of_lt
      unfold BLOCK_SIZE
      omega
    rw [hq]
    by_cases hr : n % BLOCK_SIZE = 0
    · rw [if_neg (not_not.2 hr)]
      have hN : (n + (BLOCK_SIZE - 1)) / BLOCK_SIZE = n / BLOCK_SIZE := by
        unfold BLOCK_SIZE at hr ⊢
        omega
      rw [hN]
    · rw [if_pos hr]
      have hlt : ((n / BLOCK_SIZE : Nat) : Int) + 1 < 2147483648 := by
        unfold BLOCK_SIZE
        omega
      rw [if_pos hlt]
      have hN : (n + (BLOCK_SIZE - 1)) / BLOCK_SIZE = n / BLOCK_SIZE + 1 := by
        unfold BLOCK_SIZE at hr ⊢
        omega
      rw [hN]
      push_cast
      rfl

theorem session_guard_of_read (L : Limits) (s : FS) (fd : Int) (e : OpenFileEntry)
    (hfd : fd < L.FS_OPEN_MAX_COUNT) (hread : oft_read s fd = .ok e) (hp : e.rootdir_ptr ≠ -1) :
    session_guard L s fd = .ok (some e) := by
  unfold session_guard
  rw [if_neg (by omega), hread]
  simp only [hp, if_false]

theorem fs_lseek_eval (L : Limits) (s : FS) (fd : Int) (off : Nat) (e : OpenFileEntry)
    (d : RootDirEntry) (hguard : session_guard L s fd = .ok (some e))
    (hd : dir_read s e.rootdir_ptr = .ok d) :
    fs_lseek L s fd off = .ok (0,
      { s with open_file_table := s.open_file_table.set fd.toNat { e with offset := toU32 off } }) := by
  obtain ⟨hread, _, _⟩ := session_guard_some L s fd e hguard
  obtain ⟨hb, _⟩ := oft_read_inv s fd e hread
  simp only [fs_lseek, hguard, fs_stat, hd, gt_iff_lt, lt_self_iff_false, if_false, oft_write, hb,
    and_self, if_true]

theorem file_data_congr (s t : FS) (chain : List Nat) (n : Nat) (h1 : t.disk = s.disk)
    (h2 : t.superblock = s.superblock) : file_data t chain n = file_data s chain n := by
  unfold file_data file_byte
  rw [h1, h2]

theorem file_data_length (s : FS) (chain : List Nat) (n : Nat) :
    (file_data s chain n).length = n := by
  simp [file_data]

theorem file_data_getElem? (s : FS) (chain : List Nat) (n p : Nat) (hp : p < n) :
    (file_data s chain n)[p]? = some (file_byte s chain p) := by
  simp [file_data, List.getElem?_range hp]

theorem fs_read_from_zero (L : Limits) (s : FS) (fd : Int) (e : OpenFileEntry) (d : RootDirEntry)
    (fat chain : List Nat)
    (hguard : session_guard L s fd = .ok (some e)) (hzero : e.offset = 0)
    (hd : dir_read s e.rootdir_ptr = .ok d)
    (hfat : s.FAT = some fat) (hfatlen : fat.length ≤ 65535)
    (hchain : IsChain fat d.data_index chain) (hnodup : chain.Nodup)
    (hcover : d.file_size ≤ chain.length * BLOCK_SIZE)
    (hblocks : ∀ b ∈ chain, (block_read s.disk (b + s.superblock.data_start_index)).isSome) :
    fs_read L s fd (List.replicate d.file_size 0) d.file_size
      = .ok ((d.file_size : Int), file_data s chain d.file_size,
          { s with
            open_file_table :=
              s.open_file_table.set fd.toNat
                { e with offset := toU32 ((e.offset : Int) + (d.file_size : Int)) } }) := by
  obtain ⟨hread, _, _⟩ := session_guard_some L s fd e hguard
  obtain ⟨hb, _⟩ := oft_read_inv s fd e hread
  have hchainlen : chain.length ≤ fat.length :=
    nodup_bounded_length chain fat.length hnodup (IsChain_bounded fat chain _ hchain)
  have hn : d.file_size < 268435456 := by
    unfold BLOCK_SIZE at hcover
    have : chain.length * 4096 ≤ 65535 * 4096 := Nat.mul_le_mul_right _ (by omega)
    omega
  have hgo : go_to_offset s e = .ok (d.data_index, -1) := by
    simp only [go_to_offset, hd, hzero]
    rw [toU16_of_lt _ (IsChain_first_lt fat _ chain hfatlen hchain)]
    rfl
  have hmin : min d.file_size (toU32 ((d.file_size : Int) - (e.offset : Int))) = d.file_size := by
    rw [hzero]
    simp only [Nat.cast_zero, sub_zero]
    rw [toU32_of_lt _ (by omega)]
    simp [min]
  have hfp : e.offset % BLOCK_SIZE = 0 := by rw [hzero]; rfl
  have hspan := block_span_aligned d.file_size (by omega)
  simp only [fs_read, hguard, hd, hgo, hmin, hfp, hspan, Int.toNat_ofNat]
  by_cases h0 : d.file_size = 0
  · rw [h0]
    simp [fs_read_loop, oft_write, hb, toI32, file_data, BLOCK_SIZE]
  · obtain ⟨m, hm⟩ : ∃ m, (d.file_size + (BLOCK_SIZE - 1)) / BLOCK_SIZE = m + 1 :=
      ⟨(d.file_size + (BLOCK_SIZE - 1)) / BLOCK_SIZE - 1, by unfold BLOCK_SIZE; omega⟩
    have hm4 : (d.file_size + 4095) / 4096 = m + 1 := hm
    have hcover4 : d.file_size ≤ chain.length * 4096 := hcover
    obtain ⟨v1, hloop, hbr, hlen, _, hdata⟩ := fs_read_loop_aligned s fat chain d.file_size (m + 1)
      hfat hfatlen hblocks (by unfold BLOCK_SIZE; omega)
      (by unfold BLOCK_SIZE; simp only [Nat.add_sub_cancel]; omega)
      (by omega) (by unfold BLOCK_SIZE; omega)
      m 0 { currentIndex := d.data_index, bytesRead := 0, frontPadding := 0, endPadding := 0,
            buf := List.replicate d.file_size 0 }
      (by omega) rfl rfl (by simp) (by simpa using hchain) (by simp)
    rw [hm]
    rw [hloop]
    simp only [hbr, ne_eq, not_true_eq_false, if_false, oft_write, hb, and_self, if_true]
    rw [toI32_of_lt _ (by omega)]
    have hbuf : v1.buf = file_data s chain d.file_size := by
      apply List.ext_getElem?
      intro p
      by_cases hp : p < d.file_size
      · rw [hdata p (by omega) hp, file_data_getElem? s chain _ p hp]
      · rw [List.getElem?_eq_none (by omega),
          List.getElem?_eq_none (by rw [file_data_length]; omega)]
    rw [hbuf]

theorem toSize_cast (x : Int) : ((toSize x : Nat) : Int) = x % 18446744073709551616 := by
  unfold toSize
  omega

/-- After the first block, the loop of `fs_write` counts `BLOCK_SIZE` bytes per block and
`BLOCK_SIZE - (blocks * BLOCK_SIZE - count)` on the last one, modulo `2 ^ 64`. -/
theorem fs_write_loop_tail_count (rp : Int) (buf : List Nat) (count : Nat) (nb : Int) :
    ∀ (m i : Nat) (s s1 : FS) (v v1 : WriteVars),
    (i : Int) + (m : Int) + 1 = nb → 1 ≤ i → v.frontPadding = 0 → v.endPadding = 0 →
    fs_write_loop rp buf count nb (m + 1) i s v = .ok (s1, v1) →
    ((v1.bytesWritten : Int) - ((v.bytesWritten : Int) + ((m : Int) + 1) * 4096
        - (nb * 4096 - (count : Int)))) % 18446744073709551616 = 0 := by
  intro m
  induction m with
  | zero =>
    intro i s s1 v v1 hi h1 hfp hep h
    simp only [fs_write_loop] at h
    split at h
    · cases h
    · rename_i sa va hstep
      simp only [Except.ok.injEq, Prod.mk.injEq] at h
      obtain ⟨_, hlast, hbw, _, _⟩ := fs_write_step_inv _ _ _ _ _ _ _ _ _ hstep
      rw [← h.2]
      rcases hlast with ⟨_, hl⟩ | ⟨hne, _⟩
      · rw [hfp] at hl hbw
        unfold last_end_padding at hl
        split at hl
        · simp only [Except.ok.injEq] at hl
          have e1 := toSize_cast (↑v.bytesWritten + ↑(chunk_len 0 va.endPadding))
          rw [← hbw] at e1
          have e2 : ((chunk_len 0 va.endPadding : Nat) : Int)
              = ((BLOCK_SIZE : Int) - (0 : Nat) - va.endPadding) % 18446744073709551616 :=
            toSize_cast _
          have e3 := toSize_cast (nb * ↑BLOCK_SIZE - ↑(toSize (↑(0 : Nat) + ↑count)))
          rw [hl] at e3
          have e4 := toSize_cast (↑(0 : Nat) + ↑count)
          simp only [BLOCK_SIZE, Nat.cast_ofNat, Nat.cast_zero] at e1 e2 e3 e4
          push_cast
          omega
        · cases hl
      · exfalso; apply hne; push_cast at hi; omega
  | succ m ih =>
    intro i s s1 v v1 hi h1 hfp hep h
    rw [fs_write_loop] at h
    split at h
    · cases h
    · rename_i sa va hstep
      obtain ⟨_, hlast, hbw, hfp1, _⟩ := fs_write_step_inv _ _ _ _ _ _ _ _ _ hstep
      rcases hlast with ⟨hlast, _⟩ | ⟨_, hep1⟩
      · exfalso; push_cast at hi; omega
      · have hfp2 : va.frontPadding = 0 := by
          rw [hfp1, hfp]; simp
        have hep2 : va.endPadding = 0 := by rw [hep1, hep]
        have hrec := ih (i + 1) sa s1 va v1 (by push_cast at hi ⊢; omega) (by omega) hfp2 hep2 h
        have e1 := toSize_cast (↑v.bytesWritten + ↑(chunk_len v.frontPadding va.endPadding))
        rw [← hbw, hfp, hep2, chunk_len_zero] at e1
        simp only [BLOCK_SIZE, Nat.cast_ofNat] at e1
        push_cast at hrec ⊢
        omega

/-- A write that starts inside a block and spans two blocks or more never reports
success: the bytes counted fall short of `count` by the front padding. -/
theorem fs_write_loop_unaligned_short (rp : Int) (buf : List Nat) (count : Nat) (nb : Int)
    (s s1 : FS) (v v1 : WriteVars) (hnb : 2 ≤ nb) (hfp : 0 < v.frontPadding)
    (hfp2 : v.frontPadding < BLOCK_SIZE) (hep : v.endPadding = 0) (hbw : v.bytesWritten = 0)
    (h : fs_write_loop rp buf count nb nb.toNat 0 s v = .ok (s1, v1)) :
    v1.bytesWritten ≠ count := by
  obtain ⟨m, hm⟩ : ∃ m : Nat, nb.toNat = m + 1 + 1 := ⟨nb.toNat - 2, by omega⟩
  rw [hm, fs_write_loop] at h
  split at h
  · cases h
  · rename_i sa va hstep
    obtain ⟨_, hlast, hbw1, hfp1, _⟩ := fs_write_step_inv _ _ _ _ _ _ _ _ _ hstep
    rcases hlast with ⟨hlast, _⟩ | ⟨_, hep1⟩
    · exfalso; simp at hlast; omega
    · have hrec := fs_write_loop_tail_count rp buf count nb m 1 sa s1 va v1 (by omega)
        (le_refl 1) (by rw [hfp1]; simp) (by rw [hep1, hep]) h
      rw [hep1, hep, hbw] at hbw1
      have e1 := toSize_cast (↑(0 : Nat) + ↑(chunk_len v.frontPadding 0))
      rw [← hbw1] at e1
      have e2 : ((chunk_len v.frontPadding 0 : Nat) : Int)
          = ((BLOCK_SIZE : Int) - v.frontPadding - (0 : Nat)) % 18446744073709551616 :=
        toSize_cast _
      have hfp3 : v.frontPadding < 4096 := hfp2
      simp only [BLOCK_SIZE, Nat.cast_ofNat, Nat.cast_zero] at e1 e2
      intro hc
      rw [hc] at hrec
      omega

theorem go_to_offset_loop_on_chain (s : FS) (fat : List Nat) (hfat : s.FAT = some fat)
    (hfatlen : fat.length ≤ 65535) : ∀ (n : Nat) (chain : List Nat) (cur : Nat) (prev : Int),
    IsChain fat cur chain → n ≤ chain.length →
    ∃ c p, go_to_offset_loop s n cur prev = .ok (c, p) ∧ IsChain fat c (chain.drop n) := by
  intro n
  induction n with
  | zero =>
    intro chain cur prev hc _
    exact ⟨cur, prev, rfl, by simpa using hc⟩
  | succ n ih =>
    intro chain cur prev hc hn
    cases chain with
    | nil => simp at hn
    | cons b bs =>
      obtain ⟨h1, _, h3, _, h5⟩ := hc
      subst h1
      simp only [go_to_offset_loop, FAT_read_nat s fat cur hfat h3]
      rw [toU16_of_lt _ (IsChain_first_lt fat _ bs hfatlen h5)]
      obtain ⟨c, p, hgo, hch⟩ := ih bs _ (toI16 cur) h5 (by simpa using hn)
      exact ⟨c, p, hgo, by simpa using hch⟩

theorem block_span_single (fp count : Nat) (hpos : 0 < count) (hfit : fp + count ≤ BLOCK_SIZE) :
    block_span fp count = .ok 1 := by
  unfold block_span
  rw [if_neg (by omega)]
  have hs : toSize ((fp : Int) + (count : Int)) = fp + count := by
    have : ((fp : Int) + (count : Int)) = ((fp + count : Nat) : Int) := by push_cast; rfl
    rw [this]
    apply toSize_of_lt
    unfold BLOCK_SIZE at hfit
    omega
  rw [hs]
  by_cases hr : (fp + count) % BLOCK_SIZE = 0
  · rw [if_neg (not_not.2 hr)]
    have : (fp + count) / BLOCK_SIZE = 1 := by
      unfold BLOCK_SIZE at hr hfit ⊢
      omega
    rw [← Int.natCast_div, this]
    rfl
  · rw [if_pos hr]
    have : (fp + count) / BLOCK_SIZE = 0 := by
      unfold BLOCK_SIZE at hr hfit ⊢
      omega
    rw [← Int.natCast_div, this]
    rfl

theorem fs_write_success_single_block (rp : Int) (buf : List Nat) (count : Nat) (nb : Int)
    (s s1 : FS) (v v1 : WriteVars) (hfp : 0 < v.frontPadding)
    (hfp2 : v.frontPadding < BLOCK_SIZE) (hep : v.endPadding = 0) (hbw : v.bytesWritten = 0)
    (h : fs_write_loop rp buf count nb nb.toNat 0 s v = .ok (s1, v1))
    (hsucc : v1.bytesWritten = count) :
    count = 0 ∨ v.frontPadding + count ≤ BLOCK_SIZE := by
  by_cases hnb2 : 2 ≤ nb
  · exact absurd hsucc (fs_write_loop_unaligned_short rp buf count nb s s1 v v1 hnb2 hfp hfp2 hep
      hbw h)
  · by_cases hnb0 : nb ≤ 0
    · have : nb.toNat = 0 := by omega
      rw [this] at h
      simp only [fs_write_loop, Except.ok.injEq, Prod.mk.injEq] at h
      left
      rw [← hsucc, ← h.2, hbw]
    · have : nb.toNat = 0 + 1 := by omega
      rw [this, fs_write_loop] at h
      split at h
      · cases h
      · rename_i sa va hstep
        simp only [fs_write_loop, Except.ok.injEq, Prod.mk.injEq] at h
        obtain ⟨_, _, hbw1, _, hchunk⟩ := fs_write_step_inv _ _ _ _ _ _ _ _ _ hstep
        right
        rcases hchunk with ⟨hz, _⟩ | ⟨hc, _⟩
        · omega
        · rw [hbw] at hbw1
          have e1 : toSize ((0 : Nat) + (chunk_len v.frontPadding va.endPadding : Nat) : Int)
              = chunk_len v.frontPadding va.endPadding := by
            have : ((0 : Nat) + (chunk_len v.frontPadding va.endPadding : Nat) : Int)
                = ((chunk_len v.frontPadding va.endPadding : Nat) : Int) := by simp
            rw [this]
            apply toSize_of_lt
            unfold BLOCK_SIZE at hc
            omega
          rw [e1] at hbw1
          rw [← hsucc, ← h.2, hbw1]
          exact hc

theorem last_end_padding_single (fp count : Nat) (hfit : fp + count ≤ BLOCK_SIZE) :
    last_end_padding 1 fp count = .ok (BLOCK_SIZE - (fp + count)) := by
  unfold last_end_padding
  rw [if_pos (by unfold BLOCK_SIZE; omega)]
  congr 1
  unfold toSize
  unfold BLOCK_SIZE at hfit ⊢
  omega

theorem chunk_len_single (fp count : Nat) (hfit : fp + count ≤ BLOCK_SIZE) :
    chunk_len fp (BLOCK_SIZE - (fp + count)) = count := by
  unfold chunk_len toSize
  unfold BLOCK_SIZE at hfit ⊢
  omega

theorem block_read_some_inv (disk : Option (List (List Nat))) (i : Nat) (b : List Nat)
    (h : block_read disk i = some b) :
    ∃ blocks, disk = some blocks ∧ i < blocks.length := by
  unfold block_read at h
  split at h
  · cases h
  · rename_i blocks
    split at h
    · cases h
    · rename_i raw hraw
      exact ⟨blocks, rfl, (List.getElem?_eq_some.1 (by simpa using hraw)).1⟩

/-- One block written inside the file, starting inside the block: the step taken. -/
theorem fs_write_step_single (s : FS) (rp : Int) (buf b fat : List Nat) (count : Nat)
    (v : WriteVars) (hfat : s.FAT = some fat) (hcur : v.currentIndex < fat.length)
    (hfatlen : fat.length ≤ 65535)
    (hfp : 0 < v.frontPadding) (hfit : v.frontPadding + count ≤ BLOCK_SIZE)
    (hbw : v.bytesWritten = 0) (hbuf : count ≤ buf.length)
    (hb : block_read s.disk (v.currentIndex + s.superblock.data_start_index) = some b) :
    fs_write_step s rp buf count 1 0 v = .ok
      ({ s with
         disk := (block_write s.disk (v.currentIndex + s.superblock.data_start_index)
                   (b.take v.frontPadding ++ buf.take count ++
                     b.drop (v.frontPadding + count))).2 },
       { currentIndex := toU16 (fat.getD v.currentIndex 0), prev_index := toI16 v.currentIndex,
         bytesWritten := count, frontPadding := 0,
         endPadding := BLOCK_SIZE - (v.frontPadding + count) }) := by
  have hne : v.currentIndex ≠ FAT_EOC := by simp [FAT_EOC]; omega
  have hblen := block_read_length _ _ _ hb
  have hE := last_end_padding_single v.frontPadding count hfit
  have hchunk := chunk_len_single v.frontPadding count hfit
  have hcond : ¬ (v.frontPadding = 0 ∧ BLOCK_SIZE - (v.frontPadding + count) = 0) :=
    fun h => by omega
  have hmem : v.frontPadding + count ≤ b.length ∧ 0 + count ≤ buf.length := by
    rw [hblen]; exact ⟨hfit, by omega⟩
  have hsz : toSize ((0 : Int) + (count : Int)) = count := by
    have : ((0 : Int) + (count : Int)) = ((count : Nat) : Int) := by simp
    rw [this]
    apply toSize_of_lt
    unfold BLOCK_SIZE at hfit
    omega
  simp only [fs_write_step, hne, false_and, and_false, if_false, Nat.cast_zero, Int.reduceSub,
    if_true, hE, write_block, hcond, hb, Option.getD_some, memcpy, hchunk, hmem, and_self, hbw,
    List.drop_zero, FAT_read, hfat, Nat.cast_nonneg, Nat.cast_lt, hcur, Int.toNat_ofNat, hsz]

theorem go_to_offset_on_chain (s : FS) (e : OpenFileEntry) (d : RootDirEntry)
    (fat chain : List Nat) (hd : dir_read s e.rootdir_ptr = .ok d)
    (hfat : s.FAT = some fat) (hfatlen : fat.length ≤ 65535)
    (hchain : IsChain fat d.data_index chain) (hoff : e.offset < 4294967296)
    (hk : e.offset / BLOCK_SIZE < chain.length) :
    ∃ p, go_to_offset s e = .ok (chain.getD (e.offset / BLOCK_SIZE) 0, p) ∧
      chain.getD (e.offset / BLOCK_SIZE) 0 < fat.length := by
  have hq : (toI32 (e.offset / BLOCK_SIZE)).toNat = e.offset / BLOCK_SIZE := by
    have h1 : ((e.offset : Int) / (BLOCK_SIZE : Int)) = ((e.offset / BLOCK_SIZE : Nat) : Int) :=
      (Int.natCast_div _ _).symm
    have h2 : e.offset / BLOCK_SIZE < 2147483648 := by unfold BLOCK_SIZE; omega
    rw [h1, toI32_of_lt _ h2, Int.toNat_ofNat]
  obtain ⟨c, p, hgo, hch⟩ := go_to_offset_loop_on_chain s fat hfat hfatlen (e.offset / BLOCK_SIZE)
    chain d.data_index (-1) hchain (by omega)
  obtain ⟨hc, hlt, _⟩ := IsChain_drop_step fat chain c _ hk hch
  have hget : chain.getD (e.offset / BLOCK_SIZE) 0 = chain[e.offset / BLOCK_SIZE] := by
    simp [List.getD_eq_getElem?_getD, List.getElem?_eq_getElem hk]
  refine ⟨p, ?_, by rw [hget]; exact hlt⟩
  unfold go_to_offset
  rw [hd]
  simp only
  rw [hq, toU16_of_lt _ (IsChain_first_lt fat _ chain hfatlen hchain), hgo, hget, hc]

theorem fs_write_inside_block (L : Limits) (s : FS) (fd : Int) (buf : List Nat) (count : Nat)
    (e : OpenFileEntry) (d : RootDirEntry) (fat chain b : List Nat)
    (hguard : session_guard L s fd = .ok (some e))
    (hd : dir_read s e.rootdir_ptr = .ok d)
    (hfat : s.FAT = some fat) (hfatlen : fat.length ≤ 65535)
    (hchain : IsChain fat d.data_index chain) (hnodup : chain.Nodup)
    (hoff : e.offset < 4294967296) (hsize : d.file_size < 4294967296)
    (hk : e.offset / BLOCK_SIZE < chain.length)
    (hfp : 0 < e.offset % BLOCK_SIZE) (hpos : 0 < count)
    (hfit : e.offset % BLOCK_SIZE + count ≤ BLOCK_SIZE) (hbuf : count ≤ buf.length)
    (hb : block_read s.disk
        (chain.getD (e.offset / BLOCK_SIZE) 0 + s.superblock.data_start_index) = some b) :
    fs_write L s fd buf count = .ok ((count : Int),
      { s with
        disk := (block_write s.disk
                  (chain.getD (e.offset / BLOCK_SIZE) 0 + s.superblock.data_start_index)
                  (b.take (e.offset % BLOCK_SIZE) ++ buf.take count ++
                    b.drop (e.offset % BLOCK_SIZE + count))).2,
        open_file_table :=
          s.open_file_table.set fd.toNat { e with offset := e.offset + count },
        root_directory :=
          s.root_directory.set e.rootdir_ptr.toNat
            { d with file_size := Nat.max d.file_size (e.offset + count) } }) := by
  obtain ⟨hread, _, _⟩ := session_guard_some L s fd e hguard
  obtain ⟨hbo, hoget⟩ := oft_read_inv s fd e hread
  have hbd := dir_read_bounds s _ d hd
  obtain ⟨_, hdget⟩ := dir_read_getElem s _ d hd
  obtain ⟨p, hgo, hcur⟩ := go_to_offset_on_chain s e d fat chain hd hfat hfatlen hchain hoff hk
  have hspan := block_span_single _ count hpos hfit
  have hstep := fs_write_step_single s e.rootdir_ptr buf b fat count
    { currentIndex := chain.getD (e.offset / BLOCK_SIZE) 0, prev_index := p, bytesWritten := 0,
      frontPadding := e.offset % BLOCK_SIZE, endPadding := 0 }
    hfat hcur hfatlen hfp hfit rfl hbuf hb
  have hchainlen : chain.length ≤ fat.length :=
    nodup_bounded_length chain fat.length hnodup (IsChain_bounded fat chain _ hchain)
  have hsmall : e.offset + count < 4294967296 := by
    have : e.offset / BLOCK_SIZE < 65535 := by omega
    unfold BLOCK_SIZE at this hfit
    omega
  have hcast : ((e.offset : Int) + (count : Int)) = ((e.offset + count : Nat) : Int) := by
    push_cast; rfl
  have hmax : toU32 ((max d.file_size (e.offset + count) : Nat) : Int)
      = Nat.max d.file_size (e.offset + count) := by
    rw [max_eq_nat_max]
    apply toU32_of_lt
    exact Nat.max_lt.2 ⟨hsize, hsmall⟩
  have hone : (1 : Int).toNat = 0 + 1 := rfl
  have hret : toI32 ((count : Nat) : Int) = count := by
    apply toI32_of_lt
    unfold BLOCK_SIZE at hfit
    omega
  simp only [fs_write, hguard, hd, hgo, hspan, hone, fs_write_loop, hstep, ne_eq,
    not_true_eq_false, if_false, oft_read, hbo, and_self, if_true, List.get?_eq_getElem?,
    oft_write, dir_read, dir_write, hbd, hret, hdget, hoget, hcast, toU32_of_lt _ hsmall, hmax]

theorem read_back_eq (L : Limits) (s : FS) (fd : Int) (e : OpenFileEntry) (d : RootDirEntry)
    (fat chain : List Nat)
    (hguard : session_guard L s fd = .ok (some e))
    (hd : dir_read s e.rootdir_ptr = .ok d)
    (hfat : s.FAT = some fat) (hfatlen : fat.length ≤ 65535)
    (hchain : IsChain fat d.data_index chain) (hnodup : chain.Nodup)
    (hcover : d.file_size ≤ chain.length * BLOCK_SIZE)
    (hblocks : ∀ b ∈ chain, (block_read s.disk (b + s.superblock.data_start_index)).isSome) :
    read_back L s fd d.file_size = .ok ((d.file_size : Int), file_data s chain d.file_size) := by
  obtain ⟨hread, hfd, hptr⟩ := session_guard_some L s fd e hguard
  obtain ⟨hbo, _⟩ := oft_read_inv s fd e hread
  have hseek := fs_lseek_eval L s fd 0 e d hguard hd
  have hz : toU32 ((0 : Nat) : Int) = 0 := rfl
  rw [hz] at hseek
  have hguard1 : session_guard L
      { s with open_file_table := s.open_file_table.set fd.toNat { e with offset := 0 } } fd
      = .ok (some { e with offset := 0 }) := by
    refine session_guard_of_read L _ fd { e with offset := 0 } hfd ?_ hptr
    apply oft_read_of_getElem _ _ _ hbo.1
    show (s.open_file_table.set fd.toNat _)[fd.toNat]? = _
    rw [List.getElem?_set_self (by omega)]
  have hrd := fs_read_from_zero L
    { s with open_file_table := s.open_file_table.set fd.toNat { e with offset := 0 } } fd
    { e with offset := 0 } d fat chain hguard1 rfl hd hfat hfatlen hchain hnodup hcover hblocks
  unfold read_back
  rw [hseek]
  simp only
  rw [hrd]
  simp only [Except.ok.injEq, Prod.mk.injEq, true_and]
  exact file_data_congr s _ chain _ rfl rfl

theorem fs_write_inv (L : Limits) (s s1 : FS) (fd r : Int) (buf : List Nat) (count : Nat)
    (e : OpenFileEntry) (d : RootDirEntry)
    (hguard : session_guard L s fd = .ok (some e))
    (hd : dir_read s e.rootdir_ptr = .ok d)
    (hw : fs_write L s fd buf count = .ok (r, s1)) (hr : r ≠ -1) :
    ∃ cur prev nb sa va, go_to_offset s e = .ok (cur, prev) ∧
      block_span (e.offset % BLOCK_SIZE) count = .ok nb ∧
      fs_write_loop e.rootdir_ptr buf count nb nb.toNat 0 s
        { currentIndex := cur, prev_index := prev, bytesWritten := 0,
          frontPadding := e.offset % BLOCK_SIZE, endPadding := 0 } = .ok (sa, va) ∧
      va.bytesWritten = count := by
  unfold fs_write at hw
  rw [hguard] at hw
  simp only [hd] at hw
  split at hw
  · cases hw
  · rename_i cur prev hgo
    split at hw
    · cases hw
    · rename_i nb hspan
      split at hw
      · cases hw
      · rename_i sa va hloop
        split at hw
        · simp only [Except.ok.injEq, Prod.mk.injEq] at hw
          exact absurd hw.1.symm hr
        · rename_i hbw
          simp only [ne_eq, not_not] at hbw
          exact ⟨cur, prev, nb, sa, va, hgo, hspan, hloop, hbw⟩

theorem fs_write_nothing (L : Limits) (s : FS) (fd : Int) (buf : List Nat)
    (e : OpenFileEntry) (d : RootDirEntry) (cur : Nat) (prev : Int)
    (hguard : session_guard L s fd = .ok (some e))
    (hd : dir_read s e.rootdir_ptr = .ok d)
    (hgo : go_to_offset s e = .ok (cur, prev))
    (hoff : e.offset < 4294967296) (hsize : d.file_size < 4294967296) :
    fs_write L s fd buf 0 = .ok (0,
      { s with
        open_file_table := s.open_file_table.set fd.toNat e,
        root_directory :=
          s.root_directory.set e.rootdir_ptr.toNat
            { d with file_size := Nat.max d.file_size e.offset } }) := by
  obtain ⟨hread, _, _⟩ := session_guard_some L s fd e hguard
  obtain ⟨hbo, hoget⟩ := oft_read_inv s fd e hread
  have hbd := dir_read_bounds s _ d hd
  obtain ⟨_, hdget⟩ := dir_read_getElem s _ d hd
  have hspan : block_span (e.offset % BLOCK_SIZE) 0 = .ok 0 := by simp [block_span]
  have hcast : ((e.offset : Int) + ((0 : Nat) : Int)) = ((e.offset : Nat) : Int) := by simp
  have hmax : toU32 ((max d.file_size e.offset : Nat) : Int) = Nat.max d.file_size e.offset := by
    rw [max_eq_nat_max]
    apply toU32_of_lt
    exact Nat.max_lt.2 ⟨hsize, hoff⟩
  have hzero : (0 : Int).toNat = 0 := rfl
  have hret : toI32 ((0 : Nat) : Int) = 0 := rfl
  simp only [fs_write, hguard, hd, hgo, hspan, hzero, fs_write_loop, ne_eq,
    not_true_eq_false, if_false, oft_read, hbo, and_self, if_true, List.get?_eq_getElem?,
    oft_write, dir_read, dir_write, hbd, hret, hdget, hoget, hcast, toU32_of_lt _ hoff, hmax]

theorem block_read_after_write (disk : Option (List (List Nat))) (idx j : Nat)
    (data b : List Nat) (hb : block_read disk idx = some b) (hlen : data.length = BLOCK_SIZE) :
    block_read (block_write disk idx data).2 j
      = if j = idx then some data else block_read disk j := by
  obtain ⟨blocks, hdisk, hidx⟩ := block_read_some_inv disk idx b hb
  subst hdisk
  simp only [block_write, hidx, if_true, block_read, List.get?_eq_getElem?]
  by_cases hj : j = idx
  · subst hj
    rw [if_pos rfl, List.getElem?_set_self hidx]
    simp only
    rw [List.take_append_of_le_length (by omega), ← hlen, List.take_length]
  · rw [if_neg hj, List.getElem?_set_ne (fun h => hj h.symm)]

theorem file_byte_lt (s : FS) (chain b : List Nat) (k q : Nat) (hk : k < chain.length)
    (hb : block_read s.disk (chain[k] + s.superblock.data_start_index) = some b)
    (hq : q < BLOCK_SIZE) : b[q]? = some (file_byte s chain (k * BLOCK_SIZE + q)) := by
  have := file_byte_of_block s chain b k (k * BLOCK_SIZE + q) hk hb (by omega)
    (by rw [Nat.succ_mul]; omega)
  simpa using this

theorem file_data_after_block_write (s : FS) (chain b buf : List Nat) (n o : Nat)
    (D : Option (List (List Nat)))
    (hnodup : chain.Nodup) (hcover : n ≤ chain.length * BLOCK_SIZE)
    (hk : o / BLOCK_SIZE < chain.length)
    (hb : block_read s.disk
        (chain.getD (o / BLOCK_SIZE) 0 + s.superblock.data_start_index) = some b)
    (hfit : o % BLOCK_SIZE + buf.length ≤ BLOCK_SIZE) (hin : o + buf.length ≤ n)
    (hD : D = (block_write s.disk
        (chain.getD (o / BLOCK_SIZE) 0 + s.superblock.data_start_index)
        (b.take (o % BLOCK_SIZE) ++ buf ++ b.drop (o % BLOCK_SIZE + buf.length))).2) :
    file_data { s with disk := D } chain n
      = (file_data s chain n).take o ++ buf ++ (file_data s chain n).drop (o + buf.length) := by
  have hB : BLOCK_SIZE = 4096 := rfl
  have hblen := block_read_length _ _ _ hb
  have hget : chain.getD (o / BLOCK_SIZE) 0 = chain[o / BLOCK_SIZE] := by
    simp [List.getD_eq_getElem?_getD, List.getElem?_eq_getElem hk]
  rw [hget] at hb hD
  have hdlen : (b.take (o % BLOCK_SIZE) ++ buf ++ b.drop (o % BLOCK_SIZE + buf.length)).length
      = BLOCK_SIZE := by
    rw [splice_length b buf _ (by simp only [hB] at *; omega), hblen]
  have hold := file_data_length s chain n
  apply List.ext_getElem?
  intro p
  rw [splice_getElem? _ buf o p (by simp only [hB] at *; omega)]
  by_cases hp : p < n
  · rw [file_data_getElem? _ chain n p hp]
    have hj : p / BLOCK_SIZE < chain.length := by
      simp only [hB] at *
      omega
    have hgetj : chain.getD (p / BLOCK_SIZE) 0 = chain[p / BLOCK_SIZE] := by
      simp [List.getD_eq_getElem?_getD, List.getElem?_eq_getElem hj]
    have hbyte : file_byte { s with disk := D } chain p
        = ((block_read D (chain[p / BLOCK_SIZE] + s.superblock.data_start_index)).getD
            []).getD (p % BLOCK_SIZE) 0 := by
      unfold file_byte
      rw [hgetj]
    rw [hbyte, hD, block_read_after_write _ _ _ _ b hb hdlen]
    have hdecomp : p = p / BLOCK_SIZE * BLOCK_SIZE + p % BLOCK_SIZE := by
      rw [Nat.mul_comm]; exact (Nat.div_add_mod p BLOCK_SIZE).symm
    have hodecomp : o = o / BLOCK_SIZE * BLOCK_SIZE + o % BLOCK_SIZE := by
      rw [Nat.mul_comm]; exact (Nat.div_add_mod o BLOCK_SIZE).symm
    have hpm : p % BLOCK_SIZE < BLOCK_SIZE := Nat.mod_lt _ (by rw [hB]; omega)
    by_cases hjk : p / BLOCK_SIZE = o / BLOCK_SIZE
    · have hidx : chain[p / BLOCK_SIZE] + s.superblock.data_start_index
          = chain[o / BLOCK_SIZE] + s.superblock.data_start_index := by
        simp only [hjk]
      rw [if_pos hidx]
      simp only [Option.getD_some]
      have hsp := splice_getElem? b buf (o % BLOCK_SIZE) (p % BLOCK_SIZE) (by simp only [hB] at *; omega)
      have hval : ∀ (l : List Nat) (x : Nat), l[p % BLOCK_SIZE]? = some x →
          l.getD (p % BLOCK_SIZE) 0 = x := by
        intro l x hx
        simp [List.getD_eq_getElem?_getD, hx]
      have hbq := file_byte_lt s chain b (o / BLOCK_SIZE) (p % BLOCK_SIZE) hk hb hpm
      rw [← hjk, ← hdecomp] at hbq
      by_cases h1 : p < o
      · rw [if_pos h1, file_data_getElem? _ chain n p hp]
        congr 1
        apply hval
        rw [hsp, if_pos (by simp only [hB] at *; omega), hbq]
      · rw [if_neg h1]
        by_cases h2 : p < o + buf.length
        · rw [if_pos h2]
          have hlt : p - o < buf.length := by simp only [hB] at *; omega
          rw [List.getElem?_eq_getElem hlt]
          congr 1
          apply hval
          rw [hsp, if_neg (by simp only [hB] at *; omega), if_pos (by simp only [hB] at *; omega)]
          have : p % BLOCK_SIZE - o % BLOCK_SIZE = p - o := by simp only [hB] at *; omega
          rw [this, List.getElem?_eq_getElem hlt]
        · rw [if_neg h2, file_data_getElem? _ chain n p hp]
          congr 1
          apply hval
          rw [hsp, if_neg (by simp only [hB] at *; omega), if_neg (by simp only [hB] at *; omega), hbq]
    · have hne : chain[p / BLOCK_SIZE] ≠ chain[o / BLOCK_SIZE] := by
        intro heq
        exact hjk ((List.Nodup.getElem_inj_iff hnodup).1 heq)
      have hidx : ¬ (chain[p / BLOCK_SIZE] + s.superblock.data_start_index
          = chain[o / BLOCK_SIZE] + s.superblock.data_start_index) := by simp only [hB] at *; omega
      rw [if_neg hidx]
      have hsame : ((block_read s.disk (chain[p / BLOCK_SIZE] + s.superblock.data_start_index)).getD
          []).getD (p % BLOCK_SIZE) 0 = file_byte s chain p := by
        unfold file_byte
        rw [hgetj]
      rw [hsame]
      have hout : p < o ∨ o + buf.length ≤ p := by
        rcases Nat.lt_or_gt_of_ne hjk with h | h
        · left
          have : (p / BLOCK_SIZE + 1) * BLOCK_SIZE ≤ o / BLOCK_SIZE * BLOCK_SIZE :=
            Nat.mul_le_mul_right _ h
          rw [Nat.succ_mul] at this
          simp only [hB] at *
          omega
        · right
          have : (o / BLOCK_SIZE + 1) * BLOCK_SIZE ≤ p / BLOCK_SIZE * BLOCK_SIZE :=
            Nat.mul_le_mul_right _ h
          rw [Nat.succ_mul] at this
          simp only [hB] at *
          omega
      rcases hout with h | h
      · rw [if_pos h, file_data_getElem? _ chain n p hp]
      · rw [if_neg (by simp only [hB] at *; omega), if_neg (by simp only [hB] at *; omega), file_data_getElem? _ chain n p hp]
  · rw [List.getElem?_eq_none (by rw [file_data_length]; omega), if_neg (by omega),
      if_neg (by omega), List.getElem?_eq_none (by rw [file_data_length]; omega)]

theorem read_back_after_write (L : Limits) (s : FS) (fd : Int) (e e1 : OpenFileEntry)
    (d : RootDirEntry) (fat chain : List Nat) (D : Option (List (List Nat))) (size1 : Nat)
    (hguard : session_guard L s fd = .ok (some e))
    (hd : dir_read s e.rootdir_ptr = .ok d)
    (hfat : s.FAT = some fat) (hfatlen : fat.length ≤ 65535)
    (hchain : IsChain fat d.data_index chain) (hnodup : chain.Nodup)
    (hcover : d.file_size ≤ chain.length * BLOCK_SIZE)
    (hptr : e1.rootdir_ptr = e.rootdir_ptr) (hsize1 : size1 = d.file_size)
    (hD : ∀ b ∈ chain, (block_read D (b + s.superblock.data_start_index)).isSome) :
    read_back L
      { s with
        disk := D,
        open_file_table := s.open_file_table.set fd.toNat e1,
        root_directory := s.root_directory.set e.rootdir_ptr.toNat { d with file_size := size1 } }
      fd d.file_size
      = .ok ((d.file_size : Int), file_data { s with disk := D } chain d.file_size) := by
  obtain ⟨hread, hfd, hp⟩ := session_guard_some L s fd e hguard
  obtain ⟨hbo, _⟩ := oft_read_inv s fd e hread
  have hbd := dir_read_bounds s _ d hd
  subst hsize1
  have hd1 : { d with file_size := d.file_size } = d := rfl
  rw [hd1]
  have hrb := read_back_eq L
    { s with
      disk := D,
      open_file_table := s.open_file_table.set fd.toNat e1,
      root_directory := s.root_directory.set e.rootdir_ptr.toNat d }
    fd e1 d fat chain
    (by
      refine session_guard_of_read L _ fd e1 hfd ?_ (by rw [hptr]; exact hp)
      apply oft_read_of_getElem _ _ _ hbo.1
      show (s.open_file_table.set fd.toNat _)[fd.toNat]? = _
      rw [List.getElem?_set_self (by omega)])
    (by
      rw [hptr]
      apply dir_read_of_getElem _ _ _ hbd.1
      show (s.root_directory.set e.rootdir_ptr.toNat _)[e.rootdir_ptr.toNat]? = _
      rw [List.getElem?_set_self (by omega)])
    hfat hfatlen hchain hnodup hcover hD
  rw [hrb]
  simp only [Except.ok.injEq, Prod.mk.injEq, true_and]
  exact file_data_congr _ _ chain _ rfl rfl

/-- C2: an overwrite keeps the surrounding bytes.  The file has `file_size` bytes stored
on its chain (the chain invariant holds, it covers the size and its blocks are blocks of
the store); the cursor is inside the file and not on a block boundary, and the buffer
ends inside the file.  If `fs_write` succeeds (does not return -1), then reading the file
back (`fs_lseek(fd, 0)`, `fs_read` of the whole size) succeeds before and after the call,
and the bytes read after it are those read before it with the range
`[offset, offset + length)` replaced by the buffer. -/
theorem fs_write_preserves_surroundings (L : Limits) (s s1 : FS) (fd r : Int) (buf : List Nat)
    (e : OpenFileEntry) (d : RootDirEntry) (fat chain : List Nat)
    (hguard : session_guard L s fd = .ok (some e))
    (hd : dir_read s e.rootdir_ptr = .ok d)
    (hfat : s.FAT = some fat) (hfatlen : fat.length ≤ 65535)
    (hchain : IsChain fat d.data_index chain) (hnodup : chain.Nodup)
    (hcover : d.file_size ≤ chain.length * BLOCK_SIZE)
    (hblocks : ∀ b ∈ chain, (block_read s.disk (b + s.superblock.data_start_index)).isSome)
    (ho1 : 0 < e.offset) (ho2 : e.offset < d.file_size) (hna : e.offset % BLOCK_SIZE ≠ 0)
    (hc : e.offset + buf.length ≤ d.file_size)
    (hw : fs_write L s fd buf buf.length = .ok (r, s1)) (hr : r ≠ -1) :
    ∃ old, read_back L s fd d.file_size = .ok ((d.file_size : Int), old) ∧
      read_back L s1 fd d.file_size
        = .ok ((d.file_size : Int),
            old.take e.offset ++ buf ++ old.drop (e.offset + buf.length)) := by
  have hB : BLOCK_SIZE = 4096 := rfl
  have hchainlen : chain.length ≤ fat.length :=
    nodup_bounded_length chain fat.length hnodup (IsChain_bounded fat chain _ hchain)
  have hsize : d.file_size < 4294967296 := by
    have : chain.length * BLOCK_SIZE ≤ 65535 * BLOCK_SIZE := Nat.mul_le_mul_right _ (by omega)
    simp only [hB] at *
    omega
  have hoff : e.offset < 4294967296 := by omega
  have hk : e.offset / BLOCK_SIZE < chain.length := by
    simp only [hB] at *
    omega
  refine ⟨file_data s chain d.file_size,
    read_back_eq L s fd e d fat chain hguard hd hfat hfatlen hchain hnodup hcover hblocks, ?_⟩
  obtain ⟨cur, prev, nb, sa, va, hgo, hspan, hloop, hbw⟩ :=
    fs_write_inv L s s1 fd r buf buf.length e d hguard hd hw hr
  have hcases := fs_write_success_single_block e.rootdir_ptr buf buf.length nb s sa
    { currentIndex := cur, prev_index := prev, bytesWritten := 0,
      frontPadding := e.offset % BLOCK_SIZE, endPadding := 0 } va
    (Nat.pos_of_ne_zero hna) (Nat.mod_lt _ (by rw [hB]; omega)) rfl rfl hloop hbw
  by_cases hzero : buf.length = 0
  · have hnil : buf = [] := List.length_eq_zero.1 hzero
    have hev := fs_write_nothing L s fd buf e d cur prev hguard hd hgo hoff hsize
    rw [hzero, hev] at hw
    simp only [Except.ok.injEq, Prod.mk.injEq] at hw
    rw [← hw.2]
    have hrb := read_back_after_write L s fd e e d fat chain s.disk
      (Nat.max d.file_size e.offset) hguard hd hfat hfatlen hchain hnodup hcover rfl
      (Nat.max_eq_left (by omega)) hblocks
    rw [hrb, hnil]
    simp only [List.append_nil, List.length_nil, Nat.add_zero, List.take_append_drop]
  · have hfit : e.offset % BLOCK_SIZE + buf.length ≤ BLOCK_SIZE := by
      rcases hcases with h | h
      · exact absurd h hzero
      · exact h
    have hget : chain.getD (e.offset / BLOCK_SIZE) 0 = chain[e.offset / BLOCK_SIZE] := by
      simp [List.getD_eq_getElem?_getD, List.getElem?_eq_getElem hk]
    have hsome := hblocks _ (List.getElem_mem hk)
    rw [← hget] at hsome
    obtain ⟨b, hb⟩ := Option.isSome_iff_exists.1 hsome
    have hblen := block_read_length _ _ _ hb
    have hev := fs_write_inside_block L s fd buf buf.length e d fat chain b hguard hd hfat hfatlen
      hchain hnodup hoff hsize hk (Nat.pos_of_ne_zero hna) (Nat.pos_of_ne_zero hzero) hfit
      (le_refl _) hb
    rw [List.take_length] at hev
    rw [hev] at hw
    simp only [Except.ok.injEq, Prod.mk.injEq] at hw
    rw [← hw.2]
    have hdlen : (b.take (e.offset % BLOCK_SIZE) ++ buf ++
        b.drop (e.offset % BLOCK_SIZE + buf.length)).length = BLOCK_SIZE := by
      rw [splice_length b buf _ (by omega), hblen]
    have hrb := read_back_after_write L s fd e { e with offset := e.offset + buf.length } d fat
      chain _ (Nat.max d.file_size (e.offset + buf.length)) hguard hd hfat hfatlen hchain hnodup
      hcover rfl (Nat.max_eq_left (by omega))
      (by
        intro b1 hb1
        rw [block_read_after_write _ _ _ _ b hb hdlen]
        split
        · rfl
        · exact hblocks b1 hb1)
    rw [hrb]
    simp only [Except.ok.injEq, Prod.mk.injEq, true_and]
    exact file_data_after_block_write s chain b buf d.file_size e.offset _ hnodup hcover hk hb
      hfit hc rfl

/-! ### The failure half of `fs_delete` -/

theorem find_name_spec (s : FS) (name : List Nat) : ∀ (n i : Nat),
    i + n = s.root_directory.length →
    (∀ j e, j < i → s.root_directory[j]? = some e → cstr e.file_name ≠ name) →
    ∃ r, find_name s name n i = .ok r ∧
      (∀ j e, j < r → s.root_directory[j]? = some e → cstr e.file_name ≠ name) ∧
      ((r = s.root_directory.length) ∨
        (∃ e, r < s.root_directory.length ∧ s.root_directory[r]? = some e ∧
          cstr e.file_name = name)) := by
  intro n
  induction n with
  | zero =>
    intro i hlen hbefore
    exact ⟨i, rfl, hbefore, Or.inl (by omega)⟩
  | succ n ih =>
    intro i hlen hbefore
    have hi : i < s.root_directory.length := by omega
    have hget : s.root_directory[i]? = some (s.root_directory[i]) :=
      List.getElem?_eq_getElem hi
    simp only [find_name, dir_read_nat s i _ hget]
    by_cases hname : cstr (s.root_directory[i]).file_name = name
    · simp only [hname, if_true]
      exact ⟨i, rfl, hbefore, Or.inr ⟨_, hi, hget, hname⟩⟩
    · simp only [hname, if_false]
      apply ih (i + 1) (by omega)
      intro j e hj hje
      rcases Nat.lt_succ_iff_lt_or_eq.1 hj with hlt | heq
      · exact hbefore j e hlt hje
      · subst heq
        rw [hget] at hje
        cases hje
        exact hname

theorem isFileOpen_scan_spec (s : FS) (directoryIndex : Int) : ∀ (n i : Nat),
    i + n = s.open_file_table.length →
    ∃ r, isFileOpen_scan s directoryIndex n i = .ok r ∧
      (r = true ↔ ∃ j o, i ≤ j ∧ s.open_file_table[j]? = some o ∧
        o.rootdir_ptr = directoryIndex) := by
  intro n
  induction n with
  | zero =>
    intro i hlen
    refine ⟨false, rfl, ?_⟩
    constructor
    · intro h; cases h
    · rintro ⟨j, o, hj, hjo, _⟩
      have := (List.getElem?_eq_some.1 hjo).1
      omega
  | succ n ih =>
    intro i hlen
    have hi : i < s.open_file_table.length := by omega
    have hget : s.open_file_table[i]? = some (s.open_file_table[i]) :=
      List.getElem?_eq_getElem hi
    have hread : oft_read s (i : Int) = .ok (s.open_file_table[i]) :=
      oft_read_of_getElem s i _ (by omega) (by simp)
    simp only [isFileOpen_scan, hread]
    by_cases hp : (s.open_file_table[i]).rootdir_ptr = directoryIndex
    · simp only [hp, if_true]
      exact ⟨true, rfl, ⟨fun _ => ⟨i, _, le_refl _, hget, hp⟩, fun _ => rfl⟩⟩
    · simp only [hp, if_false]
      obtain ⟨r, hr, hiff⟩ := ih (i + 1) (by omega)
      refine ⟨r, hr, hiff.trans ⟨?_, ?_⟩⟩
      · rintro ⟨j, o, hj, hjo, hpo⟩
        exact ⟨j, o, by omega, hjo, hpo⟩
      · rintro ⟨j, o, hj, hjo, hpo⟩
        refine ⟨j, o, ?_, hjo, hpo⟩
        rcases Nat.eq_or_lt_of_le hj with heq | hlt
        · subst heq
          rw [hget] at hjo
          cases hjo
          exact absurd hpo hp
        · omega

/-- The failure half of the contract of `fs_delete`: an invalid name, a name that no slot
holds, or a slot that a session references makes the call return -1 with the state as it
was. -/
theorem fs_delete_rejected (L : Limits) (s : FS) (filename : Option (List Nat))
    (hdir : s.root_directory.length = L.FS_FILE_MAX_COUNT)
    (hoft : s.open_file_table.length = L.FS_OPEN_MAX_COUNT)
    (hrej : isFileNameValid L filename = false ∨
      (∀ e ∈ s.root_directory, cstr e.file_name ≠ filename.getD []) ∨
      (∃ (i : Nat) (e : RootDirEntry) (o : OpenFileEntry), s.root_directory[i]? = some e ∧
        cstr e.file_name = filename.getD [] ∧
        (∀ j e1, j < i → s.root_directory[j]? = some e1 →
          cstr e1.file_name ≠ filename.getD []) ∧
        o ∈ s.open_file_table ∧ o.rootdir_ptr = (i : Int))) :
    fs_delete L s filename = .ok (-1, s) := by
  by_cases hvalid : isFileNameValid L filename = false
  · simp only [fs_delete, hvalid, if_true]
  · obtain ⟨r, hfind, hbefore, hr⟩ := find_name_spec s (filename.getD []) L.FS_FILE_MAX_COUNT 0
      (by omega) (fun j e hj => absurd hj (Nat.not_lt_zero j))
    have hv : isFileNameValid L filename = true := by simpa using hvalid
    simp only [fs_delete, hv, Bool.true_eq_false, if_false, hfind]
    rcases hrej with h | h | ⟨i, e, o, hie, hname, hfirst, ho, hptr⟩
    · exact absurd h hvalid
    · rcases hr with hr | ⟨e, _, hre, hname⟩
      · have hmax : r = L.FS_FILE_MAX_COUNT := by omega
        rw [if_pos hmax]
      · exact absurd hname (h e (List.getElem?_mem hre))
    · have hi : i < s.root_directory.length := (List.getElem?_eq_some.1 hie).1
      have hri : r = i := by
        rcases hr with hr | ⟨e2, hrlt, hre, hname2⟩
        · exfalso
          exact hbefore i e (by omega) hie hname
        · rcases Nat.lt_trichotomy r i with hlt | heq | hgt
          · exact absurd hname2 (hfirst r e2 hlt hre)
          · exact heq
          · exact absurd hname (hbefore i e hgt hie)
      subst hri
      have hmax : ¬ (r = L.FS_FILE_MAX_COUNT) := by omega
      rw [if_neg hmax]
      obtain ⟨b, hscan, hiff⟩ := isFileOpen_scan_spec s (r : Int) L.FS_OPEN_MAX_COUNT 0 (by omega)
      obtain ⟨j, hj⟩ := List.mem_iff_getElem?.1 ho
      have hb : b = true := hiff.2 ⟨j, o, Nat.zero_le _, hj, hptr⟩
      subst hb
      simp only [isFileOpen, hscan]

/-! ### The free-entry search `next_free_fat` -/

theorem next_free_fat_loop_spec (s : FS) (fat : List Nat) (hfat : s.FAT = some fat) :
    ∀ (n i : Nat), (∀ j, i ≤ j → j < i + n → j < fat.length) →
      (∃ k : Nat, next_free_fat_loop s n i = .ok (k : Int) ∧ i ≤ k ∧ k < i + n ∧
        fat.getD k 0 = 0 ∧ ∀ j, i ≤ j → j < k → fat.getD j 0 ≠ 0) ∨
      (next_free_fat_loop s n i = .ok (-1) ∧ ∀ j, i ≤ j → j < i + n → fat.getD j 0 ≠ 0) := by
  intro n
  induction n with
  | zero =>
    intro i _
    right
    refine ⟨rfl, ?_⟩
    intro j h1 h2
    omega
  | succ n ih =>
    intro i hb
    have hi : i < fat.length := hb i (Nat.le_refl i) (by omega)
    have hread := FAT_read_nat s fat i hfat hi
    by_cases hv : fat.getD i 0 = 0
    · left
      refine ⟨i, ?_, Nat.le_refl i, by omega, hv, ?_⟩
      · simp only [next_free_fat_loop, hread, hv, if_true]
      · intro j h1 h2
        omega
    · have hstep : next_free_fat_loop s (n + 1) i = next_free_fat_loop s n (i + 1) := by
        simp only [next_free_fat_loop, hread, hv, if_false]
      rcases ih (i + 1) (fun j h1 h2 => hb j (by omega) (by omega)) with
        ⟨k, hk, h1, h2, h3, h4⟩ | ⟨hk, h1⟩
      · left
        refine ⟨k, by rw [hstep]; exact hk, by omega, by omega, h3, ?_⟩
        intro j hj1 hj2
        by_cases hji : j = i
        · rw [hji]; exact hv
        · exact h4 j (by omega) hj2
      · right
        refine ⟨by rw [hstep]; exact hk, ?_⟩
        intro j hj1 hj2
        by_cases hji : j = i
        · rw [hji]; exact hv
        · exact h1 j (by omega) (by omega)

/-- C18: on a loaded FAT that holds at least `data_block_num` entries, `next_free_fat`
returns the least index `k` with `1 ≤ k < data_block_num` and `FAT[k] = 0` when there is
one, and -1 when there is none; since `k ≥ 1` it never returns 0, whatever `FAT[0]`
holds. -/
theorem next_free_fat_least (s : FS) (fat : List Nat) (hfat : s.FAT = some fat)
    (hlen : s.superblock.data_block_num ≤ fat.length) :
    (∃ k : Nat, next_free_fat s = .ok (k : Int) ∧ 1 ≤ k ∧ k < s.superblock.data_block_num ∧
      fat.getD k 0 = 0 ∧ ∀ j, 1 ≤ j → j < k → fat.getD j 0 ≠ 0) ∨
    (next_free_fat s = .ok (-1) ∧
      ∀ j, 1 ≤ j → j < s.superblock.data_block_num → fat.getD j 0 ≠ 0) := by
  rcases next_free_fat_loop_spec s fat hfat (s.superblock.data_block_num - 1) 1
      (fun j h1 h2 => by omega) with ⟨k, hk, h1, h2, h3, h4⟩ | ⟨hk, h1⟩
  · left
    exact ⟨k, hk, h1, by omega, h3, h4⟩
  · right
    exact ⟨hk, fun j hj1 hj2 => h1 j hj1 (by omega)⟩

/-! ### Rejected sessions -/

theorem session_guard_rejects (L : Limits) (s : FS) (fd : Int)
    (h : fd ≥ (L.FS_OPEN_MAX_COUNT : Int) ∨
      ∃ e, oft_read s fd = .ok e ∧ e.rootdir_ptr = -1) :
    session_guard L s fd = .ok none := by
  unfold session_guard
  rcases h with h | ⟨e, he, hp⟩
  · rw [if_pos h]
  · by_cases hge : fd ≥ (L.FS_OPEN_MAX_COUNT : Int)
    · rw [if_pos hge]
    · rw [if_neg hge]
      simp only [he, hp, if_true]

theorem rejected_session_ops (L : Limits) (s : FS) (fd : Int) (buf : List Nat)
    (offset count : Nat)
    (h : fd ≥ (L.FS_OPEN_MAX_COUNT : Int) ∨
      ∃ e, oft_read s fd = .ok e ∧ e.rootdir_ptr = -1) :
    fs_close L s fd = .ok (-1, s) ∧ fs_stat L s fd = .ok (-1) ∧
    fs_lseek L s fd offset = .ok (-1, s) ∧ fs_read L s fd buf count = .ok (-1, buf, s) ∧
    fs_write L s fd buf count = .ok (-1, s) := by
  have hg := session_guard_rejects L s fd h
  refine ⟨?_, ?_, ?_, ?_, ?_⟩
  · simp only [fs_close, hg]
  · simp only [fs_stat, hg]
  · simp only [fs_lseek, hg]
  · simp only [fs_read, hg]
  · simp only [fs_write, hg]

/-! ### Mount and unmount: the byte layout read and written back -/

theorem le_bytes_le_value : ∀ (l : List Nat), (∀ x ∈ l, x < 256) →
    le_bytes l.length (le_value l) = l := by
  intro l
  induction l with
  | nil => intro _; rfl
  | cons x xs ih =>
    intro h
    have hx : x < 256 := h x (List.mem_cons_self x xs)
    have h1 : (x + 256 * le_value xs) % 256 = x := by omega
    have h2 : (x + 256 * le_value xs) / 256 = le_value xs := by omega
    simp only [List.length_cons, le_value, le_bytes, h1, h2]
    rw [ih (fun y hy => h y (List.mem_cons_of_mem x hy))]

theorem le16_decode_length : ∀ (n : Nat) (b : List Nat), b.length = 2 * n →
    (le16_decode b).length = n := by
  intro n
  induction n with
  | zero =>
    intro b hb
    have : b = [] := List.length_eq_zero.mp (by omega)
    subst this
    rfl
  | succ n ih =>
    intro b hb
    match b, hb with
    | lo :: hi :: rest, hb =>
      simp only [le16_decode, List.length_cons]
      simp only [List.length_cons] at hb
      rw [ih rest (by omega)]

theorem le16_encode_decode : ∀ (n : Nat) (b : List Nat), b.length = 2 * n →
    (∀ x ∈ b, x < 256) → le16_encode (le16_decode b) = b := by
  intro n
  induction n with
  | zero =>
    intro b hb _
    have : b = [] := List.length_eq_zero.mp (by omega)
    subst this
    rfl
  | succ n ih =>
    intro b hb hlt
    match b, hb, hlt with
    | lo :: hi :: rest, hb, hlt =>
      simp only [List.length_cons] at hb
      have hpair := le_bytes_le_value [lo, hi] (fun x hx => hlt x (by
        simp only [List.mem_cons, List.mem_singleton, List.not_mem_nil, or_false] at hx
        rcases hx with hx | hx
        · rw [hx]; exact List.mem_cons_self lo _
        · rw [hx]; exact List.mem_cons_of_mem lo (List.mem_cons_self hi rest)))
      have hrest := ih rest (by omega) (fun x hx =>
        hlt x (List.mem_cons_of_mem lo (List.mem_cons_of_mem hi hx)))
      simp only [List.length_cons, List.length_nil] at hpair
      simp only [le16_decode, le16_encode, hpair, hrest]
      rfl

theorem block_read_exact (image : List (List Nat)) (i : Nat) (b : List Nat)
    (hb : image[i]? = some b) (hlen : b.length = BLOCK_SIZE) :
    block_read (some image) i = some b := by
  have h1 : image.get? i = some b := by rw [List.get?_eq_getElem?]; exact hb
  simp only [block_read, h1]
  rw [List.take_left' hlen]

theorem block_write_same (image : List (List Nat)) (i : Nat) (b : List Nat)
    (hb : image[i]? = some b) :
    block_write (some image) i b = (0, some image) := by
  have hi : i < image.length := (List.getElem?_eq_some.mp hb).1
  have hset : image.set i b = image := by
    apply List.ext_getElem?
    intro k
    by_cases hk : i = k
    · subst hk
      rw [List.getElem?_set_self', hb]
      rfl
    · rw [List.getElem?_set_ne hk]
  simp only [block_write, hi, if_true, hset]

theorem slice_of_store_before (l X : List Nat) (a n off : Nat) (h1 : a + n ≤ off)
    (h2 : off ≤ l.length) :
    ((l.take off ++ X).drop a).take n = (l.drop a).take n := by
  apply List.ext_getElem?
  intro k
  simp only [List.getElem?_take, List.getElem?_drop]
  split
  · rw [List.getElem?_append_left (by simp; omega), List.getElem?_take]
    simp; omega
  · rfl

theorem slice_of_store_at (l X Y : List Nat) (off : Nat) (h2 : off ≤ l.length) :
    ((l.take off ++ X ++ Y).drop off).take X.length = X := by
  rw [List.append_assoc, List.drop_append_of_le_length (by simp; omega)]
  simp [List.drop_take]

theorem fat_block_entries_fits (sb : Superblock) (hgeo : fat_geometry sb) (i : Nat)
    (hi : i < sb.fat_block_num) :
    i * BLOCK_SIZE / 2 + fat_block_entries sb i ≤ sb.data_block_num ∧
    fat_block_entries sb i ≤ BLOCK_SIZE / 2 := by
  unfold fat_geometry at hgeo
  unfold fat_block_entries
  unfold BLOCK_SIZE at hgeo ⊢
  split <;> omega

theorem readFatBlocks_loop_spec (s : FS) (image : List (List Nat))
    (hdisk : s.disk = some image) (hgeo : fat_geometry s.superblock)
    (hblk : ∀ j, j < s.superblock.fat_block_num →
      ∃ b, image[j + 1]? = some b ∧ b.length = BLOCK_SIZE) :
    ∀ (n i : Nat) (fat : List Nat), i + n = s.superblock.fat_block_num →
      fat.length = s.superblock.data_block_num →
      ∃ fat1, readFatBlocks_loop s n i fat = .ok (0, fat1) ∧
        fat1.length = s.superblock.data_block_num ∧
        (∀ j, j < i → fat_slice s.superblock fat1 j = fat_slice s.superblock fat j) ∧
        (∀ j b, i ≤ j → j < s.superblock.fat_block_num → image[j + 1]? = some b →
          fat_slice s.superblock fat1 j =
            le16_decode (b.take (2 * fat_block_entries s.superblock j))) := by
  intro n
  induction n with
  | zero =>
    intro i fat hi hlen
    refine ⟨fat, rfl, hlen, fun _ _ => rfl, ?_⟩
    intro j b h1 h2
    omega
  | succ n ih =>
    intro i fat hi hlen
    have hilt : i < s.superblock.fat_block_num := by omega
    obtain ⟨b, hb, hblen⟩ := hblk i hilt
    have hread : block_read s.disk (i + 1) = some b := by
      rw [hdisk]; exact block_read_exact image (i + 1) b hb hblen
    obtain ⟨hfit, hle⟩ := fat_block_entries_fits s.superblock hgeo i hilt
    -- the entries copied in this iteration
    have hE : (if (i : Int) = (s.superblock.fat_block_num : Int) - 1 ∧
              s.superblock.data_block_num * 2 % BLOCK_SIZE ≠ 0
           then le16_decode (b.take (s.superblock.data_block_num * 2 % BLOCK_SIZE))
           else le16_decode b) =
        le16_decode (b.take (2 * fat_block_entries s.superblock i)) := by
      unfold fat_block_entries
      by_cases hc : (i : Int) = (s.superblock.fat_block_num : Int) - 1 ∧
              s.superblock.data_block_num * 2 % BLOCK_SIZE ≠ 0
      · rw [if_pos hc, if_pos hc]
        have : 2 * (s.superblock.data_block_num * 2 % BLOCK_SIZE / 2) =
            s.superblock.data_block_num * 2 % BLOCK_SIZE := by
          unfold BLOCK_SIZE
          omega
        rw [this]
      · rw [if_neg hc, if_neg hc]
        have : 2 * (BLOCK_SIZE / 2) = b.length := by rw [hblen]; rfl
        rw [this, List.take_length]
    have hElen : (le16_decode (b.take (2 * fat_block_entries s.superblock i))).length =
        fat_block_entries s.superblock i := by
      apply le16_decode_length
      rw [List.length_take, hblen]
      have hB : BLOCK_SIZE = 4096 := rfl
      rw [hB] at hle ⊢
      omega
    have hstore : FAT_store fat (i * BLOCK_SIZE / 2)
        (le16_decode (b.take (2 * fat_block_entries s.superblock i))) =
        .ok (fat.take (i * BLOCK_SIZE / 2) ++
          le16_decode (b.take (2 * fat_block_entries s.superblock i)) ++
          fat.drop (i * BLOCK_SIZE / 2 + fat_block_entries s.superblock i)) := by
      unfold FAT_store
      rw [hElen, if_pos (by omega)]
    have hlen1 : (fat.take (i * BLOCK_SIZE / 2) ++
          le16_decode (b.take (2 * fat_block_entries s.superblock i)) ++
          fat.drop (i * BLOCK_SIZE / 2 + fat_block_entries s.superblock i)).length =
        s.superblock.data_block_num := by
      simp only [List.length_append, List.length_take, List.length_drop, hElen]
      omega
    obtain ⟨fat2, hloop, hlen2, hkeep, hnew⟩ := ih (i + 1) _ (by omega) hlen1
    refine ⟨fat2, ?_, hlen2, ?_, ?_⟩
    · simp only [readFatBlocks_loop, hread, hE, hstore]
      exact hloop
    · intro j hj
      rw [hkeep j (by omega)]
      unfold fat_slice
      obtain ⟨_, hlej⟩ := fat_block_entries_fits s.superblock hgeo j (by omega)
      rw [List.append_assoc]
      apply slice_of_store_before
      · have hB : BLOCK_SIZE = 4096 := rfl
        rw [hB] at hlej ⊢
        omega
      · omega
    · intro j b1 h1 h2 hb1
      by_cases hji : j = i
      · subst hji
        rw [hkeep j (by omega)]
        have hbb : b1 = b := by
          rw [hb] at hb1
          exact (Option.some.inj hb1).symm
        rw [hbb]
        unfold fat_slice
        have := slice_of_store_at fat
          (le16_decode (b.take (2 * fat_block_entries s.superblock j)))
          (fat.drop (j * BLOCK_SIZE / 2 + fat_block_entries s.superblock j))
          (j * BLOCK_SIZE / 2) (by omega)
        rw [hElen] at this
        exact this
      · exact hnew j b1 (by omega) h2 hb1

theorem writebackFatBlocks_loop_same (sb : Superblock) (fat : List Nat)
    (image : List (List Nat)) (hgeo : fat_geometry sb) (hlen : fat.length = sb.data_block_num)
    (hblk : ∀ j, j < sb.fat_block_num →
      ∃ b, image[j + 1]? = some b ∧ b.length = BLOCK_SIZE ∧ (∀ x ∈ b, x < 256) ∧
        fat_slice sb fat j = le16_decode (b.take (2 * fat_block_entries sb j)) ∧
        b.drop (2 * fat_block_entries sb j) =
          List.replicate (BLOCK_SIZE - 2 * fat_block_entries sb j) 0) :
    ∀ (n i : Nat), i + n = sb.fat_block_num →
      writebackFatBlocks_loop sb fat n i (some image) = .ok (0, some image) := by
  intro n
  induction n with
  | zero => intro i _; rfl
  | succ n ih =>
    intro i hi
    have hilt : i < sb.fat_block_num := by omega
    obtain ⟨b, hb, hblen, hbytes, hslice, htail⟩ := hblk i hilt
    obtain ⟨hfit, hle⟩ := fat_block_entries_fits sb hgeo i hilt
    have hread : (block_read (some image) (i + 1)).isSome = true := by
      rw [block_read_exact image (i + 1) b hb hblen]; rfl
    have hB : BLOCK_SIZE = 4096 := rfl
    have hload : FAT_load fat (i * BLOCK_SIZE / 2) (fat_block_entries sb i) =
        .ok (le16_decode (b.take (2 * fat_block_entries sb i))) := by
      unfold FAT_load
      rw [if_pos (by omega), ← hslice]
      rfl
    have henc : le16_encode (le16_decode (b.take (2 * fat_block_entries sb i))) =
        b.take (2 * fat_block_entries sb i) := by
      apply le16_encode_decode (fat_block_entries sb i)
      · rw [List.length_take, hblen]
        rw [hB] at hle ⊢
        omega
      · intro x hx
        exact hbytes x (List.mem_of_mem_take hx)
    have hwhole : b.take (2 * fat_block_entries sb i) ++
        List.replicate (BLOCK_SIZE - 2 * fat_block_entries sb i) 0 = b := by
      rw [← htail]
      exact List.take_append_drop _ b
    by_cases hc : (i : Int) = (sb.fat_block_num : Int) - 1 ∧
        sb.data_block_num * 2 % BLOCK_SIZE ≠ 0
    · have hlenc : fat_block_entries sb i = sb.data_block_num * 2 % BLOCK_SIZE / 2 := by
        unfold fat_block_entries
        rw [if_pos hc]
      have hk : sb.data_block_num * 2 % BLOCK_SIZE = 2 * fat_block_entries sb i := by
        rw [hlenc]
        unfold BLOCK_SIZE
        omega
      have hstep : writebackFatBlocks_loop sb fat (n + 1) i (some image) =
          writebackFatBlocks_loop sb fat n (i + 1) (some image) := by
        rw [writebackFatBlocks_loop, if_pos hc, ← hlenc, hload]
        simp only [hread, if_true, henc]
        rw [hk, hwhole, block_write_same image (i + 1) b hb]
      rw [hstep]
      exact ih (i + 1) (by omega)
    · have hlenc : fat_block_entries sb i = BLOCK_SIZE / 2 := by
        unfold fat_block_entries
        rw [if_neg hc]
      have hfull : b.take (2 * fat_block_entries sb i) = b := by
        have : 2 * fat_block_entries sb i = b.length := by rw [hlenc, hblen]; rfl
        rw [this, List.take_length]
      have hstep : writebackFatBlocks_loop sb fat (n + 1) i (some image) =
          writebackFatBlocks_loop sb fat n (i + 1) (some image) := by
        rw [writebackFatBlocks_loop, if_neg hc]
        simp only [hread, if_true]
        rw [← hlenc, hload]
        simp only []
        rw [henc, hfull, block_write_same image (i + 1) b hb]
      rw [hstep]
      exact ih (i + 1) (by omega)

theorem le_bytes_length : ∀ (n v : Nat), (le_bytes n v).length = n := by
  intro n
  induction n with
  | zero => intro _; rfl
  | succ n ih => intro v; simp only [le_bytes, List.length_cons, ih]

theorem entry_bytes_load_entry (L : Limits) (b : List Nat)
    (hlen : b.length = L.FS_FILENAME_LEN + 16) (hbytes : ∀ x ∈ b, x < 256) :
    entry_bytes (load_entry L b) = b := by
  have h4 := le_bytes_le_value ((b.drop L.FS_FILENAME_LEN).take 4)
    (fun x hx => hbytes x (List.mem_of_mem_drop (List.mem_of_mem_take hx)))
  have h2 := le_bytes_le_value ((b.drop (L.FS_FILENAME_LEN + 4)).take 2)
    (fun x hx => hbytes x (List.mem_of_mem_drop (List.mem_of_mem_take hx)))
  have l4 : ((b.drop L.FS_FILENAME_LEN).take 4).length = 4 := by
    rw [List.length_take, List.length_drop]; omega
  have l2 : ((b.drop (L.FS_FILENAME_LEN + 4)).take 2).length = 2 := by
    rw [List.length_take, List.length_drop]; omega
  rw [l4] at h4
  rw [l2] at h2
  simp only [entry_bytes, load_entry, h4, h2]
  have e1 : b.drop (L.FS_FILENAME_LEN + 4) = (b.drop L.FS_FILENAME_LEN).drop 4 := by
    rw [List.drop_drop]
  have e2 : b.drop (L.FS_FILENAME_LEN + 6) = ((b.drop L.FS_FILENAME_LEN).drop 4).drop 2 := by
    rw [List.drop_drop, List.drop_drop]
  have e3 : (((b.drop L.FS_FILENAME_LEN).drop 4).drop 2).take 10 =
      ((b.drop L.FS_FILENAME_LEN).drop 4).drop 2 := by
    apply List.take_of_length_le
    simp only [List.length_drop]
    omega
  rw [e2, e3, e1, List.append_assoc, List.append_assoc, List.take_append_drop,
    List.take_append_drop, List.take_append_drop]

theorem mem_take_of_mem_drop_take (l : List Nat) (a b x : Nat)
    (h : x ∈ (l.drop a).take b) : x ∈ l.take (a + b) := by
  rw [List.take_add]
  exact List.mem_append_right _ h

theorem mem_take_of_mem_take_le (l : List Nat) (a b x : Nat) (hab : a ≤ b)
    (h : x ∈ l.take a) : x ∈ l.take b := by
  have : b = a + (b - a) := by omega
  rw [this, List.take_add]
  exact List.mem_append_left _ h

theorem dir_bytes_load_directory (L : Limits) : ∀ (n : Nat) (bytes : List Nat),
    n * (L.FS_FILENAME_LEN + 16) ≤ bytes.length →
    (∀ x ∈ bytes.take (n * (L.FS_FILENAME_LEN + 16)), x < 256) →
    dir_bytes (load_directory L n bytes) = bytes.take (n * (L.FS_FILENAME_LEN + 16)) := by
  intro n
  induction n with
  | zero => intro bytes _ _; simp [load_directory, dir_bytes]
  | succ n ih =>
    intro bytes hlen hbytes
    have hmul : (n + 1) * (L.FS_FILENAME_LEN + 16) =
        (L.FS_FILENAME_LEN + 16) + n * (L.FS_FILENAME_LEN + 16) := by ring
    rw [hmul] at hlen hbytes ⊢
    simp only [load_directory, dir_bytes]
    rw [entry_bytes_load_entry L _ (by rw [List.length_take]; omega)
        (fun x hx => hbytes x (mem_take_of_mem_take_le bytes _ _ x (by omega) hx)),
      ih _ (by rw [List.length_drop]; omega)
        (fun x hx => hbytes x (mem_take_of_mem_drop_take bytes _ _ x hx))]
    exact (List.take_add bytes _ _).symm

theorem block_read_image_inv (image : List (List Nat)) (i : Nat) (d : List Nat)
    (hblocks : ∀ b ∈ image, b.length = BLOCK_SIZE)
    (h : block_read (some image) i = some d) : image[i]? = some d := by
  unfold block_read at h
  simp only [List.get?_eq_getElem?] at h
  split at h
  · cases h
  · rename_i b hb
    have hlen := hblocks b (List.getElem?_mem hb)
    rw [List.take_left' hlen] at h
    rw [hb, h]

theorem init_open_file_table_loop_frame : ∀ (n i : Nat) (s s1 : FS),
    init_open_file_table_loop n i s = .ok s1 →
    s1.superblock = s.superblock ∧ s1.FAT = s.FAT ∧ s1.root_directory = s.root_directory ∧
    s1.disk = s.disk := by
  intro n
  induction n with
  | zero =>
    intro i s s1 h
    simp only [init_open_file_table_loop, Except.ok.injEq] at h
    subst h
    exact ⟨rfl, rfl, rfl, rfl⟩
  | succ n ih =>
    intro i s s1 h
    unfold init_open_file_table_loop at h
    split at h
    · exact absurd h (by simp)
    · rename_i e _
      split at h
      · exact absurd h (by simp)
      · rename_i s2 hw
        obtain ⟨h1, h2, h3, h4⟩ := ih (i + 1) s2 s1 h
        unfold oft_write at hw
        split at hw
        · simp only [Except.ok.injEq] at hw
          subst hw
          exact ⟨h1, h2, h3, h4⟩
        · exact absurd hw (by simp)

theorem readFatBlocks_inv (s s1 : FS) (h : readFatBlocks s = .ok (0, s1)) :
    s.FAT = none ∧ ∃ fat, readFatBlocks_loop s s.superblock.fat_block_num 0
        (List.replicate s.superblock.data_block_num 0) = .ok (0, fat) ∧
      s1 = { s with FAT := some fat } := by
  unfold readFatBlocks at h
  split at h
  · simp only [Except.ok.injEq, Prod.mk.injEq] at h
    exact absurd h.1 (by decide)
  · rename_i hnone
    split at h
    · exact absurd h (by simp)
    · rename_i r fat hloop
      simp only [Except.ok.injEq, Prod.mk.injEq] at h
      refine ⟨hnone, fat, ?_, h.2.symm⟩
      rw [hloop, h.1]

theorem fs_mount_inv (L : Limits) (s0 s1 : FS) (image : List (List Nat))
    (hm : fs_mount L s0 (some image) = .ok (0, s1)) :
    ∃ b d fat,
      block_read (some image) 0 = some b ∧
      (image.length : Int) = ((load_superblock b).total_block_num : Int) ∧
      readFatBlocks_loop { s0 with disk := some image, superblock := load_superblock b }
        (load_superblock b).fat_block_num 0
        (List.replicate (load_superblock b).data_block_num 0) = .ok (0, fat) ∧
      block_read (some image) (load_superblock b).root_dir_index = some d ∧
      ((load_superblock b).data_block_num : Int) + (load_superblock b).fat_block_num + 2 =
        (load_superblock b).total_block_num ∧
      ((load_superblock b).root_dir_index : Int) = (load_superblock b).fat_block_num + 1 ∧
      s1.superblock = load_superblock b ∧ s1.FAT = some fat ∧ s1.disk = some image ∧
      s1.root_directory = load_directory L L.FS_FILE_MAX_COUNT
        (d ++ (dir_bytes s0.root_directory).drop BLOCK_SIZE) := by
  unfold fs_mount at hm
  cases hdisk : s0.disk with
  | some d0 =>
    rw [hdisk] at hm
    simp only [block_disk_open] at hm
    simp at hm
  | none =>
    rw [hdisk] at hm
    simp only [block_disk_open] at hm
    rw [if_neg (by simp)] at hm
    split at hm
    · simp at hm
    · rename_i b hb
      split at hm
      · simp at hm
      · split at hm
        · simp at hm
        · rename_i hcount
          split at hm
          · exact absurd hm (by simp)
          · rename_i r s2 hrf
            split at hm
            · simp at hm
            · rename_i hr
              have hr0 : r = 0 := by
                by_contra hne
                exact hr hne
              subst hr0
              obtain ⟨_, fat, hloop, hs2⟩ := readFatBlocks_inv _ s2 hrf
              subst hs2
              simp only [] at hm hloop
              split at hm
              · simp at hm
              · rename_i d hd
                split at hm
                · exact absurd hm (by simp)
                · split at hm
                  · simp at hm
                  · rename_i hgeom
                    split at hm
                    · exact absurd hm (by simp)
                    · rename_i s3 hinit
                      simp only [Except.ok.injEq, Prod.mk.injEq, true_and] at hm
                      subst hm
                      obtain ⟨f1, f2, f3, f4⟩ :=
                        init_open_file_table_loop_frame _ _ _ _ hinit
                      simp only [] at f1 f2 f3 f4
                      simp only [block_disk_count, ne_eq, not_not] at hcount
                      simp only [not_or, ne_eq, not_not] at hgeom
                      exact ⟨b, d, fat, hb, hcount, hloop, hd, hgeom.1, hgeom.2.2,
                        f1, f2, f4, f3⟩

/-- C15: for every volume image whose blocks are `BLOCK_SIZE` bytes, with a header that
describes `ceil(2 * data_block_num / BLOCK_SIZE)` FAT blocks and a last FAT block that
is zero behind the table, and for a directory array that fills one block: when
`fs_mount` succeeds, the `fs_umount` that follows returns 0, releases the FAT and the
store, and leaves the store block for block as it was, so the directory block and every
FAT block are written back byte for byte, whether or not the entries fill the last FAT
block. -/
theorem mount_umount_round_trip (L : Limits) (s0 s1 : FS) (image : List (List Nat))
    (hL : L.FS_FILE_MAX_COUNT * (L.FS_FILENAME_LEN + 16) = BLOCK_SIZE)
    (hblocks : ∀ b ∈ image, b.length = BLOCK_SIZE ∧ ∀ x ∈ b, x < 256)
    (hm : fs_mount L s0 (some image) = .ok (0, s1))
    (hgeo : fat_geometry s1.superblock)
    (htail : s1.superblock.data_block_num * 2 % BLOCK_SIZE ≠ 0 →
      ∀ b, image[s1.superblock.fat_block_num]? = some b →
        b.drop (s1.superblock.data_block_num * 2 % BLOCK_SIZE) =
          List.replicate (BLOCK_SIZE - s1.superblock.data_block_num * 2 % BLOCK_SIZE) 0) :
    fs_umount s1 = .ok (0, { s1 with FAT := none, disk := none }, some image) := by
  obtain ⟨b0, d, fat, hb0, hcount, hloop, hd, hsum, hroot, hsb, hfat, hdisk, hdir⟩ :=
    fs_mount_inv L s0 s1 image hm
  have hB : BLOCK_SIZE = 4096 := rfl
  have hlens : ∀ b ∈ image, b.length = BLOCK_SIZE := fun b hb => (hblocks b hb).1
  rw [← hsb] at hcount hloop hd hsum hroot
  -- the FAT blocks of the image
  have hblk : ∀ j, j < s1.superblock.fat_block_num →
      ∃ b, image[j + 1]? = some b ∧ b.length = BLOCK_SIZE := by
    intro j hj
    have hlt : j + 1 < image.length := by omega
    exact ⟨image[j + 1], List.getElem?_eq_getElem hlt, hlens _ (List.getElem_mem _)⟩
  -- what the load left in memory
  obtain ⟨fat1, hloop1, hlen1, _, hnew⟩ :=
    readFatBlocks_loop_spec { s0 with disk := some image, superblock := s1.superblock } image
      rfl hgeo hblk s1.superblock.fat_block_num 0
      (List.replicate s1.superblock.data_block_num 0) (Nat.zero_add _) (List.length_replicate _ _)
  simp only [] at hloop1 hlen1 hnew
  have hfateq : fat1 = fat := by
    rw [hloop] at hloop1
    simp only [Except.ok.injEq, Prod.mk.injEq, true_and] at hloop1
    exact hloop1.symm
  subst hfateq
  -- the directory block
  have hdimg : image[s1.superblock.root_dir_index]? = some d :=
    block_read_image_inv image _ d hlens hd
  have hdlen : d.length = BLOCK_SIZE := hlens d (List.getElem?_mem hdimg)
  have hdbytes : ∀ x ∈ d, x < 256 := (hblocks d (List.getElem?_mem hdimg)).2
  have hdirbytes : dir_bytes s1.root_directory = d := by
    rw [hdir, dir_bytes_load_directory L L.FS_FILE_MAX_COUNT _
      (by rw [hL, List.length_append, hdlen]; omega)
      (by
        rw [hL, List.take_left' hdlen]
        exact hdbytes)]
    rw [hL, List.take_left' hdlen]
  -- the flush of the FAT
  have hflush := writebackFatBlocks_loop_same s1.superblock fat1 image hgeo hlen1
    (by
      intro j hj
      obtain ⟨b, hb, hblen⟩ := hblk j hj
      refine ⟨b, hb, hblen, (hblocks b (List.getElem?_mem hb)).2,
        hnew j b (Nat.zero_le j) hj hb, ?_⟩
      unfold fat_block_entries
      by_cases hc : (j : Int) = (s1.superblock.fat_block_num : Int) - 1 ∧
          s1.superblock.data_block_num * 2 % BLOCK_SIZE ≠ 0
      · rw [if_pos hc]
        have hk : 2 * (s1.superblock.data_block_num * 2 % BLOCK_SIZE / 2) =
            s1.superblock.data_block_num * 2 % BLOCK_SIZE := by
          unfold BLOCK_SIZE
          omega
        have hj1 : j + 1 = s1.superblock.fat_block_num := by omega
        rw [hk]
        exact htail hc.2 b (by rw [← hj1]; exact hb)
      · rw [if_neg hc]
        have h2 : 2 * (BLOCK_SIZE / 2) = b.length := by rw [hblen]; rfl
        rw [h2, List.drop_length, hblen, Nat.sub_self]
        rfl)
    s1.superblock.fat_block_num 0 (by omega)
  have hwb : writebackFatBlocks { s1 with disk := some image } =
      .ok (0, { s1 with FAT := none, disk := some image }) := by
    simp only [writebackFatBlocks, hfat, hflush, if_true]
  have hisSome : (block_read s1.disk s1.superblock.root_dir_index).isSome = true := by
    rw [hdisk, hd]; rfl
  have hnot : ¬ (dir_bytes s1.root_directory).length < BLOCK_SIZE := by
    rw [hdirbytes, hdlen]
    exact Nat.lt_irrefl _
  unfold fs_umount
  rw [hfat]
  simp only [hisSome, if_true, if_neg hnot]
  rw [hdirbytes, ← hdlen, List.take_length, hdisk, block_write_same image _ d hdimg]
  simp only [hfat] at hwb
  simp only [hwb, block_disk_close]
  simp

/-! ### A write stays inside its own file -/

theorem chain_of_isChain (fat : List Nat) : ∀ (n first : Nat) (c : List Nat),
    chain_of fat n first = some c → IsChain fat first c := by
  intro n
  induction n with
  | zero =>
    intro first c h
    unfold chain_of at h
    split at h
    · rename_i hf
      cases h
      exact hf
    · cases h
  | succ n ih =>
    intro first c h
    unfold chain_of at h
    split at h
    · rename_i hf
      cases h
      exact hf
    · split at h
      · rename_i hb
        cases hc : chain_of fat n (fat.getD first 0) with
        | none => rw [hc] at h; cases h
        | some tl =>
          rw [hc] at h
          simp only [Option.map_some', Option.some.injEq] at h
          subst h
          exact ⟨rfl, hb.1, hb.2.1, hb.2.2, ih _ _ hc⟩
      · cases h

theorem isChain_chain_of (fat : List Nat) (hlen : fat.length ≤ 65535) :
    ∀ (c : List Nat) (n first : Nat), IsChain fat first c → c.length ≤ n →
      chain_of fat n first = some c := by
  intro c
  induction c with
  | nil =>
    intro n first h _
    have hf : first = FAT_EOC := h
    cases n <;> simp [chain_of, hf]
  | cons b bs ih =>
    intro n first h hn
    obtain ⟨hfb, h1, h2, h3, h4⟩ := h
    cases n with
    | zero => simp at hn
    | succ n =>
      have hne : first ≠ FAT_EOC := by
        rw [hfb]
        unfold FAT_EOC
        omega
      have hrec := ih n (fat.getD b 0) h4 (by simpa using hn)
      rw [hfb] at hne
      simp only [chain_of, hfb, hne, if_false, h1, h2, h3, ne_eq, not_false_eq_true, and_self,
        if_true, hrec, Option.map_some']

theorem IsChain_congr (fat fat1 : List Nat) (hlen : fat1.length = fat.length) :
    ∀ (c : List Nat) (first : Nat), (∀ x ∈ c, fat1.getD x 0 = fat.getD x 0) →
      IsChain fat first c → IsChain fat1 first c := by
  intro c
  induction c with
  | nil => intro first _ h; exact h
  | cons b bs ih =>
    intro first hx h
    obtain ⟨hfb, h1, h2, h3, h4⟩ := h
    have hb := hx b (List.mem_cons_self b bs)
    refine ⟨hfb, h1, by rw [hlen]; exact h2, by rw [hb]; exact h3, ?_⟩
    rw [hb]
    exact ih _ (fun x hxm => hx x (List.mem_cons_of_mem b hxm)) h4

theorem IsChain_nonzero (fat : List Nat) : ∀ (c : List Nat) (first : Nat),
    IsChain fat first c → ∀ x ∈ c, 1 ≤ x ∧ fat.getD x 0 ≠ 0 := by
  intro c
  induction c with
  | nil => intro first _ x hx; cases hx
  | cons b bs ih =>
    intro first h x hx
    obtain ⟨_, h1, _, h3, h4⟩ := h
    rcases List.mem_cons.mp hx with hxb | hxb
    · rw [hxb]; exact ⟨h1, h3⟩
    · exact ih _ h4 x hxb

/-- Linking a free entry `k` behind the last block of a chain. -/
theorem IsChain_extend (fat : List Nat) (k : Nat) (hk1 : 1 ≤ k) (hk : k < fat.length) :
    ∀ (c : List Nat) (first last : Nat), IsChain fat first (c ++ [last]) →
      (c ++ [last]).Nodup → k ∉ c ++ [last] →
      IsChain ((fat.set last k).set k FAT_EOC) first (c ++ [last] ++ [k]) := by
  intro c
  induction c with
  | nil =>
    intro first last h _ hkn
    obtain ⟨hfb, h1, h2, _, _⟩ := h
    have hkl : k ≠ last := by
      intro heq
      apply hkn
      rw [heq]
      exact List.mem_cons_self _ _
    have hl1 : ((fat.set last k).set k FAT_EOC).getD last 0 = k := by
      simp only [List.getD_eq_getElem?_getD, List.getElem?_set_ne hkl,
        List.getElem?_set_self h2, Option.getD_some]
    have hl2 : ((fat.set last k).set k FAT_EOC).getD k 0 = FAT_EOC := by
      simp only [List.getD_eq_getElem?_getD]
      rw [List.getElem?_set_self (by rw [List.length_set]; exact hk)]
      rfl
    refine ⟨hfb, h1, by simp only [List.length_set]; exact h2, ?_, ?_⟩
    · rw [hl1]; omega
    · rw [hl1]
      refine ⟨rfl, hk1, by simp only [List.length_set]; exact hk, ?_, ?_⟩
      · rw [hl2]; decide
      · rw [hl2]; rfl
  | cons b bs ih =>
    intro first last h hnd hkn
    obtain ⟨hfb, h1, h2, h3, h4⟩ := h
    have hnd' : (bs ++ [last]).Nodup := (List.nodup_cons.mp hnd).2
    have hbn : b ∉ bs ++ [last] := (List.nodup_cons.mp hnd).1
    have hkb : k ≠ b := by
      intro heq
      apply hkn
      rw [heq]
      exact List.mem_cons_self _ _
    have hlb : last ≠ b := by
      intro heq
      apply hbn
      rw [← heq]
      exact List.mem_append_right _ (List.mem_singleton_self _)
    have hget : ((fat.set last k).set k FAT_EOC).getD b 0 = fat.getD b 0 := by
      simp only [List.getD_eq_getElem?_getD, List.getElem?_set_ne hkb,
        List.getElem?_set_ne hlb]
    refine ⟨hfb, h1, by simp only [List.length_set]; exact h2, by rw [hget]; exact h3, ?_⟩
    rw [hget]
    exact ih _ last h4 hnd' (fun hm => hkn (List.mem_cons_of_mem b hm))

theorem FAT_write_inv (s s1 : FS) (i : Int) (v : Nat) (h : FAT_write s i v = .ok s1) :
    ∃ fat, s.FAT = some fat ∧ 0 ≤ i ∧ i < fat.length ∧
      s1 = { s with FAT := some (fat.set i.toNat v) } := by
  unfold FAT_write at h
  split at h
  · cases h
  · rename_i fat hfat
    split at h
    · rename_i hi
      cases h
      exact ⟨fat, hfat, hi.1, hi.2, rfl⟩
    · cases h

theorem block_read_write_other (disk : Option (List (List Nat))) (idx j : Nat)
    (data : List Nat) (hj : j ≠ idx) :
    block_read (block_write disk idx data).2 j = block_read disk j := by
  cases disk with
  | none => rfl
  | some blocks =>
    unfold block_write
    simp only
    split
    · simp only [block_read, List.get?_eq_getElem?]
      rw [List.getElem?_set_ne (fun h => hj h.symm)]
    · rfl

theorem write_block_disk (s s1 : FS) (buf : List Nat) (v : WriteVars)
    (h : write_block s buf v = .ok s1) :
    s1.FAT = s.FAT ∧ s1.root_directory = s.root_directory ∧
    ∀ blk, blk ≠ v.currentIndex + s.superblock.data_start_index →
      block_read s1.disk blk = block_read s.disk blk := by
  unfold write_block at h
  split at h
  · split at h
    · split at h
      · cases h
        exact ⟨rfl, rfl, fun blk hb => block_read_write_other _ _ _ _ hb⟩
      · cases h
    · cases h
      exact ⟨rfl, rfl, fun _ _ => rfl⟩
  · split at h
    · cases h
    · cases h
      exact ⟨rfl, rfl, fun blk hb => block_read_write_other _ _ _ _ hb⟩

theorem toU16_neg_one : toU16 (-1) = 65535 := by decide

theorem toI16_nonneg (x : Nat) (hx : x ≤ 65535) (h : 0 ≤ toI16 (x : Int)) :
    toI16 (x : Int) = x := by
  unfold toI16 at h ⊢
  split
  · omega
  · rename_i hc
    rw [if_neg hc] at h
    omega

theorem toI16_ne_neg_one (x : Nat) (hx : x < 65535) : toI16 (x : Int) ≠ -1 := by
  unfold toI16
  split <;> omega

/-- The index that `next_free_fat` hands to an allocation that goes on to write
`FAT[index]` inside the table: a free entry of `[1, data_block_num)`. -/
theorem alloc_index (s : FS) (fat : List Nat) (hfat : s.FAT = some fat)
    (hlen : s.superblock.data_block_num ≤ fat.length) (hmax : fat.length ≤ 65535)
    (nf : Int) (h : next_free_fat s = .ok nf) (hlt : toU16 nf < fat.length) :
    ∃ k : Nat, nf = (k : Int) ∧ toU16 nf = k ∧ 1 ≤ k ∧ k < fat.length ∧ fat.getD k 0 = 0 := by
  unfold next_free_fat at h
  rcases next_free_fat_loop_spec s fat hfat (s.superblock.data_block_num - 1) 1
      (fun j h1 h2 => by omega) with ⟨k, hk, h1, h2, h3, _⟩ | ⟨hk, _⟩
  · rw [hk] at h
    simp only [Except.ok.injEq] at h
    refine ⟨k, h.symm, ?_, h1, by omega, h3⟩
    rw [← h]
    exact toU16_of_lt k (by omega)
  · rw [hk] at h
    simp only [Except.ok.injEq] at h
    rw [← h, toU16_neg_one] at hlt
    omega

theorem alloc_first_frame (P : Nat → Prop) (s0 s s1 : FS) (fat0 fat : List Nat) (rp c1 : Nat)
    (hmax : fat0.length ≤ 65535) (hdbn : s0.superblock.data_block_num ≤ fat0.length)
    (F : WriteFrame P s0 s fat0 rp [] fat)
    (h : alloc_first s (rp : Int) = .ok (s1, c1)) :
    ∃ fat1, WriteFrame P s0 s1 fat0 rp [c1] fat1 ∧ c1 < fat1.length := by
  have hkeep1 := (alloc_first_keeps s s1 rp c1 h).1
  have hdisk1 := (alloc_first_keeps s s1 rp c1 h).2
  unfold alloc_first at h
  split at h
  · cases h
  · rename_i nf hnf
    split at h
    · cases h
    · rename_i d hd
      split at h
      · cases h
      · rename_i sa hsa
        split at h
        · cases h
        · rename_i sb hsb
          simp only [Except.ok.injEq, Prod.mk.injEq] at h
          obtain ⟨hs1, hc1⟩ := h
          subst hs1
          obtain ⟨hrange, hsaeq⟩ := dir_write_inv s sa rp _ hsa
          obtain ⟨fata, hfata, _, hlt, hsbeq⟩ := FAT_write_inv sa sb _ _ hsb
          have hfa : fata = fat := by
            rw [hsaeq] at hfata
            simp only [F.hfat, Option.some.injEq] at hfata
            exact hfata.symm
          subst hfa
          have hsup : s.superblock = s0.superblock := F.hkeep.2.1
          have hlt' : toU16 nf < fata.length := by exact_mod_cast hlt
          obtain ⟨k, _, hk, hk1, hklt, hk0⟩ := alloc_index s fata F.hfat
            (by rw [hsup, F.hlen]; exact hdbn) (by rw [F.hlen]; exact hmax) nf hnf hlt'
          have hck : c1 = k := by rw [← hc1, hk]
          subst hck
          rw [hk] at hsbeq hsaeq
          have hrp : ((rp : Int)).toNat = rp := Int.toNat_natCast rp
          have htk : ((c1 : Nat) : Int).toNat = c1 := Int.toNat_natCast c1
          have hget : (fata.set c1 FAT_EOC).getD c1 0 = FAT_EOC := by
            simp only [List.getD_eq_getElem?_getD]
            rw [List.getElem?_set_self hklt]
            rfl
          refine ⟨fata.set c1 FAT_EOC, ?_, by rw [List.length_set]; exact hklt⟩
          refine
            { hfat := by rw [hsbeq, htk]
              hlen := by rw [List.length_set]; exact F.hlen
              hkeep := keeps_sizes_trans F.hkeep hkeep1
              hP := ?_
              hother := ?_
              hself := ?_
              hnodup := List.nodup_singleton c1
              hdisk := ?_ }
          · intro x hx
            obtain ⟨h1, h2, _⟩ := F.hP x hx
            have hxk : c1 ≠ x := by
              intro heq
              rw [← heq] at h1
              rw [h1] at hk0
              rw [← heq] at h2
              exact h2 hk0
            refine ⟨?_, h2, ?_⟩
            · rw [← h1]
              simp only [List.getD_eq_getElem?_getD, List.getElem?_set_ne hxk]
            · simp only [List.mem_singleton]
              exact fun h => hxk h.symm
          · intro j hj
            rw [hsbeq, hsaeq]
            simp only [hrp]
            rw [List.getElem?_set_ne (fun h => hj h.symm)]
            exact F.hother j hj
          · refine ⟨{ d with data_index := c1 }, ?_, ?_⟩
            · rw [hsbeq, hsaeq]
              simp only [hrp]
              rw [List.getElem?_set_self (by omega)]
            · exact ⟨rfl, hk1, by rw [List.length_set]; exact hklt,
                by rw [hget]; decide, by rw [hget]; rfl⟩
          · intro blk _
            rw [hdisk1]
            exact F.hdisk blk (fun c hc => by cases hc)

theorem alloc_next_frame (P : Nat → Prop) (s0 s s1 : FS) (fat0 fat : List Nat) (rp c1 : Nat)
    (c : List Nat) (last : Nat)
    (hmax : fat0.length ≤ 65535) (hdbn : s0.superblock.data_block_num ≤ fat0.length)
    (F : WriteFrame P s0 s fat0 rp (c ++ [last]) fat)
    (h : alloc_next s (toI16 last) = .ok (s1, c1)) :
    ∃ fat1, WriteFrame P s0 s1 fat0 rp (c ++ [last] ++ [c1]) fat1 ∧ IsChain fat1 c1 [c1] := by
  have hkeep1 := (alloc_next_keeps s s1 _ c1 h).1
  have hdisk1 := (alloc_next_keeps s s1 _ c1 h).2
  obtain ⟨d, hdget, hchain⟩ := F.hself
  have hlastlt : last < fat.length :=
    IsChain_bounded fat _ _ hchain last (List.mem_append_right _ (List.mem_singleton_self _))
  unfold alloc_next at h
  split at h
  · cases h
  · rename_i nf hnf
    split at h
    · cases h
    · rename_i sa hsa
      split at h
      · cases h
      · rename_i sb hsb
        simp only [Except.ok.injEq, Prod.mk.injEq] at h
        obtain ⟨hs1, hc1⟩ := h
        subst hs1
        obtain ⟨fat', hfat', hnn, _, hsaeq⟩ := FAT_write_inv s sa _ _ hsa
        have hf' : fat' = fat := by
          rw [F.hfat] at hfat'
          exact (Option.some.inj hfat').symm
        subst hf'
        have hprev : toI16 (last : Int) = last :=
          toI16_nonneg last (by have := F.hlen; omega) hnn
        rw [hprev, Int.toNat_natCast] at hsaeq
        obtain ⟨fata, hfata, _, hlt, hsbeq⟩ := FAT_write_inv sa sb _ _ hsb
        have hfa : fata = fat'.set last (toU16 nf) := by
          rw [hsaeq] at hfata
          exact (Option.some.inj hfata).symm
        subst hfa
        have hsup : s.superblock = s0.superblock := F.hkeep.2.1
        have hlt' : toU16 nf < fat'.length := by
          rw [List.length_set] at hlt
          exact_mod_cast hlt
        obtain ⟨k, _, hk, hk1, hklt, hk0⟩ := alloc_index s fat' F.hfat
          (by rw [hsup, F.hlen]; exact hdbn) (by rw [F.hlen]; exact hmax) nf hnf hlt'
        have hck : c1 = k := by rw [← hc1, hk]
        subst hck
        rw [hk] at hsbeq hsaeq
        rw [Int.toNat_natCast] at hsbeq
        have hknot : c1 ∉ c ++ [last] := by
          intro hmem
          exact (IsChain_nonzero fat' _ _ hchain c1 hmem).2 hk0
        have hext := IsChain_extend fat' c1 hk1 hklt c d.data_index last hchain F.hnodup hknot
        have hget : ((fat'.set last c1).set c1 FAT_EOC).getD c1 0 = FAT_EOC := by
          simp only [List.getD_eq_getElem?_getD]
          rw [List.getElem?_set_self (by rw [List.length_set]; exact hklt)]
          rfl
        refine ⟨(fat'.set last c1).set c1 FAT_EOC, ?_, ?_⟩
        · refine
            { hfat := by rw [hsbeq]
              hlen := by rw [List.length_set, List.length_set]; exact F.hlen
              hkeep := keeps_sizes_trans F.hkeep hkeep1
              hP := ?_
              hother := ?_
              hself := ?_
              hnodup := ?_
              hdisk := ?_ }
          · intro x hx
            obtain ⟨h1, h2, h3⟩ := F.hP x hx
            have hxk : c1 ≠ x := by
              intro heq
              rw [← heq] at h1
              rw [h1] at hk0
              rw [← heq] at h2
              exact h2 hk0
            have hxl : last ≠ x := by
              intro heq
              apply h3
              rw [← heq]
              exact List.mem_append_right _ (List.mem_singleton_self _)
            refine ⟨?_, h2, ?_⟩
            · rw [← h1]
              simp only [List.getD_eq_getElem?_getD, List.getElem?_set_ne hxk,
                List.getElem?_set_ne hxl]
            · intro hmem
              rcases List.mem_append.mp hmem with hm | hm
              · exact h3 hm
              · exact hxk (List.mem_singleton.mp hm).symm
          · intro j hj
            rw [hsbeq, hsaeq]
            exact F.hother j hj
          · refine ⟨d, ?_, hext⟩
            rw [hsbeq, hsaeq]
            exact hdget
          · rw [List.nodup_append]
            refine ⟨F.hnodup, List.nodup_singleton c1, ?_⟩
            intro x hx1 hx2
            rw [List.mem_singleton.mp hx2] at hx1
            exact hknot hx1
          · intro blk hblk
            rw [hdisk1]
            exact F.hdisk blk (fun x hx => hblk x (List.mem_append_left _ hx))
        · exact ⟨rfl, hk1, by rw [List.length_set, List.length_set]; exact hklt,
            by rw [hget]; decide, by rw [hget]; rfl⟩

theorem IsChain_eoc_nil (fat : List Nat) (hmax : fat.length ≤ 65535) (l : List Nat)
    (h : IsChain fat FAT_EOC l) : l = [] := by
  cases l with
  | nil => rfl
  | cons b bs =>
    obtain ⟨hb, _, hlt, _, _⟩ := h
    unfold FAT_EOC at hb
    omega

theorem drop_eq_nil_length (l : List Nat) (p : Nat) (hp : p ≤ l.length) (h : l.drop p = []) :
    p = l.length := by
  have := congrArg List.length h
  simp only [List.length_drop, List.length_nil] at this
  omega

/-- The two allocation branches at the head of an iteration of `fs_write`: behind them
the loop stands on a block of the chain of the file. -/
theorem fs_write_alloc_frame (P : Nat → Prop) (s0 s sa sb : FS) (fat0 fat Lf : List Nat)
    (rp i ca cb : Nat) (v : WriteVars)
    (hmax : fat0.length ≤ 65535) (hdbn : s0.superblock.data_block_num ≤ fat0.length)
    (F : WriteFrame P s0 s fat0 rp Lf fat) (hpos : write_position fat Lf i v)
    (h1 : (if i = 0 ∧ v.currentIndex = FAT_EOC ∧ v.prev_index = -1
           then alloc_first s (rp : Int) else .ok (s, v.currentIndex)) = .ok (sa, ca))
    (h2 : (if ca = FAT_EOC then alloc_next sa v.prev_index else .ok (sa, ca)) = .ok (sb, cb)) :
    ∃ Lf2 fat2 p2, WriteFrame P s0 sb fat0 rp Lf2 fat2 ∧ p2 < Lf2.length ∧
      IsChain fat2 cb (Lf2.drop p2) ∧ ∀ x ∈ Lf, x ∈ Lf2 := by
  obtain ⟨p, hp, hcur, hend⟩ := hpos
  have hfmax : fat.length ≤ 65535 := by rw [F.hlen]; exact hmax
  by_cases hA : i = 0 ∧ v.currentIndex = FAT_EOC ∧ v.prev_index = -1
  · rw [if_pos hA] at h1
    -- the chain is empty
    have hnil : Lf.drop p = [] := by
      rw [hA.2.1] at hcur
      exact IsChain_eoc_nil fat hfmax _ hcur
    have hpl := drop_eq_nil_length Lf p hp hnil
    have hLf : Lf = [] := by
      rcases hend hpl with h | ⟨c, last, hcl, hprev⟩
      · exact h.1
      · exfalso
        obtain ⟨d, _, hchain⟩ := F.hself
        have hlast : last < fat.length :=
          IsChain_bounded fat _ _ hchain last
            (by rw [hcl]; exact List.mem_append_right _ (List.mem_singleton_self _))
        rw [hA.2.2] at hprev
        exact toI16_ne_neg_one last (by omega) hprev.symm
    subst hLf
    obtain ⟨fat1, F1, hlt⟩ := alloc_first_frame P s0 s sa fat0 fat rp ca hmax hdbn F h1
    have hne : ca ≠ FAT_EOC := by
      have := F1.hlen
      unfold FAT_EOC
      omega
    rw [if_neg hne] at h2
    simp only [Except.ok.injEq, Prod.mk.injEq] at h2
    obtain ⟨hs, hc⟩ := h2
    subst hs
    subst hc
    obtain ⟨d, _, hchain⟩ := F1.hself
    have hd : d.data_index = ca := hchain.1
    rw [hd] at hchain
    exact ⟨[ca], fat1, 0, F1, by simp, hchain, fun x hx => by cases hx⟩
  · rw [if_neg hA] at h1
    simp only [Except.ok.injEq, Prod.mk.injEq] at h1
    obtain ⟨hs, hc⟩ := h1
    subst hs
    subst hc
    by_cases hE : v.currentIndex = FAT_EOC
    · rw [if_pos hE] at h2
      have hnil : Lf.drop p = [] := by
        rw [hE] at hcur
        exact IsChain_eoc_nil fat hfmax _ hcur
      have hpl := drop_eq_nil_length Lf p hp hnil
      rcases hend hpl with h | ⟨c, last, hcl, hprev⟩
      · exact absurd ⟨h.2.2, hE, h.2.1⟩ hA
      · subst hcl
        rw [hprev] at h2
        obtain ⟨fat1, F1, hch⟩ :=
          alloc_next_frame P s0 s sb fat0 fat rp cb c last hmax hdbn F h2
        refine ⟨c ++ [last] ++ [cb], fat1, (c ++ [last]).length, F1, by simp, ?_,
          fun x hx => List.mem_append_left _ hx⟩
        rw [List.drop_left]
        exact hch
    · rw [if_neg hE] at h2
      simp only [Except.ok.injEq, Prod.mk.injEq] at h2
      obtain ⟨hs, hc⟩ := h2
      subst hs
      subst hc
      have hlt : p < Lf.length := by
        by_contra hge
        have hpl : p = Lf.length := by omega
        rw [hpl, List.drop_length] at hcur
        exact hE hcur
      exact ⟨Lf, fat, p, F, hlt, hcur, fun x hx => hx⟩

theorem fs_write_step_frame (P : Nat → Prop) (s0 s s1 : FS) (fat0 fat Lf : List Nat)
    (rp i : Nat) (buf : List Nat) (count : Nat) (nb : Int) (v v1 : WriteVars)
    (hmax : fat0.length ≤ 65535) (hdbn : s0.superblock.data_block_num ≤ fat0.length)
    (F : WriteFrame P s0 s fat0 rp Lf fat) (hpos : write_position fat Lf i v)
    (h : fs_write_step s (rp : Int) buf count nb i v = .ok (s1, v1)) :
    ∃ Lf1 fat1, WriteFrame P s0 s1 fat0 rp Lf1 fat1 ∧ write_position fat1 Lf1 (i + 1) v1 ∧
      ∀ x ∈ Lf, x ∈ Lf1 := by
  unfold fs_write_step at h
  split at h
  · cases h
  · rename_i sa ca hA
    split at h
    · cases h
    · rename_i sb cb hB
      split at h
      · cases h
      · rename_i ep hE
        split at h
        · cases h
        · rename_i sc hC
          split at h
          · cases h
          · rename_i next hN
            cases h
            obtain ⟨Lf2, fat2, p2, F2, hlt, hch, hsub⟩ :=
              fs_write_alloc_frame P s0 s sa sb fat0 fat Lf rp i ca cb v hmax hdbn F hpos hA hB
            obtain ⟨hcb, hcblt, hnext⟩ := IsChain_drop_step fat2 Lf2 cb p2 hlt hch
            obtain ⟨hF3, hD3, hdisk3⟩ := write_block_disk sb s1 buf _ hC
            have hk3 := (write_block_inv sb s1 buf _ hC).1
            have hfmax : fat2.length ≤ 65535 := by rw [F2.hlen]; exact hmax
            have hfat3 : s1.FAT = some fat2 := by rw [hF3]; exact F2.hfat
            have hread : FAT_read s1 (cb : Int) = .ok (fat2.getD cb 0) :=
              FAT_read_nat s1 fat2 cb hfat3 (by rw [hcb]; exact hcblt)
            rw [hread] at hN
            simp only [Except.ok.injEq] at hN
            subst hN
            rw [← hcb] at hnext
            have hnlt : fat2.getD cb 0 < 65536 := IsChain_first_lt fat2 _ _ hfmax hnext
            refine ⟨Lf2, fat2, ?_, ?_, hsub⟩
            · exact
                { hfat := hfat3
                  hlen := F2.hlen
                  hkeep := keeps_sizes_trans F2.hkeep hk3
                  hP := F2.hP
                  hother := fun j hj => by rw [hD3]; exact F2.hother j hj
                  hself := by rw [hD3]; exact F2.hself
                  hnodup := F2.hnodup
                  hdisk := fun blk hblk => by
                    have hmem : cb ∈ Lf2 := by rw [hcb]; exact List.getElem_mem _
                    have hne : blk ≠ cb + sb.superblock.data_start_index := by
                      rw [F2.hkeep.2.1]
                      exact hblk cb hmem
                    rw [hdisk3 blk hne]
                    exact F2.hdisk blk hblk }
            · refine ⟨p2 + 1, hlt, ?_, ?_⟩
              · simp only [toU16_of_lt _ hnlt]
                exact hnext
              · intro hp
                right
                refine ⟨Lf2.take p2, cb, ?_, by simp only⟩
                have hdrop : Lf2.drop p2 = [cb] := by
                  rw [List.drop_eq_getElem_cons hlt, hp, List.drop_length, hcb]
                rw [← hdrop, List.take_append_drop]

theorem FAT_read_inv (s : FS) (i : Int) (v : Nat) (h : FAT_read s i = .ok v) :
    ∃ fat, s.FAT = some fat ∧ 0 ≤ i ∧ i < fat.length ∧ v = fat.getD i.toNat 0 := by
  unfold FAT_read at h
  split at h
  · cases h
  · rename_i fat hfat
    split at h
    · rename_i hi
      cases h
      exact ⟨fat, hfat, hi.1, hi.2, rfl⟩
    · cases h

theorem fs_write_loop_frame (P : Nat → Prop) (s0 : FS) (fat0 : List Nat) (rp : Nat)
    (buf : List Nat) (count : Nat) (nb : Int)
    (hmax : fat0.length ≤ 65535) (hdbn : s0.superblock.data_block_num ≤ fat0.length) :
    ∀ (n i : Nat) (s s1 : FS) (v v1 : WriteVars) (Lf fat : List Nat),
      WriteFrame P s0 s fat0 rp Lf fat → write_position fat Lf i v →
      fs_write_loop (rp : Int) buf count nb n i s v = .ok (s1, v1) →
      ∃ Lf1 fat1, WriteFrame P s0 s1 fat0 rp Lf1 fat1 ∧ ∀ x ∈ Lf, x ∈ Lf1 := by
  intro n
  induction n with
  | zero =>
    intro i s s1 v v1 Lf fat F _ h
    simp only [fs_write_loop, Except.ok.injEq, Prod.mk.injEq] at h
    obtain ⟨hs, _⟩ := h
    subst hs
    exact ⟨Lf, fat, F, fun x hx => hx⟩
  | succ n ih =>
    intro i s s1 v v1 Lf fat F hpos h
    unfold fs_write_loop at h
    split at h
    · cases h
    · rename_i sa va hstep
      obtain ⟨Lf1, fat1, F1, hpos1, hsub1⟩ :=
        fs_write_step_frame P s0 s sa fat0 fat Lf rp i buf count nb v va hmax hdbn F hpos hstep
      obtain ⟨Lf2, fat2, F2, hsub2⟩ := ih (i + 1) sa s1 va v1 Lf1 fat1 F1 hpos1 h
      exact ⟨Lf2, fat2, F2, fun x hx => hsub2 x (hsub1 x hx)⟩

theorem go_to_offset_loop_position (s : FS) (fat : List Nat) (hfat : s.FAT = some fat)
    (hmax : fat.length ≤ 65535) (Lf : List Nat) :
    ∀ (n p cur : Nat) (prev : Int) (cur1 : Nat) (prev1 : Int), p ≤ Lf.length →
      IsChain fat cur (Lf.drop p) → go_to_offset_loop s n cur prev = .ok (cur1, prev1) →
      ∃ p1, p1 ≤ Lf.length ∧ IsChain fat cur1 (Lf.drop p1) ∧
        (p1 = Lf.length → (n = 0 ∧ p1 = p ∧ prev1 = prev) ∨
          (∃ (c : List Nat) (last : Nat), Lf = c ++ [last] ∧ prev1 = toI16 last)) := by
  intro n
  induction n with
  | zero =>
    intro p cur prev cur1 prev1 hp hch h
    simp only [go_to_offset_loop, Except.ok.injEq, Prod.mk.injEq] at h
    obtain ⟨h1, h2⟩ := h
    subst h1
    subst h2
    exact ⟨p, hp, hch, fun _ => Or.inl ⟨rfl, rfl, rfl⟩⟩
  | succ n ih =>
    intro p cur prev cur1 prev1 hp hch h
    unfold go_to_offset_loop at h
    split at h
    · cases h
    · rename_i next hread
      obtain ⟨fat', hfat', _, hlt, hnext⟩ := FAT_read_inv s _ _ hread
      have hf : fat' = fat := by
        rw [hfat] at hfat'
        exact (Option.some.inj hfat').symm
      subst hf
      have hplt : p < Lf.length := by
        by_contra hge
        have hpl : p = Lf.length := by omega
        rw [hpl, List.drop_length] at hch
        have hc : cur = FAT_EOC := hch
        rw [hc] at hlt
        unfold FAT_EOC at hlt
        omega
      obtain ⟨hcb, _, hnx⟩ := IsChain_drop_step fat' Lf cur p hplt hch
      rw [Int.toNat_natCast] at hnext
      rw [← hcb, ← hnext] at hnx
      have hnlt : next < 65536 := IsChain_first_lt fat' _ _ hmax hnx
      rw [toU16_of_lt next hnlt] at h
      obtain ⟨p1, hp1, hch1, hend1⟩ := ih (p + 1) next _ cur1 prev1 hplt hnx h
      refine ⟨p1, hp1, hch1, ?_⟩
      intro hpl
      right
      rcases hend1 hpl with ⟨_, hpp, hprev⟩ | hx
      · refine ⟨Lf.take p, cur, ?_, hprev⟩
        have hdrop : Lf.drop p = [cur] := by
          rw [List.drop_eq_getElem_cons hplt, ← hpp, hpl, List.drop_length, hcb]
        rw [← hdrop, List.take_append_drop]
      · exact hx

/-- What `fs_write` on a session of directory slot `rp` leaves untouched, whatever it
returns: every FAT entry of a protected index, every other directory slot, and every
block of the store that is not a block of the chain the file has after the call. -/
theorem fs_write_frame (L : Limits) (P : Nat → Prop) (s s1 : FS) (fd r : Int)
    (buf : List Nat) (count : Nat) (e : OpenFileEntry) (d : RootDirEntry)
    (fat0 Lf0 : List Nat) (rp : Nat)
    (hguard : session_guard L s fd = .ok (some e)) (hrp : e.rootdir_ptr = (rp : Int))
    (hd : dir_read s e.rootdir_ptr = .ok d)
    (hfat : s.FAT = some fat0) (hmax : fat0.length ≤ 65535)
    (hdbn : s.superblock.data_block_num ≤ fat0.length)
    (hchain : IsChain fat0 d.data_index Lf0) (hnodup : Lf0.Nodup)
    (hP : ∀ x, P x → fat0.getD x 0 ≠ 0 ∧ x ∉ Lf0)
    (hw : fs_write L s fd buf count = .ok (r, s1)) :
    ∃ Lf1 fat1, s1.FAT = some fat1 ∧ fat1.length = fat0.length ∧
      (∀ x, P x → fat1.getD x 0 = fat0.getD x 0 ∧ x ∉ Lf1) ∧
      (∀ j, j ≠ rp → s1.root_directory[j]? = s.root_directory[j]?) ∧
      (∃ d1, s1.root_directory[rp]? = some d1 ∧ IsChain fat1 d1.data_index Lf1) ∧
      Lf1.Nodup ∧ s1.superblock = s.superblock ∧
      (∀ blk, (∀ c ∈ Lf1, blk ≠ c + s.superblock.data_start_index) →
        block_read s1.disk blk = block_read s.disk blk) := by
  have hdget := (dir_read_getElem s _ d hd).2
  rw [hrp, Int.toNat_natCast] at hdget
  have F0 : WriteFrame P s s fat0 rp Lf0 fat0 :=
    { hfat := hfat
      hlen := rfl
      hkeep := keeps_sizes_refl s
      hP := fun x hx => ⟨rfl, (hP x hx).1, (hP x hx).2⟩
      hother := fun _ _ => rfl
      hself := ⟨d, hdget, hchain⟩
      hnodup := hnodup
      hdisk := fun _ _ => rfl }
  unfold fs_write at hw
  rw [hguard] at hw
  simp only [hd] at hw
  split at hw
  · cases hw
  · rename_i cur prev hgo
    split at hw
    · cases hw
    · rename_i nb hnb
      split at hw
      · cases hw
      · rename_i sa va hloop
        -- the position the walk to the cursor ends in
        have hpos : write_position fat0 Lf0 0
            { currentIndex := cur, prev_index := prev, bytesWritten := 0,
              frontPadding := e.offset % BLOCK_SIZE, endPadding := 0 } := by
          unfold go_to_offset at hgo
          rw [hd] at hgo
          simp only at hgo
          rw [toU16_of_lt _ (IsChain_first_lt fat0 _ _ hmax hchain)] at hgo
          obtain ⟨p1, hp1, hch1, hend1⟩ :=
            go_to_offset_loop_position s fat0 hfat hmax Lf0 _ 0 _ _ cur prev (Nat.zero_le _)
              hchain hgo
          refine ⟨p1, hp1, hch1, ?_⟩
          intro hpl
          rcases hend1 hpl with ⟨_, hp0, hprev⟩ | hx
          · left
            refine ⟨?_, hprev, rfl⟩
            apply List.length_eq_zero.mp
            omega
          · exact Or.inr hx
        rw [hrp] at hloop
        obtain ⟨Lf1, fat1, F1, _⟩ :=
          fs_write_loop_frame P s fat0 rp buf count nb hmax hdbn _ 0 s sa _ va Lf0 fat0 F0 hpos
            hloop
        split at hw
        · simp only [Except.ok.injEq, Prod.mk.injEq] at hw
          obtain ⟨_, hs⟩ := hw
          subst hs
          exact ⟨Lf1, fat1, F1.hfat, F1.hlen, fun x hx => ⟨(F1.hP x hx).1, (F1.hP x hx).2.2⟩,
            F1.hother, F1.hself, F1.hnodup, F1.hkeep.2.1, F1.hdisk⟩
        · split at hw
          · cases hw
          · rename_i e1 he1
            split at hw
            · cases hw
            · rename_i sb hsb
              split at hw
              · cases hw
              · rename_i d2 hd2
                split at hw
                · cases hw
                · rename_i sc hsc
                  simp only [Except.ok.injEq, Prod.mk.injEq] at hw
                  obtain ⟨_, hs⟩ := hw
                  subst hs
                  obtain ⟨_, hsbeq⟩ := oft_write_inv sa sb fd _ hsb
                  obtain ⟨hrange, hsceq⟩ := dir_write_inv sb sc _ _ hsc
                  have hd2get := (dir_read_getElem sb _ d2 hd2).2
                  rw [hrp, Int.toNat_natCast] at hd2get hsceq
                  rw [hrp] at hrange
                  rw [hsbeq] at hd2get hsceq hrange
                  simp only at hd2get hsceq hrange
                  obtain ⟨d1, hd1, hch1⟩ := F1.hself
                  have hdd : d2 = d1 := by
                    rw [hd1] at hd2get
                    exact (Option.some.inj hd2get).symm
                  subst hdd
                  refine ⟨Lf1, fat1, ?_, F1.hlen,
                    fun x hx => ⟨(F1.hP x hx).1, (F1.hP x hx).2.2⟩, ?_, ?_, F1.hnodup, ?_, ?_⟩
                  · rw [hsceq]
                    exact F1.hfat
                  · intro j hj
                    rw [hsceq]
                    simp only
                    rw [List.getElem?_set_ne (fun h => hj h.symm)]
                    exact F1.hother j hj
                  · have hnew : sc.root_directory[rp]? = some
                        { d2 with
                          file_size := toU32 (max d.file_size
                            (toU32 (e1.offset + va.bytesWritten))) } := by
                      rw [hsceq]
                      simp only
                      rw [List.getElem?_set_self (by omega)]
                    exact ⟨_, hnew, hch1⟩
                  · rw [hsceq]
                    exact F1.hkeep.2.1
                  · intro blk hblk
                    rw [hsceq]
                    exact F1.hdisk blk hblk

theorem chain_invariant_fat (s : FS) (hinv : chain_invariant s) :
    ∃ fat, s.FAT = some fat ∧ fat.length = s.superblock.data_block_num := by
  have h := hinv.1
  cases hfat : s.FAT with
  | none => rw [hfat] at h; cases h
  | some fat =>
    rw [hfat] at h
    simp only [Option.map_some', Option.some.injEq] at h
    exact ⟨fat, rfl, h⟩

theorem chain_invariant_chain (s : FS) (fat : List Nat) (hfat : s.FAT = some fat)
    (hinv : chain_invariant s) (j : Nat) (g : RootDirEntry)
    (hg : s.root_directory[j]? = some g) (hga : ¬ slot_free g) :
    ∃ c, file_chain s g = some c ∧ c.Nodup ∧ IsChain fat g.data_index c := by
  have h := hinv.2.1 g (List.getElem?_mem hg) hga
  unfold has_chain at h
  split at h
  · exact absurd h id
  · rename_i c hc
    refine ⟨c, hc, h, ?_⟩
    unfold file_chain at hc
    rw [hfat] at hc
    exact chain_of_isChain fat _ _ c hc

theorem chain_invariant_disjoint (s : FS) (hinv : chain_invariant s) (j k : Nat)
    (g1 g2 : RootDirEntry) (c1 c2 : List Nat) (hjk : j ≠ k)
    (h1 : s.root_directory[j]? = some g1) (h2 : s.root_directory[k]? = some g2)
    (ha1 : ¬ slot_free g1) (ha2 : ¬ slot_free g2)
    (hc1 : file_chain s g1 = some c1) (hc2 : file_chain s g2 = some c2) :
    ∀ b ∈ c1, b ∉ c2 := by
  have hpw := List.pairwise_iff_getElem.mp hinv.2.2
  obtain ⟨hj, hgj⟩ := List.getElem?_eq_some.mp h1
  obtain ⟨hk, hgk⟩ := List.getElem?_eq_some.mp h2
  rcases Nat.lt_or_gt_of_ne hjk with hlt | hgt
  · have h := hpw j k hj hk hlt
    rw [hgj, hgk] at h
    have hd := h ha1 ha2
    unfold chains_disjoint at hd
    rw [hc1, hc2] at hd
    exact hd
  · have h := hpw k j hk hj hgt
    rw [hgj, hgk] at h
    have hd := h ha2 ha1
    unfold chains_disjoint at hd
    rw [hc1, hc2] at hd
    intro b hb1 hb2
    exact hd b hb2 hb1

theorem file_chain_of_isChain (s : FS) (fat : List Nat) (hfat : s.FAT = some fat)
    (hmax : fat.length ≤ 65535) (g : RootDirEntry) (c : List Nat)
    (hc : IsChain fat g.data_index c) (hnd : c.Nodup) : file_chain s g = some c := by
  unfold file_chain
  rw [hfat]
  exact isChain_chain_of fat hmax c _ _ hc
    (nodup_bounded_length c fat.length hnd (IsChain_bounded fat c _ hc))

/-- C20: in a state with the FAT chain invariant, a call of `fs_write` on a session of
an active file `f` that returns (with the byte count, or with -1) leaves every other
active file `g` as it was: its directory entry, its chain, the FAT entry of every block
of its chain and the contents of every data block of its chain.  A block of the store
whose contents changed is a data block of the chain that `f` has after the call. -/
theorem fs_write_isolated (L : Limits) (s s1 : FS) (fd r : Int) (buf : List Nat) (count : Nat)
    (e : OpenFileEntry) (f : RootDirEntry)
    (hinv : chain_invariant s) (hdbn : s.superblock.data_block_num ≤ 65535)
    (hguard : session_guard L s fd = .ok (some e))
    (hf : dir_read s e.rootdir_ptr = .ok f) (hfa : ¬ slot_free f)
    (hw : fs_write L s fd buf count = .ok (r, s1)) :
    (∀ (j : Nat) (g : RootDirEntry) (c : List Nat), (j : Int) ≠ e.rootdir_ptr →
      s.root_directory[j]? = some g → ¬ slot_free g → file_chain s g = some c →
      s1.root_directory[j]? = some g ∧ file_chain s1 g = some c ∧
      ∀ b ∈ c, FAT_read s1 b = FAT_read s b ∧
        block_read s1.disk (b + s.superblock.data_start_index) =
          block_read s.disk (b + s.superblock.data_start_index)) ∧
    (∃ f1 c1, dir_read s1 e.rootdir_ptr = .ok f1 ∧ file_chain s1 f1 = some c1 ∧
      ∀ blk, block_read s1.disk blk ≠ block_read s.disk blk →
        ∃ b ∈ c1, blk = b + s.superblock.data_start_index) := by
  obtain ⟨fat0, hfat, hlen⟩ := chain_invariant_fat s hinv
  have hmax : fat0.length ≤ 65535 := by rw [hlen]; exact hdbn
  obtain ⟨hrp0, hfget⟩ := dir_read_getElem s _ f hf
  obtain ⟨rp, hrp⟩ : ∃ rp : Nat, e.rootdir_ptr = (rp : Int) :=
    ⟨e.rootdir_ptr.toNat, (Int.toNat_of_nonneg hrp0).symm⟩
  rw [hrp, Int.toNat_natCast] at hfget
  obtain ⟨Lf0, hLf0, hnd0, hch0⟩ := chain_invariant_chain s fat0 hfat hinv rp f hfget hfa
  obtain ⟨Lf1, fat1, hfat1, hlen1, hP1, hother, ⟨f1, hf1, hch1⟩, hnd1, hsup, hdisk⟩ :=
    fs_write_frame L
      (fun x => ∃ (j : Nat) (g : RootDirEntry) (c : List Nat), j ≠ rp ∧
        s.root_directory[j]? = some g ∧ ¬ slot_free g ∧ file_chain s g = some c ∧ x ∈ c)
      s s1 fd r buf count e f fat0 Lf0 rp hguard hrp hf hfat hmax (by rw [hlen]) hch0 hnd0
      (by
        rintro x ⟨j, g, c, hj, hg, hga, hc, hx⟩
        obtain ⟨c', hc', _, hch'⟩ := chain_invariant_chain s fat0 hfat hinv j g hg hga
        rw [hc] at hc'
        cases hc'
        exact ⟨(IsChain_nonzero fat0 c _ hch' x hx).2,
          chain_invariant_disjoint s hinv j rp g f c Lf0 hj hg hfget hga hfa hc hLf0 x hx⟩)
      hw
  have hmax1 : fat1.length ≤ 65535 := by rw [hlen1]; exact hmax
  refine ⟨?_, ?_⟩
  · intro j g c hj hg hga hc
    have hjrp : j ≠ rp := by
      intro h
      apply hj
      rw [hrp, h]
    obtain ⟨c', hc', hnd, hch⟩ := chain_invariant_chain s fat0 hfat hinv j g hg hga
    rw [hc] at hc'
    cases hc'
    have hPc : ∀ x ∈ c, fat1.getD x 0 = fat0.getD x 0 ∧ x ∉ Lf1 :=
      fun x hx => hP1 x ⟨j, g, c, hjrp, hg, hga, hc, hx⟩
    have hch1g : IsChain fat1 g.data_index c :=
      IsChain_congr fat0 fat1 hlen1 c _ (fun x hx => (hPc x hx).1) hch
    refine ⟨by rw [hother j hjrp]; exact hg,
      file_chain_of_isChain s1 fat1 hfat1 hmax1 g c hch1g hnd, ?_⟩
    intro b hb
    have hblt : b < fat0.length := IsChain_bounded fat0 c _ hch b hb
    refine ⟨?_, ?_⟩
    · rw [FAT_read_nat s1 fat1 b hfat1 (by rw [hlen1]; exact hblt),
        FAT_read_nat s fat0 b hfat hblt, (hPc b hb).1]
    · apply hdisk
      intro x hx heq
      have hbx : b = x := by omega
      rw [hbx] at hb
      exact (hPc x hb).2 hx
  · refine ⟨f1, Lf1, ?_, file_chain_of_isChain s1 fat1 hfat1 hmax1 f1 Lf1 hch1 hnd1, ?_⟩
    · rw [hrp]
      exact dir_read_nat s1 rp f1 hf1
    · intro blk hne
      by_contra hno
      apply hne
      apply hdisk
      intro x hx heq
      exact hno ⟨x, hx, heq⟩

/-! ### The FAT chain invariant under the operations that return -/

theorem chain_invariant_congr (s s1 : FS) (h1 : s1.FAT = s.FAT)
    (h2 : s1.root_directory = s.root_directory) (h3 : s1.superblock = s.superblock)
    (h : chain_invariant s) : chain_invariant s1 := by
  simp only [chain_invariant, has_chain, chains_disjoint, file_chain, h1, h2, h3] at h ⊢
  exact h

theorem chain_of_eoc (fat : List Nat) (n : Nat) : chain_of fat n FAT_EOC = some [] := by
  cases n <;> simp [chain_of]

/-- Sessions are not part of the invariant: `fs_open`, `fs_close`, `fs_lseek` and
`fs_read` leave the FAT, the directory and the superblock as they are. -/
theorem session_ops_keep_chain_invariant (L : Limits) (s s1 : FS) (fd r : Int)
    (filename : Option (List Nat)) (offset count : Nat) (buf out : List Nat)
    (hinv : chain_invariant s)
    (h : fs_open L s filename = .ok (r, s1) ∨ fs_close L s fd = .ok (r, s1) ∨
      fs_lseek L s fd offset = .ok (r, s1) ∨ fs_read L s fd buf count = .ok (r, out, s1)) :
    chain_invariant s1 := by
  have key : s1 = s ∨ ∃ i x, oft_write s i x = .ok s1 := by
    rcases h with h | h | h | h
    · unfold fs_open at h
      split at h
      · cases h; exact Or.inl rfl
      · split at h
        · cases h
        · split at h
          · cases h; exact Or.inl rfl
          · split at h
            · cases h
            · split at h
              · cases h; exact Or.inl rfl
              · split at h
                · cases h
                · split at h
                  · cases h
                  · rename_i sa hsa
                    cases h
                    exact Or.inr ⟨_, _, hsa⟩
    · unfold fs_close at h
      split at h
      · cases h
      · cases h; exact Or.inl rfl
      · split at h
        · cases h
        · rename_i sa hsa
          cases h
          exact Or.inr ⟨_, _, hsa⟩
    · unfold fs_lseek at h
      split at h
      · cases h
      · cases h; exact Or.inl rfl
      · split at h
        · cases h
        · cases h
        · split at h
          · cases h; exact Or.inl rfl
          · split at h
            · cases h
            · rename_i sa hsa
              cases h
              exact Or.inr ⟨_, _, hsa⟩
    · unfold fs_read at h
      split at h
      · cases h
      · cases h; exact Or.inl rfl
      · split at h
        · cases h
        · split at h
          · cases h
          · split at h
            · cases h
            · split at h
              · cases h
              · split at h
                · simp only [Except.ok.injEq, Prod.mk.injEq] at h
                  exact Or.inl h.2.2.symm
                · split at h
                  · cases h
                  · rename_i sa hsa
                    simp only [Except.ok.injEq, Prod.mk.injEq] at h
                    rw [← h.2.2]
                    exact Or.inr ⟨_, _, hsa⟩
  rcases key with hs | ⟨i, x, hw⟩
  · rw [hs]; exact hinv
  · obtain ⟨_, hs⟩ := oft_write_inv s s1 i x hw
    rw [hs]
    exact chain_invariant_congr s _ rfl rfl rfl hinv

theorem chain_invariant_set_empty (s : FS) (i : Nat) (x : RootDirEntry)
    (hx : x.data_index = FAT_EOC) (h : chain_invariant s) :
    chain_invariant { s with root_directory := s.root_directory.set i x } := by
  obtain ⟨fat, hfat, _⟩ := chain_invariant_fat s h
  have hxc : ∀ t : FS, t.FAT = some fat → file_chain t x = some [] := by
    intro t ht
    unfold file_chain
    rw [ht, hx]
    exact chain_of_eoc fat _
  have hsame : ∀ e, file_chain { s with root_directory := s.root_directory.set i x } e =
      file_chain s e := fun _ => rfl
  refine ⟨h.1, ?_, ?_⟩
  · intro e he hea
    rcases List.mem_or_eq_of_mem_set he with hm | hm
    · have := h.2.1 e hm hea
      unfold has_chain at this ⊢
      rw [hsame]
      exact this
    · unfold has_chain
      rw [hm, hsame, hxc s hfat]
      exact List.nodup_nil
  · rw [List.pairwise_iff_getElem]
    intro a b ha hb hab
    have hpw := List.pairwise_iff_getElem.mp h.2.2
    simp only [List.length_set] at ha hb
    simp only [List.getElem_set]
    intro h1 h2
    unfold chains_disjoint
    simp only [hsame]
    by_cases hia : i = a
    · simp only [hia, if_true]
      rw [hxc s hfat]
      intro b hb
      cases hb
    · by_cases hib : i = b
      · simp only [hib, if_true]
        rw [hxc s hfat]
        intro b _ hb
        cases hb
      · simp only [hia, hib, if_false] at h1 h2 ⊢
        exact hpw a b ha hb hab h1 h2

/-- Whenever `fs_create` returns, the invariant still holds: the slot it fills starts
with the empty chain. -/
theorem fs_create_keeps_chain_invariant (L : Limits) (s s1 : FS) (r : Int)
    (filename : Option (List Nat)) (hinv : chain_invariant s)
    (h : fs_create L s filename = .ok (r, s1)) : chain_invariant s1 := by
  unfold fs_create at h
  split at h
  · cases h; exact hinv
  · split at h
    · cases h
    · cases h; exact hinv
    · split at h
      · cases h; exact hinv
      · split at h
        · cases h
        · split at h
          · cases h
          · rename_i sa hsa
            cases h
            obtain ⟨_, hs⟩ := dir_write_inv s s1 _ _ hsa
            rw [hs]
            exact chain_invariant_set_empty s _ _ rfl hinv

/-- Whenever `fs_write` on a session of an active file returns, the invariant still
holds: the chain of the file stays a chain of pairwise distinct blocks, grown only by
entries that were free, and every other chain is untouched. -/
theorem fs_write_keeps_chain_invariant (L : Limits) (s s1 : FS) (fd r : Int)
    (buf : List Nat) (count : Nat) (e : OpenFileEntry) (f : RootDirEntry)
    (hinv : chain_invariant s) (hdbn : s.superblock.data_block_num ≤ 65535)
    (hguard : session_guard L s fd = .ok (some e))
    (hf : dir_read s e.rootdir_ptr = .ok f) (hfa : ¬ slot_free f)
    (hw : fs_write L s fd buf count = .ok (r, s1)) : chain_invariant s1 := by
  obtain ⟨fat0, hfat, hlen⟩ := chain_invariant_fat s hinv
  have hmax : fat0.length ≤ 65535 := by rw [hlen]; exact hdbn
  obtain ⟨hrp0, hfget⟩ := dir_read_getElem s _ f hf
  obtain ⟨rp, hrp⟩ : ∃ rp : Nat, e.rootdir_ptr = (rp : Int) :=
    ⟨e.rootdir_ptr.toNat, (Int.toNat_of_nonneg hrp0).symm⟩
  rw [hrp, Int.toNat_natCast] at hfget
  obtain ⟨Lf0, hLf0, hnd0, hch0⟩ := chain_invariant_chain s fat0 hfat hinv rp f hfget hfa
  obtain ⟨Lf1, fat1, hfat1, hlen1, hP1, hother, ⟨f1, hf1, hch1⟩, hnd1, hsup, _⟩ :=
    fs_write_frame L
      (fun x => ∃ (j : Nat) (g : RootDirEntry) (c : List Nat), j ≠ rp ∧
        s.root_directory[j]? = some g ∧ ¬ slot_free g ∧ file_chain s g = some c ∧ x ∈ c)
      s s1 fd r buf count e f fat0 Lf0 rp hguard hrp hf hfat hmax (by rw [hlen]) hch0 hnd0
      (by
        rintro x ⟨j, g, c, hj, hg, hga, hc, hx⟩
        obtain ⟨c', hc', _, hch'⟩ := chain_invariant_chain s fat0 hfat hinv j g hg hga
        rw [hc] at hc'
        cases hc'
        exact ⟨(IsChain_nonzero fat0 c _ hch' x hx).2,
          chain_invariant_disjoint s hinv j rp g f c Lf0 hj hg hfget hga hfa hc hLf0 x hx⟩)
      hw
  have hmax1 : fat1.length ≤ 65535 := by rw [hlen1]; exact hmax
  have hself : file_chain s1 f1 = some Lf1 :=
    file_chain_of_isChain s1 fat1 hfat1 hmax1 f1 Lf1 hch1 hnd1
  -- an active entry of another slot keeps its chain
  have hkeep : ∀ (j : Nat) (g : RootDirEntry), j ≠ rp → s1.root_directory[j]? = some g →
      ¬ slot_free g → ∃ c, file_chain s g = some c ∧ file_chain s1 g = some c ∧ c.Nodup ∧
        s.root_directory[j]? = some g ∧ ∀ x ∈ c, x ∉ Lf1 := by
    intro j g hj hg hga
    rw [hother j hj] at hg
    obtain ⟨c, hc, hnd, hch⟩ := chain_invariant_chain s fat0 hfat hinv j g hg hga
    have hPc : ∀ x ∈ c, fat1.getD x 0 = fat0.getD x 0 ∧ x ∉ Lf1 :=
      fun x hx => hP1 x ⟨j, g, c, hj, hg, hga, hc, hx⟩
    exact ⟨c, hc, file_chain_of_isChain s1 fat1 hfat1 hmax1 g c
      (IsChain_congr fat0 fat1 hlen1 c _ (fun x hx => (hPc x hx).1) hch) hnd, hnd, hg,
      fun x hx => (hPc x hx).2⟩
  refine ⟨?_, ?_, ?_⟩
  · rw [hfat1, hsup]
    simp only [Option.map_some', Option.some.injEq]
    rw [hlen1, hlen]
  · intro g hg hga
    obtain ⟨j, hj⟩ := List.mem_iff_getElem?.mp hg
    unfold has_chain
    by_cases hjr : j = rp
    · rw [hjr, hf1] at hj
      cases hj
      rw [hself]
      exact hnd1
    · obtain ⟨c, _, hc1, hnd, _, _⟩ := hkeep j g hjr hj hga
      rw [hc1]
      exact hnd
  · rw [List.pairwise_iff_getElem]
    intro a b ha hb hab h1 h2
    have hga : s1.root_directory[a]? = some s1.root_directory[a] := List.getElem?_eq_getElem ha
    have hgb : s1.root_directory[b]? = some s1.root_directory[b] := List.getElem?_eq_getElem hb
    unfold chains_disjoint
    by_cases har : a = rp
    · have hbr : b ≠ rp := by omega
      obtain ⟨c, _, hc1, _, _, hdis⟩ := hkeep b _ hbr hgb h2
      have heq : s1.root_directory[a] = f1 := by
        have hga' : s1.root_directory[rp]? = some s1.root_directory[a] := by
          rw [← har]
          exact hga
        exact Option.some.inj (hga'.symm.trans hf1)
      rw [heq, hself, hc1]
      intro x hx1 hx2
      exact hdis x hx2 hx1
    · obtain ⟨ca, hca, hca1, _, hsa, hdisa⟩ := hkeep a _ har hga h1
      by_cases hbr : b = rp
      · have heq : s1.root_directory[b] = f1 := by
          have hgb' : s1.root_directory[rp]? = some s1.root_directory[b] := by
            rw [← hbr]
            exact hgb
          exact Option.some.inj (hgb'.symm.trans hf1)
        rw [heq, hself, hca1]
        exact hdisa
      · obtain ⟨cb, hcb, hcb1, _, hsb, _⟩ := hkeep b _ hbr hgb h2
        rw [hca1, hcb1]
        exact chain_invariant_disjoint s hinv a b _ _ ca cb (by omega) hsa hsb h1 h2 hca hcb

/-! ### Evaluation at concrete states -/

/-- Sanity check of the concrete states: writing the 5000 bytes at cursor 0 of the empty
file succeeds and yields `demo_written 5000`. -/
theorem demo_write_ok :
    fs_write demo_limits demo_opened 0 demo_data 5000 = .ok (5000, demo_written 5000) := by
  decide!

/-- C1 (code defect): the end-to-end scenario of the spec.  After the 5000 bytes are
written, `fs_lseek(fd, 4090)` succeeds, and `fs_read(fd, buf, 20)` does not return 20
bytes: on the second block `endPadding` is computed as `2 * 4096 - (0 + 20)`, so the
length of the copy, `4096 - 0 - 8172`, wraps around in `size_t` and the copy runs past
both buffers. -/
theorem scenario_read_overruns :
    fs_write demo_limits demo_opened 0 demo_data 5000 = .ok (5000, demo_written 5000) ∧
    fs_lseek demo_limits (demo_written 5000) 0 4090 = .ok (0, demo_written 4090) ∧
    fs_read demo_limits (demo_written 4090) 0 (List.replicate 20 0) 20
      = .error .buffer_overrun := by
  decide!

/-- C4 (code defect): no FAT entry is free and one byte is written to the empty file.
The call does not return -1: the -1 of `next_free_fat` becomes the index `0xFFFF`, and
`FAT[0xFFFF] = FAT_EOC` is a write outside the 8 entries of the table. -/
theorem write_without_free_block :
    next_free_fat demo_full = .ok (-1) ∧
    fs_write demo_limits demo_full 0 [1] 1 = .error (.fat_index 65535) := by
  decide!

/-- C5 (code defect): the file has 5000 bytes and the cursor is at 100; a read of 4900
bytes returns -1 and not `min(4900, 5000 - 100)`.  On the second block `endPadding` is
`2 * 4096 - (0 + 4900)`, `frontPadding` being already reset, so only 4800 bytes are
counted. -/
theorem read_across_blocks_fails :
    Except.map Prod.fst (fs_read demo_limits (demo_written 100) 0 (List.replicate 4900 0) 4900)
      = .ok (-1) := by
  decide!

/-- C6 (code defect): the file has size 0 and `fs_lseek(fd, 5)` returns 0 and moves the
cursor to 5: the bound check compares `fs_stat(fd)` with itself. -/
theorem lseek_past_end_succeeds :
    fs_stat demo_limits demo_opened 0 = .ok 0 ∧
    fs_lseek demo_limits demo_opened 0 5
      = .ok (0, { demo_opened with
                  open_file_table :=
                    { offset := 5, rootdir_ptr := 0 } :: List.replicate 31 demo_unused }) := by
  decide!

/-- C7 (code defect): session 0 is open on the file `b`, so `fs_open("a.txt")` binds
session 1 to slot 0 with cursor 0, yet the call returns 0 and not 1; `fs_stat` on the
returned session reports 28672, the size of `b`, and not the size 0 of `a.txt`. -/
theorem open_returns_zero :
    fs_open demo_limits demo_other_open (some demo_name)
      = .ok (0, { demo_other_open with
                  open_file_table :=
                    { offset := 0, rootdir_ptr := 1 } :: { offset := 0, rootdir_ptr := 0 } ::
                      List.replicate 30 demo_unused }) ∧
    fs_stat demo_limits
      { demo_other_open with
        open_file_table :=
          { offset := 0, rootdir_ptr := 1 } :: { offset := 0, rootdir_ptr := 0 } ::
            List.replicate 30 demo_unused } 0 = .ok 28672 := by
  decide!

/-- C9 (code defect): `a.txt` has two blocks and no open session; `fs_delete("a.txt")`
does not return: after the walk has freed the chain, `FAT[currentIndex] = 0` is executed
with `currentIndex = FAT_EOC`, a write outside the 8 entries of the table. -/
theorem delete_writes_past_table :
    fs_delete demo_limits demo_closed (some demo_name) = .error (.fat_index 65535) := by
  decide!

/-- Witness of `fs_delete_writes_sentinel_index`: the empty file `a.txt`, no session open. -/
theorem fs_delete_writes_sentinel_index_witness :
    fs_delete demo_limits demo_created (some demo_name) = .error (.fat_index FAT_EOC) :=
  fs_delete_writes_sentinel_index demo_limits demo_created demo_name [0xFFFF, 0, 0, 0, 0, 0, 0, 0]
    [] 0 (demo_slot 0 0xFFFF) (by decide) rfl (by decide) (by decide!) (by decide) (by decide!)
    (by decide!) rfl List.nodup_nil

/-- Witness of `fs_create_contract`: `create("a.txt")` on the freshly formatted volume. -/
theorem fs_create_contract_witness :
    ¬ create_rejects demo_limits demo_fresh (some demo_name) ∧
    fs_create demo_limits demo_fresh (some demo_name) = .ok (0, demo_created) := by
  have h := fs_create_contract demo_limits demo_fresh (some demo_name) (by decide!)
    (by intro e he; rw [List.eq_of_mem_replicate he]; rfl)
    (by intro n hn; cases hn; decide)
  have hacc : ¬ create_rejects demo_limits demo_fresh (some demo_name) := by
    intro hrej
    have hfail := h.1 hrej
    revert hfail
    decide!
  exact ⟨hacc, by decide!⟩

/-- Sanity check of the concrete states: writing `demo_patch` at cursor 100 succeeds and
yields `demo_overwritten`. -/
theorem demo_overwrite_ok :
    fs_write demo_limits (demo_written 100) 0 demo_patch 3 = .ok (3, demo_overwritten) := by
  decide!

/-- Witness of `fs_write_postcondition`: three bytes written at cursor 100 of the
5000-byte file. -/
theorem fs_write_postcondition_witness :
    (3 : Int) = (3 : Nat) ∧
    oft_read demo_overwritten 0 = .ok { offset := 100 + 3, rootdir_ptr := 0 } ∧
    ∃ d1, dir_read demo_overwritten 0 = .ok d1 ∧
      d1.file_size = Nat.max 5000 (100 + 3) ∧
      (100 + 3 ≤ 5000 → d1.file_size = 5000) ∧ 5000 ≤ d1.file_size :=
  fs_write_postcondition demo_limits (demo_written 100) demo_overwritten 0 3 demo_patch 3
    { offset := 100, rootdir_ptr := 0 } (demo_slot 5000 1) [0xFFFF, 2, 0xFFFF, 0, 0, 0, 0, 0]
    [1, 2] (by decide!) (by decide!) (by decide) (by decide) rfl (by decide)
    (by decide)
    (by decide) (by decide!) (by decide)

/-- Witness of `fs_write_preserves_surroundings`: three bytes written at cursor 100 of the
5000-byte file. -/
theorem fs_write_preserves_surroundings_witness :
    ∃ old, read_back demo_limits (demo_written 100) 0 5000 = .ok (5000, old) ∧
      read_back demo_limits demo_overwritten 0 5000
        = .ok (5000, old.take 100 ++ demo_patch ++ old.drop (100 + 3)) :=
  fs_write_preserves_surroundings demo_limits (demo_written 100) demo_overwritten 0 3 demo_patch
    { offset := 100, rootdir_ptr := 0 } (demo_slot 5000 1) [0xFFFF, 2, 0xFFFF, 0, 0, 0, 0, 0]
    [1, 2] (by decide!) (by decide!) rfl (by decide)
    (by decide)
    (by decide) (by decide) (by decide!) (by decide) (by decide) (by decide) (by decide)
    (by decide!) (by decide)

theorem next_free_fat_least_witness :
    (∃ k : Nat, next_free_fat demo_zero_head = .ok (k : Int) ∧ 1 ≤ k ∧
      k < demo_zero_head.superblock.data_block_num ∧
      [0, 2, 0xFFFF, 0, 0, 0, 0, 0].getD k 0 = 0 ∧
      ∀ j, 1 ≤ j → j < k → [0, 2, 0xFFFF, 0, 0, 0, 0, 0].getD j 0 ≠ 0) ∨
    (next_free_fat demo_zero_head = .ok (-1) ∧
      ∀ j, 1 ≤ j → j < demo_zero_head.superblock.data_block_num →
        [0, 2, 0xFFFF, 0, 0, 0, 0, 0].getD j 0 ≠ 0) :=
  next_free_fat_least demo_zero_head [0, 2, 0xFFFF, 0, 0, 0, 0, 0] rfl (by decide)

/-- C14: with the session id -1 each of `fs_close`, `fs_stat`, `fs_lseek`, `fs_read` and
`fs_write` passes the test `fd >= FS_OPEN_MAX_COUNT` and reads `open_file_table[-1]`,
outside the table, instead of returning -1. -/
theorem negative_session_reads_outside_table :
    fs_close demo_limits demo_opened (-1) = .error (.oft_index (-1)) ∧
    fs_stat demo_limits demo_opened (-1) = .error (.oft_index (-1)) ∧
    fs_lseek demo_limits demo_opened (-1) 0 = .error (.oft_index (-1)) ∧
    fs_read demo_limits demo_opened (-1) [0] 1 = .error (.oft_index (-1)) ∧
    fs_write demo_limits demo_opened (-1) [7] 1 = .error (.oft_index (-1)) := by
  decide!

/-- C16: on a store where every read and write of a data block of the file fails,
`fs_read` of 10 bytes returns 10 (with the caller's array filled from the untouched
bounce buffer) and `fs_write` of one byte returns 1, not -1. -/
theorem store_failure_not_surfaced :
    block_read demo_short_store.disk (1 + demo_short_store.superblock.data_start_index) = none ∧
    (block_write demo_short_store.disk (1 + demo_short_store.superblock.data_start_index)
      demo_zero_block).1 = -1 ∧
    fs_read demo_limits demo_short_store 0 (List.replicate 10 1) 10 =
      .ok (10, List.replicate 10 0,
        { demo_short_store with
          open_file_table := { offset := 10, rootdir_ptr := 0 } :: List.replicate 31 demo_unused }) ∧
    fs_write demo_limits demo_short_store 0 [7] 1 =
      .ok (1, { demo_short_store with
          open_file_table := { offset := 1, rootdir_ptr := 0 } :: List.replicate 31 demo_unused }) := by
  decide!

/-- C11: a volume whose header is consistent but whose signature is `XCS150FS` is
mounted: `fs_mount` returns 0 and loads the FAT and the directory, because the test at
the signature rejects the call when `strcmp` reports equality. -/
theorem mount_accepts_wrong_signature :
    demo_wrong_signature.signature ≠ signature_literal ∧
    fs_mount demo_limits demo_unmounted (some (demo_image demo_wrong_signature 8)) =
      .ok (0, demo_loaded demo_wrong_signature (List.replicate 32 demo_unused)) := by
  decide!

/-- C12: the well-formed volume of 256 blocks (253 data blocks, one FAT block) is
rejected by `fs_mount` with nothing loaded: the low byte of `total_block_num` is 0, so
the signature field reads as the C string `ECS150FS` and the inverted test fires.  The
well-formed volume of 11 blocks is mounted with the FAT, the directory and the session
table as the claim describes. -/
theorem mount_rejects_256_block_volume :
    (fs_mount demo_limits demo_unmounted (some (demo_image demo_superblock_256 253))).map
      (fun r => (r.1, r.2.FAT)) = .ok (-1, none) ∧
    fs_mount demo_limits demo_unmounted (some (demo_image demo_superblock 8)) =
      .ok (0, demo_loaded demo_superblock (List.replicate 32 demo_unused)) := by
  decide!

/-- C13: a mount that fails at the geometry check (`data_start_index` is 5 for 3) returns
-1 with the FAT and the directory loaded and the store open; the following `fs_umount`
returns 0, `readFatBlocks` reports the FAT as already loaded, and a mount of the valid
volume is rejected. -/
theorem failed_mount_leaves_fat_loaded :
    fs_mount demo_limits demo_unmounted (some (demo_image demo_bad_geometry 8)) =
      .ok (-1, demo_loaded demo_bad_geometry demo_unmounted.open_file_table) ∧
    (demo_loaded demo_bad_geometry demo_unmounted.open_file_table).FAT =
      some [0xFFFF, 0, 0, 0, 0, 0, 0, 0] ∧
    fs_umount (demo_loaded demo_bad_geometry demo_unmounted.open_file_table) =
      .ok (0, { demo_loaded demo_bad_geometry demo_unmounted.open_file_table with
                FAT := none, disk := none },
           some (demo_image demo_bad_geometry 8)) ∧
    readFatBlocks (demo_loaded demo_bad_geometry demo_unmounted.open_file_table) =
      .ok (-1, demo_loaded demo_bad_geometry demo_unmounted.open_file_table) ∧
    fs_mount demo_limits (demo_loaded demo_bad_geometry demo_unmounted.open_file_table)
        (some (demo_image demo_superblock 8)) =
      .ok (-1, demo_loaded demo_bad_geometry demo_unmounted.open_file_table) := by
  decide!

/-- C19: a write of 4900 bytes at cursor 100 spans two blocks.  The first block counts
`4096 - 100 = 3996` bytes; on the last block `endPadding` is `2 * 4096 - (0 + 4900)`,
computed with `frontPadding` already reset to 0, so that block counts 804 bytes and not
904.  The loop ends with `bytesWritten = 4800`, the branch `bytesWritten != count` is
taken and `fs_write` returns -1. -/
theorem block_span_counts_short :
    block_span 100 4900 = .ok 2 ∧
    chunk_len 100 0 = 3996 ∧
    last_end_padding 2 0 4900 = .ok 3292 ∧
    chunk_len 0 3292 = 804 ∧
    (fs_write_loop 0 (List.replicate 4900 9) 4900 2 2 0 (demo_written 100)
      { currentIndex := 1, prev_index := -1, bytesWritten := 0, frontPadding := 100,
        endPadding := 0 }).map (fun r => r.2.bytesWritten) = .ok 4800 ∧
    (fs_write demo_limits (demo_written 100) 0 (List.replicate 4900 9) 4900).map Prod.fst =
      .ok (-1) := by
  decide!

theorem mount_umount_round_trip_witness :
    fs_mount demo_limits demo_unmounted (some (demo_image demo_superblock 8)) =
      .ok (0, demo_loaded demo_superblock (List.replicate 32 demo_unused)) ∧
    fs_umount (demo_loaded demo_superblock (List.replicate 32 demo_unused)) =
      .ok (0, { demo_loaded demo_superblock (List.replicate 32 demo_unused) with
                FAT := none, disk := none },
           some (demo_image demo_superblock 8)) :=
  ⟨by decide!,
   mount_umount_round_trip demo_limits demo_unmounted
    (demo_loaded demo_superblock (List.replicate 32 demo_unused))
    (demo_image demo_superblock 8) (by decide) (by decide!) (by decide!) (by decide)
    (by
      intro _ b hb
      have h1 : (demo_image demo_superblock 8)[(demo_loaded demo_superblock
          (List.replicate 32 demo_unused)).superblock.fat_block_num]? =
          some ([255, 255] ++ List.replicate 4094 0) := by decide!
      rw [h1] at hb
      cases hb
      decide!)⟩

theorem fs_write_isolated_witness :
    chain_invariant demo_two_files ∧
    fs_write demo_limits demo_two_files 0 (List.replicate 4096 7) 4096 =
      .ok (4096, demo_two_files_grown) ∧
    (demo_two_files_grown.root_directory[1]? = some (demo_slot_b 4096 3) ∧
      file_chain demo_two_files_grown (demo_slot_b 4096 3) = some [3] ∧
      ∀ b ∈ ([3] : List Nat), FAT_read demo_two_files_grown b = FAT_read demo_two_files b ∧
        block_read demo_two_files_grown.disk (b + demo_two_files.superblock.data_start_index) =
          block_read demo_two_files.disk (b + demo_two_files.superblock.data_start_index)) :=
  ⟨by decide!, by decide!,
   (fs_write_isolated demo_limits demo_two_files demo_two_files_grown 0 4096
      (List.replicate 4096 7) 4096 { offset := 8192, rootdir_ptr := 0 } (demo_slot 8192 1)
      (by decide!) (by decide) (by decide!) (by decide!) (by decide) (by decide!)).1
    1 (demo_slot_b 4096 3) [3] (by decide) (by decide!) (by decide) (by decide!)⟩

/-- C17: the state `demo_two_files_closed` satisfies the FAT chain invariant (`a.txt` on
the chain 1 -> 2, `b` on block 3, no session open), and `fs_delete("a.txt")` in it does
not complete: after the entries 1 and 2 are cleared the walk stands on `FAT_EOC` and the
statement `FAT[currentIndex] = 0` writes `FAT[0xFFFF]`, outside the 8 entries of the
table. -/
theorem delete_breaks_out_of_invariant_state :
    chain_invariant demo_two_files_closed ∧
    file_chain demo_two_files_closed (demo_slot 8192 1) = some [1, 2] ∧
    file_chain demo_two_files_closed (demo_slot_b 4096 3) = some [3] ∧
    fs_delete demo_limits demo_two_files_closed (some demo_name) =
      .error (.fat_index 65535) := by
  decide!

end ECS150FS
